import Mathlib

/-!
# Verification of the BytesPathfinder graph search engine

This file contains a shallow embedding of the BytesPathfinder plugin
(`BytesPathfinder.cpp` together with its header): the node/edge/graph data
model, the indexed binary min-heap `FBytesPathfindingHeap`, the single-source
relaxation algorithm `FindPathsToNodes`, the A* search `FindPath`, and the
reading operations `GetNodesInRange` and `GetPath`, plus the graph builder
`AddNode`.  Theorems about these definitions settle the specification claims.

Modelling conventions:
* `int32` values are embedded as `Int`; every arithmetic operation the C++
  performs on `int32` results goes through `i32`, the two's-complement
  wrap-around, so overflow behaves as on the common flat-wrapping targets.
* node pointers (`FBytesNode*`) are embedded as indices into the node array;
  the heap's backing `std::vector<FBytesNode*>` becomes
  `Array (Option Nat)` (a null pointer is `none`).
* the unbounded recursion of `SortUp` / the `while` loops are embedded with
  explicit fuel; for every state arising in the theorems below the fuel is
  proved sufficient, so the embedding agrees with the C++ there.  (On
  corrupted states the C++ recursion can diverge or touch invalid memory.)
* `FVector2D` holds IEEE doubles, but the only two things the claims need of
  positions are that they are stored values copied around exactly and that
  the heuristic computed from them is abstracted; so positions are embedded
  as an exact pair `Vec2` and `CalcHeuristicDistance` is a parameter `hfun`
  of the search, constrained in the theorems exactly as the claims
  constrain it (consistency etc.).
-/

set_option maxHeartbeats 1000000

namespace BytesPathfinder

/-- Two's-complement wrap of an `Int` into the signed 32-bit range,
modelling the value produced by C++ `int32` arithmetic. -/
def i32 (x : Int) : Int := (x + 2 ^ 31) % 2 ^ 32 - 2 ^ 31

/-- Exact carrier for `FVector2D` positions (only ever stored and copied by
the code embedded here, never computed with). -/
structure Vec2 where
  vx : Int
  vy : Int
  deriving Repr, DecidableEq

/-- `FBytesNode`.  Field defaults are the C++ in-class initializers;
`HeapIndex` has no initializer in the source (indeterminate), it is modelled
as `0` and is only read after being written in all verified paths. -/
structure BNode where
  nodeID : Int := -1
  parentID : Int := -1
  gCost : Int := 0
  hCost : Int := 0
  loc : Vec2 := ⟨0, 0⟩
  heapIndex : Nat := 0
  deriving Repr, DecidableEq

/-- Default node, used as the junk value for out-of-range reads (which are
undefined behaviour in the C++ and unreachable under the theorems'
hypotheses). -/
def dNode : BNode := {}

/-- `FBytesNode::FCost`, the A* total cost `GCost + HCost` (int32 sum). -/
def fcost (nd : BNode) : Int := i32 (nd.gCost + nd.hCost)

/-- The strict comparison used by `SortUp`:
`Node->FCost() < Parent->FCost() || Node->FCost() == Parent->FCost() && Node->HCost < Parent->HCost`. -/
def nodeLtB (a b : BNode) : Bool :=
  fcost a < fcost b || (fcost a == fcost b && a.hCost < b.hCost)

/-- The strict comparison used by `SortDown` (same lexicographic order,
written with `>` in the source). -/
def nodeGtB (a b : BNode) : Bool :=
  fcost a > fcost b || (fcost a == fcost b && a.hCost > b.hCost)

/-- `FBytesEdge`: target node id and travel weight. -/
structure BEdge where
  nodeID : Int
  weight : Int
  deriving Repr, DecidableEq

/-- `FBytesGraph`: parallel arrays of nodes and adjacency lists
(`FBytesEdges::NeighbouringEdges`).  `GraphType` is irrelevant to the
embedded operations and omitted. -/
structure Graph where
  nodes : Array BNode
  edges : Array (Array BEdge)
  deriving Repr

/-- Combined mutable state of a running search: the graph's node array and
the heap's backing vector (`Items`) and element count (`Size`). -/
structure AState where
  nodes : Array BNode
  items : Array (Option Nat)
  hsize : Nat
  deriving Repr

/-- Read a node by index (junk `dNode` out of range). -/
def getN (s : AState) (x : Nat) : BNode := s.nodes.getD x dNode

/-- Write the `HeapIndex` field of node `x`. -/
def setHI (ns : Array BNode) (x k : Nat) : Array BNode :=
  ns.setD x { ns.getD x dNode with heapIndex := k }

/-- The occupant of heap slot `k` (`Items[k]`), `none` for a null pointer. -/
def itemAt (s : AState) (k : Nat) : Option Nat := s.items.getD k none

/-- Dereference slot `k`: the node index stored there (junk `0` for null,
which is undefined behaviour in the C++). -/
def slotId (s : AState) (k : Nat) : Nat := (itemAt s k).getD 0

/-- `FBytesPathfindingHeap::Swap`: exchange the slots of nodes `x` and `y`
and update both back-pointers. -/
def hswap (s : AState) (x y : Nat) : AState :=
  let ix := (getN s x).heapIndex
  let iy := (getN s y).heapIndex
  { s with
    items := (s.items.setD ix (some y)).setD iy (some x)
    nodes := setHI (setHI s.nodes x iy) y ix }

/-- `FBytesPathfindingHeap::SortUp`, fuelled.  Each recursive call compares
node `x` with the occupant of its parent slot and swaps on strict
improvement.  In every well-formed state the slot index strictly decreases
on each swap, so `heapIndex + 1` fuel (as supplied by `sortUpF`) makes the
embedding agree with the C++ recursion. -/
def sortUp : Nat → AState → Nat → AState
  | 0, s, _ => s
  | fuel + 1, s, x =>
    let i := (getN s x).heapIndex
    let p := slotId s ((i - 1) / 2)
    if nodeLtB (getN s x) (getN s p) then
      sortUp fuel (hswap s p x) x
    else s

/-- `SortUp` entry point with sufficient fuel. -/
def sortUpF (s : AState) (x : Nat) : AState :=
  sortUp ((getN s x).heapIndex + 1) s x

/-- `FBytesPathfindingHeap::Add`
(`Node->HeapIndex = Size; Items[Size] = Node; SortUp(Node); Size++`). -/
def hAdd (s : AState) (x : Nat) : AState :=
  let s1 : AState :=
    { s with
      nodes := setHI s.nodes x s.hsize
      items := s.items.setD s.hsize (some x) }
  let s2 := sortUpF s1 x
  { s2 with hsize := s2.hsize + 1 }

/-- One iteration step of `FBytesPathfindingHeap::SortDown`'s `while (true)`
loop.  Returns `none` when the loop exits. -/
def sortDownStep (s : AState) (x : Nat) : Option AState :=
  let i := (getN s x).heapIndex
  let li := i * 2 + 1
  let ri := i * 2 + 2
  if li < s.hsize then
    let swapIdx :=
      if ri < s.hsize && nodeGtB (getN s (slotId s li)) (getN s (slotId s ri)) then ri
      else li
    let y := slotId s swapIdx
    if nodeGtB (getN s x) (getN s y) then some (hswap s x y) else none
  else none

/-- `FBytesPathfindingHeap::SortDown`, fuelled; in well-formed states the
slot index of `x` strictly increases and is bounded by `Size`, so
`hsize + 1` fuel (as supplied by `sortDownF`) suffices. -/
def sortDown : Nat → AState → Nat → AState
  | 0, s, _ => s
  | fuel + 1, s, x =>
    match sortDownStep s x with
    | some s' => sortDown fuel s' x
    | none => s

/-- `SortDown` entry point with sufficient fuel. -/
def sortDownF (s : AState) (x : Nat) : AState :=
  sortDown (s.hsize + 1) s x

/-- `FBytesPathfindingHeap::RemoveFirst`: returns the root occupant, moves
the last occupant to the root, decrements `Size` and sifts down. -/
def removeFirst (s : AState) : Nat × AState :=
  let first := slotId s 0
  let sz := s.hsize - 1
  let last := slotId s sz
  let s1 : AState :=
    { s with
      hsize := sz
      items := s.items.setD 0 (some last)
      nodes := setHI s.nodes last 0 }
  (first, sortDownF s1 last)

/-- `FBytesPathfindingHeap::UpdateItem` (sift up only). -/
def updateItem (s : AState) (x : Nat) : AState := sortUpF s x

/-- `FBytesPathfindingHeap::IsNotEmpty`. -/
def isNotEmpty (s : AState) : Bool := s.hsize > 0

/-- `FBytesPathfindingHeap::Contains`: a linear scan over the *entire*
backing vector (`for (auto Elem : Items)`), including the slots at indices
`≥ Size` left stale by earlier removals. -/
def hContains (s : AState) (x : Nat) : Bool :=
  s.items.any (fun e => e == some x)

/-- A fresh heap of the given capacity beside a node array:
`Items.resize(Capacity)` fills with null pointers, `Size = 0`. -/
def heapInit (nodes : Array BNode) (capacity : Nat) : AState :=
  { nodes := nodes, items := mkArray capacity none, hsize := 0 }

/-- The `INITIAL_DISTANCE` "unreached" sentinel. -/
def INITIAL_DISTANCE : Int := 2000000

/-- Write the `GCost` field of node `x`. -/
def setG (ns : Array BNode) (x : Nat) (c : Int) : Array BNode :=
  ns.setD x { ns.getD x dNode with gCost := c }

/-- Write the `HCost` field of node `x`. -/
def setH (ns : Array BNode) (x : Nat) (c : Int) : Array BNode :=
  ns.setD x { ns.getD x dNode with hCost := c }

/-- Write the `ParentID` field of node `x`. -/
def setP (ns : Array BNode) (x : Nat) (p : Int) : Array BNode :=
  ns.setD x { ns.getD x dNode with parentID := p }

/-- The adjacency list `Graph.Edges[i].NeighbouringEdges` (junk empty out of
range, which is undefined behaviour in the C++). -/
def adjAt (edges : Array (Array BEdge)) (i : Nat) : Array BEdge :=
  edges.getD i #[]

/-- One relaxation of `FindPathsToNodes`'s inner loop: for the edge `e` out
of the extracted node (heap index `u`, `NodeID` field `nid`), compare
`Graph.Nodes[Node->NodeID].GCost + Weight` against the neighbour's `GCost`
and on strict improvement update cost and parent and sift the neighbour
up. -/
def relaxEdge (u : Nat) (s : AState) (e : BEdge) : AState :=
  let nid := ((getN s u).nodeID).toNat
  let dist := i32 ((getN s nid).gCost + e.weight)
  let v := e.nodeID.toNat
  if dist < (getN s v).gCost then
    let s1 : AState := { s with nodes := setP (setG s.nodes v dist) v (getN s u).nodeID }
    updateItem s1 v
  else s

/-- The `while (Unvisited.IsNotEmpty())` loop of `FindPathsToNodes`,
fuelled; each iteration removes exactly one heap element, so `hsize` fuel
makes the embedding agree with the C++. -/
def findPathsLoop (edges : Array (Array BEdge)) : Nat → AState → AState
  | 0, s => s
  | fuel + 1, s =>
    if isNotEmpty s then
      let r := removeFirst s
      let s2 := (adjAt edges ((getN r.2 r.1).nodeID).toNat).foldl (relaxEdge r.1) r.2
      findPathsLoop edges fuel s2
    else s

/-- `UBytesPathfinder::FindPathsToNodes` (the Dijkstra-style single-source
search): set the start node's `GCost` to `0`, bulk-load every node into a
fresh heap of capacity `Nodes.Num()` in array order, then drain the heap
relaxing edges.  No reset of costs or parents is performed. -/
def findPathsToNodes (g : Graph) (startID : Nat) : Graph :=
  let nodes0 := setG g.nodes startID 0
  let s0 := heapInit nodes0 g.nodes.size
  let s1 := (List.range g.nodes.size).foldl (fun s i => hAdd s i) s0
  let s2 := findPathsLoop g.edges s1.hsize s1
  { g with nodes := s2.nodes }

/-- `UBytesPathfinder::InitNodes`: reset every node's cost to the sentinel,
heuristic to `0` and parent to `-1` ("none"). -/
def initNodes (ns : Array BNode) : Array BNode :=
  ns.map fun nd => { nd with gCost := INITIAL_DISTANCE, hCost := 0, parentID := -1 }

/-- State of a running `FindPath`: heap + nodes, and the `ClosedSet`
(modelled as the list of inserted `NodeID` values; only membership is ever
consulted). -/
structure PState where
  ast : AState
  closed : List Int
  deriving Repr

/-- The body of `FindPath`'s neighbour loop for one edge `e` out of the
current node (heap index `u`): skip closed neighbours, skip open and
strictly better neighbours, otherwise update parent/cost/heuristic and
either re-prioritize or insert. -/
def astarRelax (hfun : Nat → Nat → Int) (targetID u : Nat) (st : PState) (e : BEdge) :
    PState :=
  let v := e.nodeID.toNat
  if (getN st.ast v).nodeID ∈ st.closed then st
  else
    let mc := i32 ((getN st.ast u).gCost + e.weight)
    if hContains st.ast v && (getN st.ast v).gCost < mc then st
    else
      let ns1 := setH (setG (setP st.ast.nodes v (getN st.ast u).nodeID) v mc) v
        (hfun v targetID)
      let s1 : AState := { st.ast with nodes := ns1 }
      if hContains s1 v then { st with ast := updateItem s1 v }
      else { st with ast := hAdd s1 v }

/-- The `while (OpenSet.IsNotEmpty())` loop of `FindPath`, fuelled.  The
`Bool` result records which exit was taken: `true` for the early
`"Path Found"` return upon extracting the target, `false` for running out
of open nodes (`"No Path Found"`).  Under the theorems' hypotheses the loop
is shown to take at most `Nodes.Num()` iterations, so the supplied fuel
makes the embedding agree with the C++. -/
def astarLoop (edges : Array (Array BEdge)) (hfun : Nat → Nat → Int) (targetID : Nat) :
    Nat → PState → PState × Bool
  | 0, st => (st, false)
  | fuel + 1, st =>
    if isNotEmpty st.ast then
      let r := removeFirst st.ast
      let nid := (getN r.2 r.1).nodeID
      let st1 : PState := { ast := r.2, closed := nid :: st.closed }
      if nid == (targetID : Int) then (st1, true)
      else
        let st2 := (adjAt edges nid.toNat).foldl (astarRelax hfun targetID r.1) st1
        astarLoop edges hfun targetID fuel st2
    else (st, false)

/-- `UBytesPathfinder::FindPath` (A*): reset all nodes, seed the start node
with cost `0` and its heuristic, insert it into a fresh heap of capacity
`Nodes.Num()`, and run the loop.  `hfun` abstracts
`CalcHeuristicDistance` (floor of the Euclidean distance between the two
nodes' stored positions, computed on doubles in the C++).  The returned
`Bool` is the success signal (which exit was logged). -/
def findPath (hfun : Nat → Nat → Int) (g : Graph) (startID targetID : Nat) :
    Graph × Bool :=
  let nodes1 := initNodes g.nodes
  let nodes2 := setH (setG nodes1 startID 0) startID (hfun startID targetID)
  let s0 := heapInit nodes2 g.nodes.size
  let s1 := hAdd s0 startID
  let r := astarLoop g.edges hfun targetID g.nodes.size ⟨s1, []⟩
  ({ g with nodes := r.1.ast.nodes }, r.2)

/-- `UBytesPathfinder::GetNodesInRange`: collect the `NodeID` field of every
node whose `GCost` is `≤ MaxTravelCost`, in array order. -/
def getNodesInRange (g : Graph) (maxTravelCost : Int) : List Int :=
  (g.nodes.foldl
    (fun acc nd => if nd.gCost ≤ maxTravelCost then acc ++ [nd.nodeID] else acc)
    ([] : List Int))

/-- `TArray::IsValidIndex`. -/
def isValidIndex (g : Graph) (i : Int) : Bool :=
  0 ≤ i && i < (g.nodes.size : Int)

/-- The `ParentID` field of the node at (int32) index `i` (junk `dNode` out
of range). -/
def parentAt (g : Graph) (i : Int) : Int :=
  (g.nodes.getD i.toNat dNode).parentID

/-- The retrace loop of `GetPath`, fuelled: while the current id differs
from the start id, append it and move to its parent.  `none` models fuel
exhaustion — states on which the C++ loop never terminates within the node
array (it either leaves the array through a `-1`/invalid parent, which is
undefined behaviour, or cycles forever). -/
def retrace (g : Graph) (startNodeID : Int) : Nat → Int → List Int → Option (List Int)
  | 0, _, _ => none
  | fuel + 1, cur, acc =>
    if cur == startNodeID then some acc
    else retrace g startNodeID fuel (parentAt g cur) (acc ++ [cur])

/-- `UBytesPathfinder::GetPath`: validate both indices, bail out if the
target was never reached, optionally re-run A*, then retrace the parent
chain from target to start and reverse it.  The first component is `none`
exactly when the retrace loop fails to terminate (see `retrace`); the
second component is the final graph (the graph is passed by reference and
mutated in place by the optional A* run). -/
def getPath (hfun : Nat → Nat → Int) (g : Graph) (startNodeID targetNodeID : Int)
    (bRecalculate : Bool) : Option (List Int) × Graph :=
  if !(isValidIndex g startNodeID) || !(isValidIndex g targetNodeID) then (some [], g)
  else if parentAt g targetNodeID == -1 then (some [], g)
  else
    let g' := if bRecalculate then (findPath hfun g startNodeID.toNat targetNodeID.toNat).1
      else g
    match retrace g' startNodeID (g'.nodes.size + 1) targetNodeID [] with
    | some collected => (some collected.reverse, g')
    | none => (none, g')

/-- `UBytesPathfinder::AddNode`: create a node, set its `NodeID` to the
current count, append it, *then* write `Location2D` on the (already copied)
local variable, and append an empty adjacency slot.  The dead store is
reproduced faithfully: `stored` is what lands in the array, `newNode2` is
the local after the late position write. -/
def addNode (g : Graph) (location2D : Vec2) : Int × Graph :=
  let stored : BNode := { nodeID := (g.nodes.size : Int) }
  let newNode2 : BNode := { stored with loc := location2D }
  let g1 : Graph := { nodes := g.nodes.push stored, edges := g.edges.push #[] }
  (newNode2.nodeID, g1)

/-! ### Specification-side notions

These definitions are the mathematical vocabulary the claims are stated
with; they are read off the data model (edges, weights, parent links), not
from any particular algorithm. -/

/-- The adjacency structure contains a (directed, as stored) edge from node
`u` to node `v` of weight `w`. -/
def EdgeIn (edges : Array (Array BEdge)) (u v : Nat) (w : Int) : Prop :=
  (⟨(v : Int), w⟩ : BEdge) ∈ (adjAt edges u).toList

/-- A walk from `start` to a node, together with its accumulated weight. -/
inductive Walk (edges : Array (Array BEdge)) (start : Nat) : Nat → Int → Prop where
  | refl : Walk edges start start 0
  | step {u v : Nat} {c w : Int} :
      Walk edges start u c → EdgeIn edges u v w → Walk edges start v (c + w)

/-- `v` is reachable from `start` along stored edges. -/
def Reachable (edges : Array (Array BEdge)) (start v : Nat) : Prop :=
  ∃ c, Walk edges start v c

/-- The predecessor chain of `v` (its `ParentID` links) walks back to
`start` through the node set `D`, and the recorded `GCost`s telescope along
actual edges: each chain node's cost is its parent's cost plus the
connecting edge weight.  With `D := fun _ => True` this is exactly "the
node holds a predecessor chain realizing its cost". -/
inductive Realizes (ns : Array BNode) (edges : Array (Array BEdge)) (start : Nat)
    (D : Nat → Prop) : Nat → Prop where
  | base : Realizes ns edges start D start
  | step {u v : Nat} {w : Int} :
      Realizes ns edges start D u → D u → EdgeIn edges u v w →
      (ns.getD v dNode).parentID = (u : Int) →
      (ns.getD v dNode).gCost = (ns.getD u dNode).gCost + w →
      Realizes ns edges start D v

/-- `k`-fold iteration of the `ParentID` link, exactly as the retrace loop
of `GetPath` follows it. -/
def pIter (g : Graph) : Nat → Int → Int
  | 0, cur => cur
  | k + 1, cur => pIter g k (parentAt g cur)

/-! ### Concrete instances used by counterexamples and witnesses -/

/-- A node at position `(i, 0)` with id `i`, as produced by a fixed-up
graph builder. -/
def mkN (i : Nat) : BNode := { nodeID := (i : Int), loc := ⟨(i : Int), 0⟩ }

/-- The all-zero heuristic (the floor of the Euclidean distance when every
stored position coincides, which is trivially consistent). -/
def hZero : Nat → Nat → Int := fun _ _ => 0

/-- Two nodes joined by an undirected edge of weight `3000000`, costs and
parents reset by `initNodes`: node `1` is reachable from node `0` at true
cost `3000000`, which is above the "unreached" sentinel. -/
def gBigWeight : Graph :=
  { nodes := initNodes #[mkN 0, mkN 1]
    edges := #[#[⟨1, 3000000⟩], #[⟨0, 3000000⟩]] }

/-- A three-node path `0 — 1 — 2` whose two undirected edges each weigh
`2^30`, so the true `0 → 2` cost `2^31` overflows `int32`.  All stored
positions coincide at the origin, so the floor-Euclidean heuristic between
any two nodes is exactly `0` (the all-zero heuristic `hZero`). -/
def gOverflow : Graph :=
  { nodes := #[{ nodeID := 0 }, { nodeID := 1 }, { nodeID := 2 }]
    edges := #[#[⟨1, 1073741824⟩], #[⟨0, 1073741824⟩, ⟨2, 1073741824⟩], #[⟨1, 1073741824⟩]] }

/-- A single node holding exactly the "unreached" sentinel cost. -/
def gSentinel : Graph :=
  { nodes := #[{ nodeID := 0, gCost := 2000000 }], edges := #[#[]] }

/-- Three nodes whose parent links form the cycle `0 ↔ 1`, with node `2` as
an unrelated start: a state that passes `GetPath`'s validation but whose
retrace loop neither reaches the start nor ever reads index `-1`. -/
def gCycle : Graph :=
  { nodes := #[{ nodeID := 0, parentID := 1 }, { nodeID := 1, parentID := 0 },
               { nodeID := 2 }]
    edges := #[#[], #[], #[]] }

/-- A one-node, zero-edge graph (witness instance). -/
def gOne : Graph := { nodes := #[mkN 0], edges := #[#[]] }

/-- Two nodes joined by an undirected unit-weight edge, costs and parents
reset by `initNodes` (witness instance for the single-source search). -/
def gLine : Graph :=
  { nodes := initNodes #[mkN 0, mkN 1]
    edges := #[#[⟨1, 1⟩], #[⟨0, 1⟩]] }

/-- Two nodes with costs `5` and `3` and no edges: backing store for the
heap counterexample (`Add 0; RemoveFirst; Add 1; RemoveFirst` returns keys
`5` then `3`). -/
def heapCexNodes : Array BNode :=
  #[{ nodeID := 0, gCost := 5 }, { nodeID := 1, gCost := 3 }]

/-- Two nodes with cached costs `0` and `3` (witness instance for the range
query). -/
def gTwoCosts : Graph :=
  { nodes := #[{ nodeID := 0, gCost := 0 }, { nodeID := 1, gCost := 3 }]
    edges := #[#[], #[]] }

/-- Two nodes whose cached parent chain runs `1 → 0` (witness instance for
the retrace claims). -/
def gChain : Graph :=
  { nodes := #[{ nodeID := 0, parentID := -1 }, { nodeID := 1, parentID := 0 }]
    edges := #[#[], #[]] }

/-! ### Heap specification vocabulary -/

/-- The strict lexicographic slot order of the source's comparisons:
`a` is strictly better than `b` when its total cost is smaller, or equal
with smaller heuristic cost. -/
def KLt (a b : BNode) : Prop :=
  fcost a < fcost b ∨ (fcost a = fcost b ∧ a.hCost < b.hCost)

/-- The corresponding non-strict order. -/
def KLe (a b : BNode) : Prop :=
  fcost a < fcost b ∨ (fcost a = fcost b ∧ a.hCost ≤ b.hCost)

instance (a b : BNode) : Decidable (KLt a b) := by unfold KLt; infer_instance

instance (a b : BNode) : Decidable (KLe a b) := by unfold KLe; infer_instance

/-- The node occupying heap slot `k`. -/
def occAt (s : AState) (k : Nat) : BNode := getN s (slotId s k)

/-- Heap well-formedness with `m` occupied slots: every occupied slot holds
a valid node index whose back-pointer points back at the slot, and every
non-root occupied slot is no better than its parent slot. -/
structure HeapWF (s : AState) (m : Nat) : Prop where
  m_le : m ≤ s.items.size
  slots : ∀ k, k < m → ∃ x, itemAt s k = some x ∧ x < s.nodes.size ∧
    (getN s x).heapIndex = k
  order : ∀ k, 0 < k → k < m → KLe (occAt s ((k - 1) / 2)) (occAt s k)

/-- Node `x` occupies one of the first `m` slots. -/
def memb (s : AState) (m x : Nat) : Prop := ∃ k, k < m ∧ itemAt s k = some x

/-- Node `x` occupies one of the currently occupied slots (`0 ≤ k < Size`),
the spec's notion of heap membership. -/
def hmem (s : AState) (x : Nat) : Prop := memb s s.hsize x

instance (s : AState) (m x : Nat) : Decidable (memb s m x) :=
  decidable_of_iff (∃ k ∈ List.range m, itemAt s k = some x)
    (by simp only [List.mem_range, memb])

instance (s : AState) (x : Nat) : Decidable (hmem s x) := by
  unfold hmem
  infer_instance

/-- `SortUp`'s precondition: positional facts hold everywhere, the heap
order may fail only at the pair (parent of `x`'s slot, `x`'s slot), and
`x`'s children are already no better than `x`'s parent (the "skip-level"
fact that makes the sift-up swap legitimate). -/
structure UpInv (s : AState) (m x : Nat) : Prop where
  m_le : m ≤ s.items.size
  slots : ∀ k, k < m → ∃ y, itemAt s k = some y ∧ y < s.nodes.size ∧
    (getN s y).heapIndex = k
  hx_lt : (getN s x).heapIndex < m
  occ_x : itemAt s ((getN s x).heapIndex) = some x
  order_ex : ∀ k, 0 < k → k < m → k ≠ (getN s x).heapIndex →
    KLe (occAt s ((k - 1) / 2)) (occAt s k)
  skip : ∀ k, 0 < k → k < m → (k - 1) / 2 = (getN s x).heapIndex →
    0 < (getN s x).heapIndex →
    KLe (occAt s (((getN s x).heapIndex - 1) / 2)) (occAt s k)

/-- `SortDown`'s precondition: positional facts hold everywhere, the heap
order may fail only at the pairs (slot of `x`, a child of it), and `x`'s
children are already no worse than `x`'s parent. -/
structure DownInv (s : AState) (m x : Nat) : Prop where
  m_le : m ≤ s.items.size
  msize : s.hsize = m
  slots : ∀ k, k < m → ∃ y, itemAt s k = some y ∧ y < s.nodes.size ∧
    (getN s y).heapIndex = k
  hx_lt : (getN s x).heapIndex < m
  occ_x : itemAt s ((getN s x).heapIndex) = some x
  order_ex : ∀ k, 0 < k → k < m → (k - 1) / 2 ≠ (getN s x).heapIndex →
    KLe (occAt s ((k - 1) / 2)) (occAt s k)
  skip : 0 < (getN s x).heapIndex → ∀ k, 0 < k → k < m →
    (k - 1) / 2 = (getN s x).heapIndex →
    KLe (occAt s (((getN s x).heapIndex - 1) / 2)) (occAt s k)

/-- The loop invariant of `FindPathsToNodes` on the reset graph (claim C1).
`n` is the node count; "done" nodes are those no longer resident in the
heap.  The fields record heap well-formedness, the data-model facts the
code relies on (ids, zero heuristics, cost range), and the three Dijkstra
facts: every sub-sentinel cost is realized by a parent chain through done
nodes, every edge out of a done node is relaxed, and every done node's
cost is a lower bound on all walk costs to it. -/
structure DijInv (edges : Array (Array BEdge)) (startID n : Nat) (X : Nat → Prop)
    (s : AState) : Prop where
  wf : HeapWF s s.hsize
  nsize : s.nodes.size = n
  isize : s.items.size = n
  memsub : ∀ z, hmem s z → z < n
  ids : ∀ v, v < n → (getN s v).nodeID = (v : Int)
  hzero : ∀ v, (getN s v).hCost = 0
  grange : ∀ v, 0 ≤ (getN s v).gCost ∧ (getN s v).gCost ≤ 2000000
  gstart : (getN s startID).gCost = 0
  pstart : (getN s startID).parentID = -1
  realz : ∀ v, v < n → (getN s v).gCost < 2000000 →
    Realizes s.nodes edges startID (fun u => u < n ∧ ¬ hmem s u) v
  relaxed : ∀ u, u < n → ¬ hmem s u → ¬ X u → ∀ e ∈ (adjAt edges u).toList,
    (getN s (e.nodeID.toNat)).gCost ≤ (getN s u).gCost + e.weight
  lower : ∀ u, u < n → ¬ hmem s u → ∀ c, Walk edges startID u c →
    (getN s u).gCost ≤ c
  pvalid : ∀ v, (getN s v).parentID ≠ -1 → (getN s v).gCost < 2000000

/-- The edge-weight bound under which `FindPathsToNodes`' relaxation
arithmetic never overflows `int32`: costs stay `≤ 2,000,000`, so any
weight up to `2^31 - 1 - 2,000,000` keeps `GCost + Weight` representable. -/
def WBOUND : Int := 2 ^ 31 - 1 - 2000000

/-- Every stored edge points at a valid node (`< n`) and carries a
non-negative weight of at most `b`. -/
def EdgesOk (edges : Array (Array BEdge)) (n : Nat) (b : Int) : Prop :=
  ∀ u : Nat, ∀ e ∈ (adjAt edges u).toList,
    0 ≤ e.nodeID ∧ e.nodeID < (n : Int) ∧ 0 ≤ e.weight ∧ e.weight ≤ b

/-- Graph-shape hypotheses shared by the search theorems: adjacency
parallel to nodes, ids dense, all stored edges pointing at valid nodes
with non-negative weights bounded by `b`. -/
def GraphOk (g : Graph) (b : Int) : Prop :=
  g.edges.size = g.nodes.size ∧
  (∀ i, i < g.nodes.size → (g.nodes.getD i dNode).nodeID = (i : Int)) ∧
  EdgesOk g.edges g.nodes.size b

/-- The loop invariant of `FindPath` (claim C2).  The open set is the
heap's member set, the closed set the list of pushed `NodeID` values.  `X`
collects nodes whose expansion is still in progress: their closed entry is
pushed but their outgoing edges are not yet all relaxed.  `DB` bounds the
true cost of every reachable node and `WMAX` the edge weights; recorded
costs stay in `[0, DB + WMAX]`, which (together with the heuristic bound)
keeps all `FCost` arithmetic exact. -/
structure AInv (edges : Array (Array BEdge)) (hfun : Nat → Nat → Int)
    (startID targetID n : Nat) (DB WMAX : Int) (X : Nat → Prop)
    (st : PState) : Prop where
  wf : HeapWF st.ast st.ast.hsize
  nsize : st.ast.nodes.size = n
  isize : st.ast.items.size = n
  memsub : ∀ z, hmem st.ast z → z < n
  ids : ∀ v, v < n → (getN st.ast v).nodeID = (v : Int)
  closedids : ∀ c ∈ st.closed, ∃ v, v < n ∧ c = (v : Int)
  cnodup : st.closed.Nodup
  disj : ∀ v : Nat, (v : Int) ∈ st.closed → ¬ hmem st.ast v
  sc : ∀ k, k < st.ast.items.size → ∀ z, itemAt st.ast k = some z →
    hmem st.ast z ∨ (z : Int) ∈ st.closed
  hvals : ∀ v, v < n → hmem st.ast v ∨ (v : Int) ∈ st.closed →
    (getN st.ast v).hCost = hfun v targetID
  grange : ∀ v, v < n → hmem st.ast v ∨ (v : Int) ∈ st.closed →
    0 ≤ (getN st.ast v).gCost ∧ (getN st.ast v).gCost ≤ DB + WMAX
  gwalk : ∀ v, v < n → hmem st.ast v ∨ (v : Int) ∈ st.closed →
    Walk edges startID v ((getN st.ast v).gCost)
  cmin : ∀ v, v < n → (v : Int) ∈ st.closed → ∀ c, Walk edges startID v c →
    (getN st.ast v).gCost ≤ c
  cexp : ∀ p, p < n → (p : Int) ∈ st.closed → ¬ X p →
    ∀ e ∈ (adjAt edges p).toList,
      ((e.nodeID.toNat : Nat) : Int) ∈ st.closed ∨
      (hmem st.ast (e.nodeID.toNat) ∧
        (getN st.ast (e.nodeID.toNat)).gCost ≤ (getN st.ast p).gCost + e.weight)
  startm : hmem st.ast startID ∨ ((startID : Int)) ∈ st.closed
  gstart : ((startID : Int)) ∉ st.closed → (getN st.ast startID).gCost = 0

/-- The relation between a heap state and the result of sifting inside it:
sizes unchanged, slots from `m` upwards untouched, the first `m` slots
permuted (same occupants). -/
def HPerm (m : Nat) (s s' : AState) : Prop :=
  s'.items.size = s.items.size ∧ s'.hsize = s.hsize ∧ s'.nodes.size = s.nodes.size ∧
  (∀ k, m ≤ k → itemAt s' k = itemAt s k) ∧
  (∀ k, k < m → ∃ k', k' < m ∧ itemAt s' k = itemAt s k') ∧
  (∀ z, memb s' m z ↔ memb s m z)

/-- Repeated `RemoveFirst`: the list of nodes a full drain extracts, as
read (costs included) at extraction time. -/
def drainList : Nat → AState → List BNode
  | 0, _ => []
  | fuel + 1, s =>
    if isNotEmpty s then
      let r := removeFirst s
      getN r.2 r.1 :: drainList fuel r.2
    else []

/-- The heap states reachable by the claimed operation sequences: a fresh
heap, `Add` while there is capacity (of a valid, not currently resident
node), `RemoveFirst` while non-empty, and an external decrease of a
resident node's ordering key immediately followed by `UpdateItem` (the
documented usage contract; the key mutation may touch `GCost`/`HCost` but
not the back-pointer, and may only improve the key). -/
inductive HReach : AState → Prop where
  | init (nodes : Array BNode) (cap : Nat) : HReach (heapInit nodes cap)
  | add {s : AState} (x : Nat) : HReach s → s.hsize < s.items.size →
      x < s.nodes.size → ¬ hmem s x → HReach (hAdd s x)
  | remove {s : AState} : HReach s → 0 < s.hsize → HReach (removeFirst s).2
  | update {s : AState} (x : Nat) (nd' : BNode) : HReach s → hmem s x →
      x < s.nodes.size →
      nd'.heapIndex = (getN s x).heapIndex → KLe nd' (getN s x) →
      HReach (updateItem { s with nodes := s.nodes.setD x nd' } x)

/-! ### Basic lemmas: wrap-around arithmetic and field preservation -/

theorem i32_eq_self {x : Int} (h0 : -(2 ^ 31) ≤ x) (h1 : x < 2 ^ 31) : i32 x = x := by
  unfold i32
  have hlb : (0 : Int) ≤ x + 2 ^ 31 := by omega
  have hub : x + 2 ^ 31 < 2 ^ 32 := by omega
  rw [Int.emod_eq_of_lt hlb hub]
  omega

/-- The four fields of the node model that the heap never writes, read at
every index (out-of-range reads included, via the junk default). -/
def sameGHP (a b : Array BNode) : Prop :=
  a.size = b.size ∧
  ∀ v : Nat,
    (a.getD v dNode).gCost = (b.getD v dNode).gCost ∧
    (a.getD v dNode).hCost = (b.getD v dNode).hCost ∧
    (a.getD v dNode).parentID = (b.getD v dNode).parentID ∧
    (a.getD v dNode).nodeID = (b.getD v dNode).nodeID

theorem sameGHP.refl (a : Array BNode) : sameGHP a a :=
  ⟨rfl, fun _ => ⟨rfl, rfl, rfl, rfl⟩⟩

theorem sameGHP.trans {a b c : Array BNode} (h1 : sameGHP a b) (h2 : sameGHP b c) :
    sameGHP a c := by
  obtain ⟨hs1, hf1⟩ := h1
  obtain ⟨hs2, hf2⟩ := h2
  refine ⟨hs1.trans hs2, fun v => ?_⟩
  obtain ⟨a1, a2, a3, a4⟩ := hf1 v
  obtain ⟨b1, b2, b3, b4⟩ := hf2 v
  exact ⟨a1.trans b1, a2.trans b2, a3.trans b3, a4.trans b4⟩

theorem getD_setD_self {α : Type _} (a : Array α) (x : Nat) (nd d : α) (hx : x < a.size) :
    (a.setD x nd).getD x d = nd := by
  simp [Array.getD, Array.setD, hx]

theorem getD_setD_other {α : Type _} (a : Array α) (x v : Nat) (nd d : α) (hne : v ≠ x) :
    (a.setD x nd).getD v d = a.getD v d := by
  unfold Array.setD
  split
  · next hx =>
    by_cases hv : v < a.size
    · simp [Array.getD, hv, Array.getElem_set, hne.symm]
    · simp [Array.getD, hv]
  · rfl

theorem size_setD {α : Type _} (a : Array α) (x : Nat) (nd : α) :
    (a.setD x nd).size = a.size := by
  unfold Array.setD
  split <;> simp

theorem setHI_sameGHP (a : Array BNode) (x k : Nat) : sameGHP (setHI a x k) a := by
  refine ⟨size_setD _ _ _, fun v => ?_⟩
  by_cases hv : v = x
  · subst hv
    by_cases hx : v < a.size
    · rw [setHI, getD_setD_self _ _ _ _ hx]
      exact ⟨rfl, rfl, rfl, rfl⟩
    · rw [setHI]
      unfold Array.setD
      rw [dif_neg hx]
      exact ⟨rfl, rfl, rfl, rfl⟩
  · rw [setHI, getD_setD_other _ _ _ _ _ hv]
    exact ⟨rfl, rfl, rfl, rfl⟩

theorem hswap_sameGHP (s : AState) (x y : Nat) : sameGHP (hswap s x y).nodes s.nodes :=
  (setHI_sameGHP _ _ _).trans (setHI_sameGHP _ _ _)

theorem sortUp_sameGHP (fuel : Nat) (s : AState) (x : Nat) :
    sameGHP (sortUp fuel s x).nodes s.nodes := by
  induction fuel generalizing s with
  | zero => exact sameGHP.refl _
  | succ n ih =>
    rw [sortUp]
    split
    · exact (ih _).trans (hswap_sameGHP _ _ _)
    · exact sameGHP.refl _

theorem sortUpF_sameGHP (s : AState) (x : Nat) : sameGHP (sortUpF s x).nodes s.nodes :=
  sortUp_sameGHP _ _ _

theorem hAdd_sameGHP (s : AState) (x : Nat) : sameGHP (hAdd s x).nodes s.nodes := by
  unfold hAdd
  exact (sortUpF_sameGHP _ _).trans (setHI_sameGHP _ _ _)

theorem sortDownStep_sameGHP {s : AState} {x : Nat} {s' : AState}
    (h : sortDownStep s x = some s') : sameGHP s'.nodes s.nodes := by
  unfold sortDownStep at h
  dsimp only at h
  split at h
  · split at h <;> split at h <;>
      first
      | exact (Option.some.inj h) ▸ hswap_sameGHP _ _ _
      | exact absurd h (by simp)
  · exact absurd h (by simp)

theorem sortDown_sameGHP (fuel : Nat) (s : AState) (x : Nat) :
    sameGHP (sortDown fuel s x).nodes s.nodes := by
  induction fuel generalizing s with
  | zero => exact sameGHP.refl _
  | succ n ih =>
    rw [sortDown]
    cases hstep : sortDownStep s x with
    | some s' => exact (ih s').trans (sortDownStep_sameGHP hstep)
    | none => exact sameGHP.refl _

theorem removeFirst_sameGHP (s : AState) :
    sameGHP (removeFirst s).2.nodes s.nodes := by
  unfold removeFirst
  exact (sortDown_sameGHP _ _ _).trans (setHI_sameGHP _ _ _)

theorem updateItem_sameGHP (s : AState) (x : Nat) :
    sameGHP (updateItem s x).nodes s.nodes :=
  sortUpF_sameGHP _ _

/-! ### Claim C4 — `AddNode` -/

/-- **C4** (code bug).  `AddNode` on the empty graph with position `(1,2)`
returns id `0` (the node count before the call), appends a node with
stored id `0` and one empty adjacency slot — but the *stored* position is
the default `(0,0)`, not `(1,2)`: the source writes `Location2D` into the
local variable only after the node was already copied into the array.  The
claim (and the spec's intent that positions drive the heuristic) says the
stored position equals the argument. -/
theorem C4_addNode_stored_position :
    (addNode { nodes := #[], edges := #[] } ⟨1, 2⟩).1 = 0 ∧
    (((addNode { nodes := #[], edges := #[] } ⟨1, 2⟩).2.nodes.getD 0 dNode).nodeID = 0) ∧
    (((addNode { nodes := #[], edges := #[] } ⟨1, 2⟩).2.nodes.getD 0 dNode).loc = ⟨0, 0⟩) ∧
    ((⟨0, 0⟩ : Vec2) ≠ ⟨1, 2⟩) ∧
    (addNode { nodes := #[], edges := #[] } ⟨1, 2⟩).2.edges = #[#[]] := by
  refine ⟨rfl, rfl, rfl, by decide, rfl⟩

/-! ### Claim C6 — `GetPath` validation -/

/-- **C6**.  `GetPath` returns the empty path and leaves the graph
untouched whenever either id fails `IsValidIndex`; and whenever the target
node's `ParentID` is `-1` it likewise returns the empty path without
touching the graph, for *every* value of the recalculate flag — the parent
check precedes the flag check, so A* is not run even when the flag is
set. -/
theorem C6_getPath_validation (hfun : Nat → Nat → Int) (g : Graph)
    (startNodeID targetNodeID : Int) (bRecalculate : Bool) :
    (isValidIndex g startNodeID = false ∨ isValidIndex g targetNodeID = false →
      getPath hfun g startNodeID targetNodeID bRecalculate = (some [], g)) ∧
    (parentAt g targetNodeID = -1 →
      getPath hfun g startNodeID targetNodeID bRecalculate = (some [], g)) := by
  constructor
  · intro h
    have hcond : (!(isValidIndex g startNodeID) || !(isValidIndex g targetNodeID)) = true := by
      rcases h with h | h <;> simp [h]
    rw [getPath, if_pos hcond]
  · intro h
    by_cases hcond : (!(isValidIndex g startNodeID) || !(isValidIndex g targetNodeID)) = true
    · rw [getPath, if_pos hcond]
    · rw [getPath, if_neg hcond, if_pos (by simp [h])]

/-- Witness for C6 at concrete inputs: an out-of-range start id, and a
valid pair whose target has parent `-1`, both with the recalculate flag
set. -/
theorem C6_getPath_validation_witness :
    getPath hZero gOne 5 0 true = (some [], gOne) ∧
    getPath hZero gOne 0 0 true = (some [], gOne) :=
  ⟨(C6_getPath_validation hZero gOne 5 0 true).1 (Or.inl (by decide)),
   (C6_getPath_validation hZero gOne 0 0 true).2 (by decide)⟩

/-! ### Claim C8 — `GetNodesInRange` -/

theorem toList_eq_range_map {α : Type _} (a : Array α) (d : α) :
    a.toList = (List.range a.size).map (fun i => a.getD i d) := by
  apply List.ext_getElem
  · simp
  · intro i h1 h2
    have hi : i < a.size := by simpa using h1
    simp [Array.getD, hi]

theorem getNodesInRange_foldl (t : Int) (l : List BNode) (acc : List Int) :
    l.foldl (fun acc nd => if nd.gCost ≤ t then acc ++ [nd.nodeID] else acc) acc =
      acc ++ (l.filter (fun nd => decide (nd.gCost ≤ t))).map (fun nd => nd.nodeID) := by
  induction l generalizing acc with
  | nil => simp
  | cons hd tl ih =>
    by_cases h : hd.gCost ≤ t
    · simp [List.foldl_cons, if_pos h, h, ih]
    · simp [List.foldl_cons, if_neg h, h, ih]

theorem getNodesInRange_eq (g : Graph) (t : Int)
    (hid : ∀ i, i < g.nodes.size → (g.nodes.getD i dNode).nodeID = (i : Int)) :
    getNodesInRange g t =
      ((List.range g.nodes.size).filter
        (fun i => decide ((g.nodes.getD i dNode).gCost ≤ t))).map
        (fun i => ((i : Nat) : Int)) := by
  unfold getNodesInRange
  rw [Array.foldl_eq_foldl_toList, getNodesInRange_foldl,
    toList_eq_range_map g.nodes dNode, List.nil_append, List.filter_map, List.map_map]
  apply List.map_congr_left
  intro i hi
  rw [List.mem_filter, List.mem_range] at hi
  exact hid i hi.1

/-- **C8** (amended).  `GetNodesInRange` returns exactly the ids of the
nodes whose cached cost is `≤` the threshold, in increasing node-id order;
a node holding the "unreached" sentinel is therefore included if and only
if the threshold is *at least* the sentinel (the original claim excluded it
unless the threshold strictly exceeds the sentinel, which fails at
threshold `= 2000000`). -/
theorem C8_getNodesInRange_spec (g : Graph) (t : Int)
    (hid : ∀ i, i < g.nodes.size → (g.nodes.getD i dNode).nodeID = (i : Int)) :
    getNodesInRange g t =
      ((List.range g.nodes.size).filter
        (fun i => decide ((g.nodes.getD i dNode).gCost ≤ t))).map
        (fun i => ((i : Nat) : Int)) ∧
    List.Sorted (· < ·) (getNodesInRange g t) ∧
    (∀ i, i < g.nodes.size → (g.nodes.getD i dNode).gCost = INITIAL_DISTANCE →
      (((i : Nat) : Int) ∈ getNodesInRange g t ↔ INITIAL_DISTANCE ≤ t)) := by
  have hmain := getNodesInRange_eq g t hid
  refine ⟨hmain, ?_, ?_⟩
  · rw [hmain]
    have h1 : List.Pairwise (fun a b : Nat => a < b) (List.range g.nodes.size) :=
      List.pairwise_lt_range _
    have h2 := h1.filter (fun i => decide ((g.nodes.getD i dNode).gCost ≤ t))
    exact h2.map _ (fun a b hab => by exact_mod_cast hab)
  · intro i hi hsent
    rw [hmain, List.mem_map]
    constructor
    · rintro ⟨j, hj, hcast⟩
      rw [List.mem_filter, List.mem_range] at hj
      have : j = i := by exact_mod_cast hcast
      subst this
      have := hj.2
      rw [hsent] at this
      simpa using this
    · intro ht
      refine ⟨i, ?_, rfl⟩
      rw [List.mem_filter, List.mem_range]
      refine ⟨hi, ?_⟩
      simp only [decide_eq_true_eq]
      rw [hsent]
      exact ht

/-- Witness for C8 on a concrete graph: two nodes of cost `0` and `3`,
threshold `1`. -/
theorem C8_getNodesInRange_spec_witness :
    getNodesInRange gTwoCosts 1 = [0] ∧
    List.Sorted (· < ·) (getNodesInRange gTwoCosts 1) :=
  ⟨(C8_getNodesInRange_spec gTwoCosts 1 (by decide)).1.trans (by decide),
   (C8_getNodesInRange_spec gTwoCosts 1 (by decide)).2.1⟩

/-- **C8 counterexample**.  On a graph whose single node holds exactly the
sentinel cost `2000000`, querying with threshold `2000000` *returns* that
node, although the threshold does not exceed the sentinel — refuting the
claim's exclusion clause as stated. -/
theorem C8_sentinel_boundary_counterexample :
    (getNodesInRange gSentinel 2000000 = [0]) ∧
    ((0 : Int) ∈ getNodesInRange gSentinel 2000000) ∧
    ¬ (2000000 : Int) > INITIAL_DISTANCE := by
  refine ⟨rfl, by decide, by decide⟩

/-! ### Claim C7 — `FindPathsToNodes` performs no reset -/

/-- Every node (junk reads included) carries the default cost `0` and
parent `-1` of a freshly built, never-searched graph. -/
def allFresh (ns : Array BNode) : Prop :=
  ∀ v : Nat, (ns.getD v dNode).gCost = 0 ∧ (ns.getD v dNode).parentID = -1

theorem getD_out {α : Type _} (a : Array α) (d : α) {v : Nat} (h : ¬ v < a.size) :
    a.getD v d = d := by
  unfold Array.getD
  rw [dif_neg h]

theorem allFresh_of_sameGHP {a b : Array BNode} (h : sameGHP a b) (hb : allFresh b) :
    allFresh a := by
  intro v
  obtain ⟨h1, h2, h3, h4⟩ := h.2 v
  exact ⟨h1.trans (hb v).1, h3.trans (hb v).2⟩

theorem allFresh_setG_zero {ns : Array BNode} (h : allFresh ns) (x : Nat) :
    allFresh (setG ns x 0) := by
  intro v
  by_cases hv : v = x
  · subst hv
    by_cases hx : v < ns.size
    · rw [setG, getD_setD_self _ _ _ _ hx]
      exact ⟨rfl, (h v).2⟩
    · rw [setG]
      unfold Array.setD
      rw [dif_neg hx]
      exact h v
  · rw [setG, getD_setD_other _ _ _ _ _ hv]
    exact h v

theorem relaxEdge_fresh {s : AState} (u : Nat) {e : BEdge} (hfr : allFresh s.nodes)
    (hw0 : 0 ≤ e.weight) (hw1 : e.weight < 2 ^ 31) :
    relaxEdge u s e = s := by
  unfold relaxEdge
  have hg : (getN s (((getN s u).nodeID).toNat)).gCost = 0 := (hfr _).1
  have hgv : (getN s e.nodeID.toNat).gCost = 0 := (hfr _).1
  rw [if_neg]
  rw [hg, hgv, Int.zero_add, i32_eq_self (by omega) hw1]
  omega

theorem foldl_relaxEdge_fresh {s : AState} (u : Nat) {l : List BEdge}
    (hfr : allFresh s.nodes) (hw : ∀ e ∈ l, 0 ≤ e.weight ∧ e.weight < 2 ^ 31) :
    l.foldl (relaxEdge u) s = s := by
  induction l with
  | nil => rfl
  | cons hd tl ih =>
    rw [List.foldl_cons,
      relaxEdge_fresh u hfr (hw hd (List.mem_cons_self _ _)).1 (hw hd (List.mem_cons_self _ _)).2]
    exact ih (fun e he => hw e (List.mem_cons_of_mem _ he))

theorem findPathsLoop_fresh (edges : Array (Array BEdge)) (fuel : Nat) (s : AState)
    (hfr : allFresh s.nodes)
    (hw : ∀ j, j < edges.size → ∀ e ∈ (adjAt edges j).toList,
      0 ≤ e.weight ∧ e.weight < 2 ^ 31) :
    allFresh (findPathsLoop edges fuel s).nodes := by
  induction fuel generalizing s with
  | zero => exact hfr
  | succ n ih =>
    rw [findPathsLoop]
    split
    · dsimp only
      have hfr2 : allFresh (removeFirst s).2.nodes :=
        allFresh_of_sameGHP (removeFirst_sameGHP s) hfr
      set j := ((getN (removeFirst s).2 (removeFirst s).1).nodeID).toNat with hj
      rw [Array.foldl_eq_foldl_toList]
      by_cases hjs : j < edges.size
      · rw [foldl_relaxEdge_fresh _ hfr2 (hw j hjs)]
        exact ih _ hfr2
      · rw [adjAt, getD_out _ _ hjs]
        exact ih _ hfr2
    · exact hfr

/-- **C7**.  `FindPathsToNodes` performs no sentinel reset: on a freshly
built graph whose nodes all hold the default cost `0` and parent `-1`
(with non-negative `int32` edge weights, as produced by the builder), a
run from any valid start id relaxes nothing — every node, the non-start
nodes in particular, still holds cost `0` and parent `-1` afterwards. -/
theorem C7_findPathsToNodes_fresh_noop (g : Graph) (startID : Nat)
    (hs : startID < g.nodes.size)
    (hfresh : ∀ i, i < g.nodes.size →
      (g.nodes.getD i dNode).gCost = 0 ∧ (g.nodes.getD i dNode).parentID = -1)
    (hw : ∀ j, j < g.edges.size → ∀ e ∈ (adjAt g.edges j).toList,
      0 ≤ e.weight ∧ e.weight < 2 ^ 31) :
    ∀ i, i < g.nodes.size →
      ((findPathsToNodes g startID).nodes.getD i dNode).gCost = 0 ∧
      ((findPathsToNodes g startID).nodes.getD i dNode).parentID = -1 := by
  have hfr0 : allFresh g.nodes := by
    intro v
    by_cases hv : v < g.nodes.size
    · exact hfresh v hv
    · rw [getD_out _ _ hv]
      exact ⟨rfl, rfl⟩
  have hfr1 : allFresh (setG g.nodes startID 0) := allFresh_setG_zero hfr0 startID
  have hadds : ∀ (l : List Nat) (s : AState),
      sameGHP ((l.foldl (fun s i => hAdd s i) s).nodes) s.nodes := by
    intro l
    induction l with
    | nil => exact fun s => sameGHP.refl _
    | cons hd tl ih =>
      intro s
      rw [List.foldl_cons]
      exact (ih _).trans (hAdd_sameGHP s hd)
  intro i hi
  unfold findPathsToNodes
  have hfrs : allFresh ((List.range g.nodes.size).foldl (fun s i => hAdd s i)
      (heapInit (setG g.nodes startID 0) g.nodes.size)).nodes :=
    allFresh_of_sameGHP (hadds _ _) hfr1
  exact findPathsLoop_fresh _ _ _ hfrs hw i

/-- Witness for C7: the one-node graph (default cost `0`, parent `-1`), a
run from node `0`. -/
theorem C7_findPathsToNodes_fresh_noop_witness :
    ((findPathsToNodes gOne 0).nodes.getD 0 dNode).gCost = 0 ∧
    ((findPathsToNodes gOne 0).nodes.getD 0 dNode).parentID = -1 :=
  C7_findPathsToNodes_fresh_noop gOne 0 (by decide) (by decide)
    (by decide) 0 (by decide)

/-! ### Claims C5 and C10 — the retrace loop of `GetPath` -/

theorem pIter_eq_iterate (g : Graph) (k : Nat) (cur : Int) :
    pIter g k cur = (parentAt g)^[k] cur := by
  induction k generalizing cur with
  | zero => rfl
  | succ n ih => rw [pIter, ih, Function.iterate_succ_apply]

/-- If the parent iteration repeats a value before reaching the start id,
it can never reach the start id at all afterwards. -/
theorem pIter_no_start_of_repeat (g : Graph) (s cur : Int) {j1 j2 k : Nat}
    (h12 : j1 < j2) (h2k : j2 < k)
    (heq : pIter g j1 cur = pIter g j2 cur)
    (hne : ∀ j, j < k → pIter g j cur ≠ s)
    (hk : pIter g k cur = s) : False := by
  set f := parentAt g with hf
  have hiter : ∀ m, pIter g m cur = f^[m] cur := fun m => pIter_eq_iterate g m cur
  set d := j2 - j1 with hd
  have hdpos : 0 < d := by omega
  have hshift : ∀ t, f^[j1 + d + t] cur = f^[j1 + t] cur := by
    intro t
    have h1 : f^[j1 + d + t] cur = f^[t] (f^[j2] cur) := by
      rw [show j1 + d + t = t + j2 by omega, Function.iterate_add_apply]
    have h2 : f^[j1 + t] cur = f^[t] (f^[j1] cur) := by
      rw [show j1 + t = t + j1 by omega, Function.iterate_add_apply]
    rw [h1, h2, ← hiter j1, ← hiter j2, heq]
  have hperiod : ∀ q r, f^[j1 + r + q * d] cur = f^[j1 + r] cur := by
    intro q
    induction q with
    | zero => intro r; norm_num
    | succ m ih =>
      intro r
      have he : j1 + r + (m + 1) * d = j1 + d + (r + m * d) := by ring
      rw [he, hshift (r + m * d), show j1 + (r + m * d) = j1 + r + m * d by ring]
      exact ih r
  set q := (k - j1) / d with hq
  set r := (k - j1) % d with hr
  have hqd : d * q + r = k - j1 := Nat.div_add_mod (k - j1) d
  have hkd : k = j1 + r + q * d := by
    have hc : q * d = d * q := Nat.mul_comm q d
    omega
  have hks : f^[k] cur = f^[j1 + r] cur := by
    rw [hkd]
    exact hperiod q r
  have hlt : j1 + r < k := by
    have := Nat.mod_lt (k - j1) hdpos
    omega
  exact hne _ hlt (by rw [hiter, ← hks, ← hiter]; exact hk)

/-- A parent chain that reaches the start id through valid indices without
repeating does so within `Nodes.Num()` steps. -/
theorem chain_length_le (g : Graph) (s cur : Int) (k : Nat)
    (hk : pIter g k cur = s)
    (hv : ∀ j, j < k → isValidIndex g (pIter g j cur) = true ∧ pIter g j cur ≠ s) :
    k ≤ g.nodes.size := by
  by_contra hgt
  push_neg at hgt
  have hinj : Function.Injective
      (fun j : Fin k => (⟨(pIter g j.1 cur).toNat, by
        have := (hv j.1 j.2).1
        rw [isValidIndex] at this
        simp only [Bool.and_eq_true, decide_eq_true_eq] at this
        omega⟩ : Fin g.nodes.size)) := by
    intro a b hab
    simp only [Fin.mk.injEq] at hab
    have ha : (0 : Int) ≤ pIter g a.1 cur := by
      have := (hv a.1 a.2).1
      rw [isValidIndex] at this
      simp only [Bool.and_eq_true, decide_eq_true_eq] at this
      exact this.1
    have hb : (0 : Int) ≤ pIter g b.1 cur := by
      have := (hv b.1 b.2).1
      rw [isValidIndex] at this
      simp only [Bool.and_eq_true, decide_eq_true_eq] at this
      exact this.1
    have heq : pIter g a.1 cur = pIter g b.1 cur := by omega
    by_contra hne
    rcases Nat.lt_or_ge a.1 b.1 with h | h
    · exact pIter_no_start_of_repeat g s cur h b.2 heq (fun j hj => (hv j hj).2) hk
    · have h' : b.1 < a.1 := by
        rcases Nat.eq_or_lt_of_le h with h1 | h1
        · exact absurd (Fin.ext h1.symm) hne
        · exact h1
      exact pIter_no_start_of_repeat g s cur h' a.2 heq.symm (fun j hj => (hv j hj).2) hk
  have := Fintype.card_le_of_injective _ hinj
  simp only [Fintype.card_fin] at this
  omega

/-- A successful run of the retrace loop visits exactly the parent
iteration prefix up to the first occurrence of the start id. -/
theorem retrace_eq (g : Graph) (s : Int) :
    ∀ (k fuel : Nat) (cur : Int) (acc : List Int),
      pIter g k cur = s → (∀ j, j < k → pIter g j cur ≠ s) → k < fuel →
      retrace g s fuel cur acc =
        some (acc ++ (List.range k).map (fun j => pIter g j cur)) := by
  intro k
  induction k with
  | zero =>
    intro fuel cur acc hk _ hf
    obtain ⟨f, rfl⟩ : ∃ f, fuel = f + 1 := ⟨fuel - 1, by omega⟩
    rw [retrace, if_pos (by simpa using hk)]
    simp
  | succ n ih =>
    intro fuel cur acc hk hne hf
    obtain ⟨f, rfl⟩ : ∃ f, fuel = f + 1 := ⟨fuel - 1, by omega⟩
    have hcur : cur ≠ s := by simpa using hne 0 (Nat.succ_pos n)
    rw [retrace, if_neg (by simpa using hcur)]
    rw [ih f (parentAt g cur) (acc ++ [cur]) hk (fun j hj => hne (j + 1) (by omega))
      (by omega)]
    congr 1
    rw [List.range_succ_eq_map, List.map_cons, List.map_map, List.append_assoc]
    rfl

/-- If the retrace loop terminates, the parent iteration reaches the start
id within the supplied fuel. -/
theorem retrace_some_reaches (g : Graph) (s : Int) :
    ∀ (fuel : Nat) (cur : Int) (acc l : List Int),
      retrace g s fuel cur acc = some l → ∃ j, j < fuel ∧ pIter g j cur = s := by
  intro fuel
  induction fuel with
  | zero => intro cur acc l h; exact absurd h (by rw [retrace]; simp)
  | succ n ih =>
    intro cur acc l h
    rw [retrace] at h
    by_cases hcur : cur = s
    · exact ⟨0, Nat.succ_pos n, hcur⟩
    · rw [if_neg (by simpa using hcur)] at h
      obtain ⟨j, hj, hpj⟩ := ih (parentAt g cur) (acc ++ [cur]) l h
      exact ⟨j + 1, by omega, hpj⟩

/-- On validation-passing inputs whose (post-recalculation) parent chain
reaches the start id through valid indices, `getPath` computes the
reversed chain prefix. -/
theorem getPath_retrace_eq (hfun : Nat → Nat → Int) (g g' : Graph)
    (startNodeID targetNodeID : Int) (bRecalculate : Bool) (k0 : Nat)
    (hg' : g' = if bRecalculate then
      (findPath hfun g startNodeID.toNat targetNodeID.toNat).1 else g)
    (hsv : isValidIndex g startNodeID = true)
    (htv : isValidIndex g targetNodeID = true)
    (hp : parentAt g targetNodeID ≠ -1)
    (hk0 : pIter g' k0 targetNodeID = startNodeID)
    (hmin : ∀ j, j < k0 → pIter g' j targetNodeID ≠ startNodeID)
    (hval : ∀ j, j < k0 → isValidIndex g' (pIter g' j targetNodeID) = true) :
    getPath hfun g startNodeID targetNodeID bRecalculate =
      (some (((List.range k0).map (fun j => pIter g' j targetNodeID)).reverse), g') := by
  have hlen : k0 ≤ g'.nodes.size :=
    chain_length_le g' startNodeID targetNodeID k0 hk0
      (fun j hj => ⟨hval j hj, hmin j hj⟩)
  rw [getPath, if_neg (by simp [hsv, htv]), if_neg (by simpa using hp)]
  dsimp only
  rw [← hg', retrace_eq g' startNodeID k0 (g'.nodes.size + 1) targetNodeID [] hk0 hmin
    (by omega)]
  simp

/-- **C5**.  For every graph state and valid start/target ids whose
(post-recalculation) predecessor chain from the target reaches the start
through valid indices, the sequence returned by `GetPath` never contains
the start id, ends with the target id whenever it is non-empty, and is
empty whenever start = target.  (The `parentAt ≠ -1` hypothesis records
that the run gets past the never-reached check; the `hg'` equation names
the graph the retrace actually walks: the input graph, or the output of
the optional A* re-run.) -/
theorem C5_getPath_start_excluded_target_last (hfun : Nat → Nat → Int) (g g' : Graph)
    (startNodeID targetNodeID : Int) (bRecalculate : Bool)
    (hg' : g' = if bRecalculate then
      (findPath hfun g startNodeID.toNat targetNodeID.toNat).1 else g)
    (hsv : isValidIndex g startNodeID = true)
    (htv : isValidIndex g targetNodeID = true)
    (hp : parentAt g targetNodeID ≠ -1)
    (hreach : ∃ k, pIter g' k targetNodeID = startNodeID ∧
      ∀ j, j < k → isValidIndex g' (pIter g' j targetNodeID) = true) :
    ∃ l, getPath hfun g startNodeID targetNodeID bRecalculate = (some l, g') ∧
      startNodeID ∉ l ∧
      (l ≠ [] → l.getLast? = some targetNodeID) ∧
      (startNodeID = targetNodeID → l = []) := by
  obtain ⟨k, hk, hkv⟩ := hreach
  have hex : ∃ m, pIter g' m targetNodeID = startNodeID := ⟨k, hk⟩
  set k0 := Nat.find hex with hk0def
  have hk0 : pIter g' k0 targetNodeID = startNodeID := Nat.find_spec hex
  have hmin : ∀ j, j < k0 → pIter g' j targetNodeID ≠ startNodeID :=
    fun j hj => Nat.find_min hex hj
  have hk0le : k0 ≤ k := Nat.find_min' hex hk
  have hval : ∀ j, j < k0 → isValidIndex g' (pIter g' j targetNodeID) = true :=
    fun j hj => hkv j (by omega)
  refine ⟨((List.range k0).map (fun j => pIter g' j targetNodeID)).reverse,
    getPath_retrace_eq hfun g g' startNodeID targetNodeID bRecalculate k0 hg'
      hsv htv hp hk0 hmin hval, ?_, ?_, ?_⟩
  · intro hmem
    rw [List.mem_reverse, List.mem_map] at hmem
    obtain ⟨j, hj, hje⟩ := hmem
    rw [List.mem_range] at hj
    exact hmin j hj hje
  · intro hne
    have hk0pos : k0 ≠ 0 := by
      intro h0
      rw [h0] at hne
      simp at hne
    obtain ⟨m, hm⟩ : ∃ m, k0 = m + 1 := ⟨k0 - 1, by omega⟩
    rw [hm, List.getLast?_reverse, List.range_succ_eq_map, List.map_cons, List.head?_cons]
    rfl
  · intro hst
    have hk00 : k0 = 0 := by
      rcases Nat.eq_zero_or_pos k0 with h | h
      · exact h
      · exact absurd (show pIter g' 0 targetNodeID = startNodeID from hst.symm)
          (hmin 0 h)
    rw [hk00]
    simp

/-- Witness for C5: the two-node parent chain `1 → 0`, start `0`,
target `1`, no recalculation — the returned path is `[1]`. -/
theorem C5_getPath_start_excluded_target_last_witness :
    ∃ l, getPath hZero gChain 0 1 false = (some l, gChain) ∧
      (0 : Int) ∉ l ∧ (l ≠ [] → l.getLast? = some 1) ∧ ((0 : Int) = 1 → l = []) :=
  C5_getPath_start_excluded_target_last hZero gChain gChain 0 1 false rfl
    (by decide) (by decide) (by decide)
    ⟨1, by decide, fun j hj => by interval_cases j <;> decide⟩

/-- **C10** (amended).  For validation-passing inputs, the retrace loop of
`GetPath` terminates exactly when iterating `ParentID` from the target
reaches the start id (through valid indices, in the forward direction);
when the chain never reaches the start the loop does not terminate — but
it need not ever read index `-1`: it can also cycle forever inside the
node array (see the counterexample). -/
theorem C10_retrace_termination_iff (hfun : Nat → Nat → Int) (g : Graph)
    (startNodeID targetNodeID : Int)
    (hsv : isValidIndex g startNodeID = true)
    (htv : isValidIndex g targetNodeID = true)
    (hp : parentAt g targetNodeID ≠ -1) :
    ((∃ k, pIter g k targetNodeID = startNodeID ∧
        ∀ j, j < k → isValidIndex g (pIter g j targetNodeID) = true) →
      (getPath hfun g startNodeID targetNodeID false).1.isSome = true) ∧
    ((getPath hfun g startNodeID targetNodeID false).1.isSome = true →
      ∃ k, pIter g k targetNodeID = startNodeID) := by
  constructor
  · intro hreach
    obtain ⟨l, hl, -, -, -⟩ := C5_getPath_start_excluded_target_last hfun g g
      startNodeID targetNodeID false rfl hsv htv hp hreach
    rw [hl]
    rfl
  · intro hsome
    rw [getPath, if_neg (by simp [hsv, htv]), if_neg (by simpa using hp)] at hsome
    dsimp only at hsome
    simp only [Bool.false_eq_true, if_false] at hsome
    rcases hexp : retrace g startNodeID (g.nodes.size + 1) targetNodeID [] with
      _ | l
    · rw [hexp] at hsome
      simp at hsome
    · obtain ⟨j, _, hj⟩ := retrace_some_reaches g startNodeID _ _ _ _ hexp
      exact ⟨j, hj⟩

/-- Witness for C10 at the two-node chain `1 → 0`, start `0`, target `1`. -/
theorem C10_retrace_termination_iff_witness :
    ((∃ k, pIter gChain k 1 = 0 ∧
        ∀ j, j < k → isValidIndex gChain (pIter gChain j 1) = true) →
      (getPath hZero gChain 0 1 false).1.isSome = true) ∧
    ((getPath hZero gChain 0 1 false).1.isSome = true →
      ∃ k, pIter gChain k 1 = 0) :=
  C10_retrace_termination_iff hZero gChain 0 1 (by decide) (by decide) (by decide)

/-! ### Heap order lemmas -/

theorem KLe_refl (a : BNode) : KLe a a := Or.inr ⟨rfl, le_refl _⟩

theorem KLe_trans {a b c : BNode} (h1 : KLe a b) (h2 : KLe b c) : KLe a c := by
  unfold KLe at *
  omega

theorem KLt_le {a b : BNode} (h : KLt a b) : KLe a b := by
  unfold KLt at h
  unfold KLe
  omega

theorem KLt_trans_le {a b c : BNode} (h1 : KLt a b) (h2 : KLe b c) : KLt a c := by
  unfold KLt at *
  unfold KLe at h2
  omega

theorem KLe_trans_lt {a b c : BNode} (h1 : KLe a b) (h2 : KLt b c) : KLt a c := by
  unfold KLt at *
  unfold KLe at h1
  omega

theorem KLe_of_not_KLt {a b : BNode} (h : ¬ KLt a b) : KLe b a := by
  unfold KLt at h
  unfold KLe
  omega

theorem KLt_irrefl (a : BNode) : ¬ KLt a a := by
  unfold KLt
  omega

theorem nodeLtB_iff (a b : BNode) : nodeLtB a b = true ↔ KLt a b := by
  unfold nodeLtB KLt
  simp [Bool.or_eq_true, Bool.and_eq_true, decide_eq_true_eq, beq_iff_eq]

theorem nodeGtB_iff (a b : BNode) : nodeGtB a b = true ↔ KLt b a := by
  unfold nodeGtB KLt
  constructor
  · intro h
    simp only [Bool.or_eq_true, Bool.and_eq_true, decide_eq_true_eq, beq_iff_eq] at h
    rcases h with h | ⟨h, h'⟩
    · exact Or.inl h
    · exact Or.inr ⟨h.symm, h'⟩
  · intro h
    simp only [Bool.or_eq_true, Bool.and_eq_true, decide_eq_true_eq, beq_iff_eq]
    rcases h with h | ⟨h, h'⟩
    · exact Or.inl h
    · exact Or.inr ⟨h.symm, h'⟩

theorem KLt_congr {a a' b b' : BNode} (h1 : fcost a = fcost a') (h2 : a.hCost = a'.hCost)
    (h3 : fcost b = fcost b') (h4 : b.hCost = b'.hCost) : KLt a b ↔ KLt a' b' := by
  unfold KLt
  rw [h1, h2, h3, h4]

theorem KLe_congr {a a' b b' : BNode} (h1 : fcost a = fcost a') (h2 : a.hCost = a'.hCost)
    (h3 : fcost b = fcost b') (h4 : b.hCost = b'.hCost) : KLe a b ↔ KLe a' b' := by
  unfold KLe
  rw [h1, h2, h3, h4]

theorem fcost_setHIrec (a : BNode) (k : Nat) : fcost { a with heapIndex := k } = fcost a :=
  rfl

/-! ### Heap plumbing: the swap primitive -/

theorem hswap_hsize (s : AState) (x y : Nat) : (hswap s x y).hsize = s.hsize := rfl

theorem hswap_items_size (s : AState) (x y : Nat) :
    (hswap s x y).items.size = s.items.size := by
  unfold hswap
  simp only [size_setD]

theorem hswap_nodes_size (s : AState) (x y : Nat) :
    (hswap s x y).nodes.size = s.nodes.size := by
  unfold hswap setHI
  simp only [size_setD]

theorem setHI_size (ns : Array BNode) (x k : Nat) : (setHI ns x k).size = ns.size :=
  size_setD _ _ _

theorem getD_setHI_self (ns : Array BNode) (x k : Nat) (hx : x < ns.size) :
    (setHI ns x k).getD x dNode = { ns.getD x dNode with heapIndex := k } :=
  getD_setD_self _ _ _ _ hx

theorem getD_setHI_other (ns : Array BNode) {x v : Nat} (k : Nat) (hne : v ≠ x) :
    (setHI ns x k).getD v dNode = ns.getD v dNode :=
  getD_setD_other _ _ _ _ _ hne

/-- Node reads after a swap of two distinct, resident nodes. -/
theorem hswap_getN {s : AState} {x y : Nat}
    (hxs : x < s.nodes.size) (hys : y < s.nodes.size) (hne : x ≠ y) :
    ∀ v, getN (hswap s x y) v =
      if v = x then { getN s x with heapIndex := (getN s y).heapIndex }
      else if v = y then { getN s y with heapIndex := (getN s x).heapIndex }
      else getN s v := by
  intro v
  unfold hswap
  dsimp only
  by_cases hvx : v = x
  · subst hvx
    rw [if_pos rfl]
    show (setHI (setHI s.nodes v _) y _).getD v dNode = _
    rw [getD_setHI_other _ _ hne, getD_setHI_self _ _ _ hxs]
    rfl
  · rw [if_neg hvx]
    by_cases hvy : v = y
    · subst hvy
      rw [if_pos rfl]
      show (setHI (setHI s.nodes x _) v _).getD v dNode = _
      rw [getD_setHI_self _ _ _ (by rwa [setHI_size]), getD_setHI_other _ _ hne.symm]
      rfl
    · rw [if_neg hvy]
      show (setHI (setHI s.nodes x _) y _).getD v dNode = _
      rw [getD_setHI_other _ _ hvy, getD_setHI_other _ _ hvx]
      rfl

theorem hswap_items_def (s : AState) (x y : Nat) :
    (hswap s x y).items =
      (s.items.setD (getN s x).heapIndex (some y)).setD (getN s y).heapIndex (some x) :=
  rfl

/-- Item reads after a swap of two distinct, resident nodes occupying
distinct in-range slots. -/
theorem hswap_itemAt {s : AState} {x y : Nat}
    (hij : (getN s x).heapIndex ≠ (getN s y).heapIndex)
    (his : (getN s x).heapIndex < s.items.size)
    (hjs : (getN s y).heapIndex < s.items.size) :
    ∀ k, itemAt (hswap s x y) k =
      if k = (getN s x).heapIndex then some y
      else if k = (getN s y).heapIndex then some x
      else itemAt s k := by
  intro k
  unfold itemAt
  rw [hswap_items_def]
  by_cases hki : k = (getN s x).heapIndex
  · subst hki
    rw [if_pos rfl, getD_setD_other _ _ _ _ _ hij, getD_setD_self _ _ _ _ his]
  · rw [if_neg hki]
    by_cases hkj : k = (getN s y).heapIndex
    · subst hkj
      rw [if_pos rfl, getD_setD_self _ _ _ _ (by rwa [size_setD])]
    · rw [if_neg hkj]
      rw [getD_setD_other _ _ _ _ _ hkj, getD_setD_other _ _ _ _ _ hki]

theorem HPerm_refl (m : Nat) (s : AState) : HPerm m s s :=
  ⟨rfl, rfl, rfl, fun _ _ => rfl, fun k hk => ⟨k, hk, rfl⟩, fun _ => Iff.rfl⟩

theorem HPerm_trans {m : Nat} {s1 s2 s3 : AState} (h1 : HPerm m s1 s2)
    (h2 : HPerm m s2 s3) : HPerm m s1 s3 := by
  obtain ⟨a1, a2, a3, a4, a5, a6⟩ := h1
  obtain ⟨b1, b2, b3, b4, b5, b6⟩ := h2
  refine ⟨b1.trans a1, b2.trans a2, b3.trans a3, fun k hk => (b4 k hk).trans (a4 k hk),
    fun k hk => ?_, fun z => (b6 z).trans (a6 z)⟩
  obtain ⟨k', hk', he⟩ := b5 k hk
  obtain ⟨k'', hk'', he'⟩ := a5 k' hk'
  exact ⟨k'', hk'', he.trans he'⟩

/-- A swap of two resident nodes is a permutation of the occupied slots. -/
theorem hswap_HPerm {s : AState} {m x y : Nat}
    (hij : (getN s x).heapIndex ≠ (getN s y).heapIndex)
    (hi : (getN s x).heapIndex < m) (hj : (getN s y).heapIndex < m)
    (hms : m ≤ s.items.size)
    (hox : itemAt s ((getN s x).heapIndex) = some x)
    (hoy : itemAt s ((getN s y).heapIndex) = some y) :
    HPerm m s (hswap s x y) := by
  have hit := hswap_itemAt hij (by omega) (by omega)
  refine ⟨hswap_items_size s x y, hswap_hsize s x y, hswap_nodes_size s x y,
    fun k hk => ?_, fun k hk => ?_, fun z => ?_⟩
  · rw [hit k, if_neg (by omega), if_neg (by omega)]
  · by_cases hki : k = (getN s x).heapIndex
    · subst hki
      exact ⟨(getN s y).heapIndex, hj, by rw [hit, if_pos rfl, hoy]⟩
    · by_cases hkj : k = (getN s y).heapIndex
      · subst hkj
        exact ⟨(getN s x).heapIndex, hi, by rw [hit, if_neg hki, if_pos rfl, hox]⟩
      · exact ⟨k, hk, by rw [hit, if_neg hki, if_neg hkj]⟩
  · constructor
    · rintro ⟨k, hk, he⟩
      rw [hit k] at he
      by_cases hki : k = (getN s x).heapIndex
      · rw [if_pos hki] at he
        exact ⟨(getN s y).heapIndex, hj, by rw [hoy, he]⟩
      · rw [if_neg hki] at he
        by_cases hkj : k = (getN s y).heapIndex
        · rw [if_pos hkj] at he
          exact ⟨(getN s x).heapIndex, hi, by rw [hox, he]⟩
        · rw [if_neg hkj] at he
          exact ⟨k, hk, he⟩
    · rintro ⟨k, hk, he⟩
      by_cases hki : k = (getN s x).heapIndex
      · subst hki
        rw [hox] at he
        exact ⟨(getN s y).heapIndex, hj, by rw [hit, if_neg hij.symm, if_pos rfl, he]⟩
      · by_cases hkj : k = (getN s y).heapIndex
        · subst hkj
          rw [hoy] at he
          exact ⟨(getN s x).heapIndex, hi, by rw [hit, if_pos rfl, he]⟩
        · exact ⟨k, hk, by rw [hit, if_neg hki, if_neg hkj, he]⟩

theorem KLe_hi_left (a b : BNode) (k : Nat) : KLe { a with heapIndex := k } b = KLe a b :=
  rfl

theorem KLe_hi_right (a b : BNode) (k : Nat) : KLe a { b with heapIndex := k } = KLe a b :=
  rfl

theorem KLt_hi_left (a b : BNode) (k : Nat) : KLt { a with heapIndex := k } b = KLt a b :=
  rfl

theorem KLt_hi_right (a b : BNode) (k : Nat) : KLt a { b with heapIndex := k } = KLt a b :=
  rfl

/-- Sifting up from a state whose heap order is violated at most at the
sifted node's slot (with the skip-level guarantee) restores full heap
order, permuting only the occupied slots. -/
theorem sortUp_restores {m x : Nat} :
    ∀ (fuel : Nat) (s : AState), UpInv s m x → (getN s x).heapIndex < fuel →
      HeapWF (sortUp fuel s x) m ∧ HPerm m s (sortUp fuel s x) := by
  intro fuel
  induction fuel with
  | zero => intro s _ hf; omega
  | succ n ih =>
    intro s hinv hf
    obtain ⟨hm_le, hslots, hx_lt, hocc_x, horder, hskip⟩ := hinv
    have hxval : x < s.nodes.size := by
      obtain ⟨y, hy1, hy2, hy3⟩ := hslots _ hx_lt
      rw [hocc_x, Option.some_inj] at hy1
      rwa [hy1]
    have hslotx : slotId s ((getN s x).heapIndex) = x := by
      rw [slotId, hocc_x]
      rfl
    rw [sortUp]
    by_cases hi0 : (getN s x).heapIndex = 0
    · have hp : slotId s (((getN s x).heapIndex - 1) / 2) = x := by
        rw [hi0]
        simpa [hi0] using hslotx
      rw [hp, if_neg (by rw [nodeLtB_iff]; exact KLt_irrefl _)]
      refine ⟨⟨hm_le, hslots, fun k hk0 hkm => horder k hk0 hkm (by omega)⟩,
        HPerm_refl m s⟩
    · obtain ⟨pid, hpid_occ, hpid_sz, hpid_hi⟩ :=
        hslots (((getN s x).heapIndex - 1) / 2) (by omega)
      have hslotp : slotId s (((getN s x).heapIndex - 1) / 2) = pid := by
        rw [slotId, hpid_occ]
        rfl
      have hpi_lt_i : ((getN s x).heapIndex - 1) / 2 < (getN s x).heapIndex := by omega
      have hocc_i_eq : occAt s ((getN s x).heapIndex) = getN s x := by
        rw [occAt, hslotx]
      have hocc_pi_eq : occAt s (((getN s x).heapIndex - 1) / 2) = getN s pid := by
        rw [occAt, hslotp]
      rw [hslotp]
      by_cases hcond : KLt (getN s x) (getN s pid)
      · rw [if_pos ((nodeLtB_iff _ _).2 hcond)]
        have hnij : (getN s pid).heapIndex ≠ (getN s x).heapIndex := by
          rw [hpid_hi]
          omega
        have hne : pid ≠ x := fun h => hnij (by rw [h])
        have hit := hswap_itemAt (s := s) (x := pid) (y := x) hnij
          (by rw [hpid_hi]; omega) (by omega)
        have hgn := hswap_getN (s := s) (x := pid) (y := x) hpid_sz hxval hne
        simp only [hpid_hi] at hit
        -- reads in the swapped state
        have hgn_x : getN (hswap s pid x) x =
            { getN s x with heapIndex := ((getN s x).heapIndex - 1) / 2 } := by
          rw [hgn x, if_neg (fun h => hne h.symm), if_pos rfl, hpid_hi]
        have hgn_pid : getN (hswap s pid x) pid =
            { getN s pid with heapIndex := (getN s x).heapIndex } := by
          rw [hgn pid, if_pos rfl]
        have hocc'_pi : occAt (hswap s pid x) (((getN s x).heapIndex - 1) / 2) =
            { getN s x with heapIndex := ((getN s x).heapIndex - 1) / 2 } := by
          rw [occAt, slotId, hit, if_pos rfl]
          exact hgn_x
        have hocc'_i : occAt (hswap s pid x) ((getN s x).heapIndex) =
            { getN s pid with heapIndex := (getN s x).heapIndex } := by
          rw [occAt, slotId, hit, if_neg (by omega), if_pos rfl]
          exact hgn_pid
        have hocc'_other : ∀ k, k < m → k ≠ ((getN s x).heapIndex - 1) / 2 →
            k ≠ (getN s x).heapIndex → occAt (hswap s pid x) k = occAt s k := by
          intro k hk h1 h2
          obtain ⟨y, hy1, hy2, hy3⟩ := hslots k hk
          have hyx : y ≠ x := fun h => h2 (by rw [← hy3, h])
          have hyp : y ≠ pid := fun h => h1 (by rw [← hy3, h, hpid_hi])
          rw [occAt, slotId, hit, if_neg h1, if_neg h2, hy1]
          show getN (hswap s pid x) y = occAt s k
          rw [hgn y, if_neg hyp, if_neg hyx, occAt, slotId, hy1]
          rfl
        -- the new UpInv, one slot higher
        have hinv' : UpInv (hswap s pid x) m x := by
          refine ⟨by rw [hswap_items_size]; exact hm_le, ?_, ?_, ?_, ?_, ?_⟩
          · intro k hk
            by_cases h1 : k = ((getN s x).heapIndex - 1) / 2
            · subst h1
              refine ⟨x, by rw [hit, if_pos rfl], by rwa [hswap_nodes_size], ?_⟩
              rw [hgn_x]
            · by_cases h2 : k = (getN s x).heapIndex
              · subst h2
                refine ⟨pid, by rw [hit, if_neg h1, if_pos rfl],
                  by rwa [hswap_nodes_size], ?_⟩
                rw [hgn_pid]
              · obtain ⟨y, hy1, hy2, hy3⟩ := hslots k hk
                have hyx : y ≠ x := fun h => h2 (by rw [← hy3, h])
                have hyp : y ≠ pid := fun h => h1 (by rw [← hy3, h, hpid_hi])
                refine ⟨y, by rw [hit, if_neg h1, if_neg h2]; exact hy1,
                  by rwa [hswap_nodes_size], ?_⟩
                rw [hgn y, if_neg hyp, if_neg hyx]
                exact hy3
          · rw [hgn_x]
            show ((getN s x).heapIndex - 1) / 2 < m
            omega
          · rw [hgn_x]
            show itemAt (hswap s pid x) (((getN s x).heapIndex - 1) / 2) = some x
            rw [hit, if_pos rfl]
          · -- order outside the new slot
            intro k hk0 hkm hkne
            rw [hgn_x] at hkne
            simp only at hkne
            by_cases hki : k = (getN s x).heapIndex
            · -- the old slot of x, now holding pid: its parent holds x
              subst hki
              rw [hocc'_i,
                show (((getN s x).heapIndex) - 1) / 2 = ((getN s x).heapIndex - 1) / 2
                  from rfl, hocc'_pi, KLe_hi_left, KLe_hi_right]
              exact KLt_le hcond
            · by_cases hpk : (k - 1) / 2 = ((getN s x).heapIndex - 1) / 2
              · -- k is the sibling subtree: parent slot now holds x
                rw [hpk, hocc'_pi, KLe_hi_left,
                  hocc'_other k hkm hkne hki]
                have hold := horder k hk0 hkm hki
                rw [hpk, hocc_pi_eq] at hold
                exact KLe_trans (KLt_le hcond) hold
              · by_cases hpk2 : (k - 1) / 2 = (getN s x).heapIndex
                · -- k is a child of x's old slot: parent slot now holds pid
                  rw [hpk2, hocc'_i, KLe_hi_left, hocc'_other k hkm hkne hki]
                  have := hskip k hk0 hkm hpk2 (by omega)
                  rwa [hocc_pi_eq] at this
                · -- untouched pair
                  rw [hocc'_other _ (by omega) hpk hpk2, hocc'_other k hkm hkne hki]
                  exact horder k hk0 hkm hki
          · -- new skip-level facts
            intro k hk0 hkm hpk hi0'
            rw [hgn_x] at hpk hi0' ⊢
            simp only at hpk hi0' ⊢
            have hppi_ne1 : (((getN s x).heapIndex - 1) / 2 - 1) / 2 ≠
                ((getN s x).heapIndex - 1) / 2 := by omega
            have hppi_ne2 : (((getN s x).heapIndex - 1) / 2 - 1) / 2 ≠
                (getN s x).heapIndex := by omega
            rw [hocc'_other _ (by omega) hppi_ne1 hppi_ne2]
            by_cases hki : k = (getN s x).heapIndex
            · subst hki
              rw [hocc'_i, KLe_hi_right]
              have := horder (((getN s x).heapIndex - 1) / 2) (by omega) (by omega)
                (by omega)
              rwa [hocc_pi_eq] at this
            · rw [hocc'_other k hkm (by omega) hki]
              have h1 := horder (((getN s x).heapIndex - 1) / 2) (by omega) (by omega)
                (by omega)
              rw [hocc_pi_eq] at h1
              have h2 := horder k hk0 hkm hki
              rw [hpk, hocc_pi_eq] at h2
              exact KLe_trans h1 h2
        have hrec := ih (hswap s pid x) hinv'
          (by rw [hgn_x]; show ((getN s x).heapIndex - 1) / 2 < n; omega)
        refine ⟨hrec.1, HPerm_trans ?_ hrec.2⟩
        exact hswap_HPerm hnij (by rw [hpid_hi]; omega) hx_lt hm_le
          (by rw [hpid_hi]; exact hpid_occ) hocc_x
      · rw [if_neg (by rw [nodeLtB_iff]; exact hcond)]
        refine ⟨⟨hm_le, hslots, ?_⟩, HPerm_refl m s⟩
        intro k hk0 hkm
        by_cases hki : k = (getN s x).heapIndex
        · subst hki
          rw [hocc_pi_eq, hocc_i_eq]
          exact KLe_of_not_KLt hcond
        · exact horder k hk0 hkm hki

/-- Sifting down from a state whose heap order is violated at most between
the sifted node's slot and its children (with the skip-level guarantee)
restores full heap order, permuting only the occupied slots. -/
theorem sortDown_restores {m x : Nat} :
    ∀ (fuel : Nat) (s : AState), DownInv s m x → m ≤ fuel + (getN s x).heapIndex →
      0 < fuel →
      HeapWF (sortDown fuel s x) m ∧ HPerm m s (sortDown fuel s x) := by
  intro fuel
  induction fuel with
  | zero => intro s _ _ hf0; omega
  | succ n ih =>
    intro s hinv hfc _
    obtain ⟨hm_le, hmsize, hslots, hx_lt, hocc_x, horder, hskip⟩ := hinv
    have hxval : x < s.nodes.size := by
      obtain ⟨y, hy1, hy2, hy3⟩ := hslots _ hx_lt
      rw [hocc_x, Option.some_inj] at hy1
      rwa [hy1]
    have hslotx : slotId s ((getN s x).heapIndex) = x := by
      rw [slotId, hocc_x]
      rfl
    have hocc_i_eq : occAt s ((getN s x).heapIndex) = getN s x := by
      rw [occAt, hslotx]
    rw [sortDown]
    unfold sortDownStep
    dsimp only
    by_cases hli : (getN s x).heapIndex * 2 + 1 < s.hsize
    · rw [if_pos hli]
      rw [hmsize] at hli
      -- the chosen child slot
      obtain ⟨c, hcgoal, hc_lt, hc_child, hc_gt, hc_min⟩ :
          ∃ c, (if ((getN s x).heapIndex * 2 + 2 < s.hsize &&
                  nodeGtB (getN s (slotId s ((getN s x).heapIndex * 2 + 1)))
                    (getN s (slotId s ((getN s x).heapIndex * 2 + 2)))) = true
                then (getN s x).heapIndex * 2 + 2
                else (getN s x).heapIndex * 2 + 1) = c ∧
            c < m ∧ (c - 1) / 2 = (getN s x).heapIndex ∧ (getN s x).heapIndex < c ∧
            ∀ k, 0 < k → k < m → (k - 1) / 2 = (getN s x).heapIndex →
              KLe (occAt s c) (occAt s k) := by
        by_cases hch : ((getN s x).heapIndex * 2 + 2 < s.hsize &&
            nodeGtB (getN s (slotId s ((getN s x).heapIndex * 2 + 1)))
              (getN s (slotId s ((getN s x).heapIndex * 2 + 2)))) = true
        · refine ⟨(getN s x).heapIndex * 2 + 2, by rw [if_pos hch], ?_, by omega,
            by omega, ?_⟩
          · rw [Bool.and_eq_true] at hch
            have := hch.1
            simp only [decide_eq_true_eq] at this
            omega
          · rw [Bool.and_eq_true] at hch
            have hri : (getN s x).heapIndex * 2 + 2 < m := by
              have := hch.1
              simp only [decide_eq_true_eq] at this
              omega
            have hLgtR := (nodeGtB_iff _ _).1 hch.2
            intro k hk0 hkm hpk
            have : k = (getN s x).heapIndex * 2 + 1 ∨
                k = (getN s x).heapIndex * 2 + 2 := by omega
            rcases this with h | h <;> subst h
            · exact KLt_le hLgtR
            · exact KLe_refl _
        · refine ⟨(getN s x).heapIndex * 2 + 1, by rw [if_neg hch], by omega,
            by omega, by omega, ?_⟩
          intro k hk0 hkm hpk
          have hk12 : k = (getN s x).heapIndex * 2 + 1 ∨
              k = (getN s x).heapIndex * 2 + 2 := by omega
          rcases hk12 with h | h <;> subst h
          · exact KLe_refl _
          · rw [Bool.and_eq_true] at hch
            push_neg at hch
            have := hch (by simp only [decide_eq_true_eq]; rw [hmsize]; omega)
            have hnlt := (fun hq => this ((nodeGtB_iff _ _).2 hq))
            exact KLe_of_not_KLt hnlt
      rw [hcgoal]
      obtain ⟨cid, hcid_occ, hcid_sz, hcid_hi⟩ := hslots c hc_lt
      have hslotc : slotId s c = cid := by
        rw [slotId, hcid_occ]
        rfl
      have hocc_c_eq : occAt s c = getN s cid := by
        rw [occAt, hslotc]
      rw [hslotc]
      by_cases hcond : KLt (getN s cid) (getN s x)
      · rw [if_pos ((nodeGtB_iff _ _).2 hcond)]
        have hnij : (getN s x).heapIndex ≠ (getN s cid).heapIndex := by
          rw [hcid_hi]
          omega
        have hne : x ≠ cid := fun h => hnij (by rw [h])
        have hit := hswap_itemAt (s := s) (x := x) (y := cid) hnij
          (by omega) (by rw [hcid_hi]; omega)
        have hgn := hswap_getN (s := s) (x := x) (y := cid) hxval hcid_sz hne
        simp only [hcid_hi] at hit
        have hgn_x : getN (hswap s x cid) x = { getN s x with heapIndex := c } := by
          rw [hgn x, if_pos rfl, hcid_hi]
        have hgn_cid : getN (hswap s x cid) cid =
            { getN s cid with heapIndex := (getN s x).heapIndex } := by
          rw [hgn cid, if_neg (fun h => hne h.symm), if_pos rfl]
        have hocc'_i : occAt (hswap s x cid) ((getN s x).heapIndex) =
            { getN s cid with heapIndex := (getN s x).heapIndex } := by
          rw [occAt, slotId, hit, if_pos rfl]
          exact hgn_cid
        have hocc'_c : occAt (hswap s x cid) c = { getN s x with heapIndex := c } := by
          rw [occAt, slotId, hit, if_neg (by omega), if_pos rfl]
          exact hgn_x
        have hocc'_other : ∀ k, k < m → k ≠ (getN s x).heapIndex → k ≠ c →
            occAt (hswap s x cid) k = occAt s k := by
          intro k hk h1 h2
          obtain ⟨y, hy1, hy2, hy3⟩ := hslots k hk
          have hyx : y ≠ x := fun h => h1 (by rw [← hy3, h])
          have hyc : y ≠ cid := fun h => h2 (by rw [← hy3, h, hcid_hi])
          rw [occAt, slotId, hit, if_neg h1, if_neg h2, hy1]
          show getN (hswap s x cid) y = occAt s k
          rw [hgn y, if_neg hyx, if_neg hyc, occAt, slotId, hy1]
          rfl
        have hinv' : DownInv (hswap s x cid) m x := by
          refine ⟨by rw [hswap_items_size]; exact hm_le, by rw [hswap_hsize]; exact hmsize,
            ?_, ?_, ?_, ?_, ?_⟩
          · intro k hk
            by_cases h1 : k = (getN s x).heapIndex
            · subst h1
              refine ⟨cid, by rw [hit, if_pos rfl], by rwa [hswap_nodes_size], ?_⟩
              rw [hgn_cid]
            · by_cases h2 : k = c
              · subst h2
                refine ⟨x, by rw [hit, if_neg h1, if_pos rfl],
                  by rwa [hswap_nodes_size], ?_⟩
                rw [hgn_x]
              · obtain ⟨y, hy1, hy2, hy3⟩ := hslots k hk
                have hyx : y ≠ x := fun h => h1 (by rw [← hy3, h])
                have hyc : y ≠ cid := fun h => h2 (by rw [← hy3, h, hcid_hi])
                refine ⟨y, by rw [hit, if_neg h1, if_neg h2]; exact hy1,
                  by rwa [hswap_nodes_size], ?_⟩
                rw [hgn y, if_neg hyx, if_neg hyc]
                exact hy3
          · rw [hgn_x]
            show c < m
            exact hc_lt
          · rw [hgn_x]
            show itemAt (hswap s x cid) c = some x
            rw [hit, if_neg (by omega), if_pos rfl]
          · -- order outside pairs whose parent slot is the new slot c
            intro k hk0 hkm hkne
            rw [hgn_x] at hkne
            simp only at hkne
            by_cases hkc : k = c
            · subst hkc
              rw [hc_child, hocc'_i, hocc'_c, KLe_hi_left, KLe_hi_right]
              exact KLt_le hcond
            · by_cases hki : k = (getN s x).heapIndex
              · subst hki
                have hipos : 0 < (getN s x).heapIndex := hk0
                have hpne1 : ((getN s x).heapIndex - 1) / 2 ≠ (getN s x).heapIndex := by
                  omega
                have hpne2 : ((getN s x).heapIndex - 1) / 2 ≠ c := by omega
                rw [hocc'_i, KLe_hi_right, hocc'_other _ (by omega) hpne1 hpne2]
                have := hskip hipos c (by omega) hc_lt hc_child
                rwa [hocc_c_eq] at this
              · by_cases hpk : (k - 1) / 2 = (getN s x).heapIndex
                · rw [hpk, hocc'_i, KLe_hi_left, hocc'_other k hkm hki hkc]
                  have := hc_min k hk0 hkm hpk
                  rwa [hocc_c_eq] at this
                · have hppne : (k - 1) / 2 ≠ c := hkne
                  rw [hocc'_other _ (by omega) hpk hppne,
                    hocc'_other k hkm hki hkc]
                  exact horder k hk0 hkm hpk
          · -- new skip-level facts at slot c
            intro hc0 k hk0 hkm hpk
            rw [hgn_x] at hpk ⊢
            simp only at hpk ⊢
            have hkne_i : k ≠ (getN s x).heapIndex := by omega
            have hkne_c : k ≠ c := by omega
            rw [hc_child, hocc'_i, KLe_hi_left, hocc'_other k hkm hkne_i hkne_c]
            have := horder k hk0 hkm (by rw [hpk]; omega)
            rwa [hpk, hocc_c_eq] at this
        have hrec := ih (hswap s x cid) hinv'
          (by rw [hgn_x]; show m ≤ n + c; omega)
          (by
            have : c < m := hc_lt
            omega)
        refine ⟨hrec.1, HPerm_trans ?_ hrec.2⟩
        exact hswap_HPerm hnij hx_lt (by rw [hcid_hi]; exact hc_lt) hm_le
          hocc_x (by rw [hcid_hi]; exact hcid_occ)
      · rw [if_neg (by rw [nodeGtB_iff]; exact hcond)]
        refine ⟨⟨hm_le, hslots, ?_⟩, HPerm_refl m s⟩
        intro k hk0 hkm
        by_cases hpk : (k - 1) / 2 = (getN s x).heapIndex
        · rw [hpk, hocc_i_eq]
          have h1 : KLe (getN s x) (getN s cid) := KLe_of_not_KLt hcond
          have h2 := hc_min k hk0 hkm hpk
          rw [hocc_c_eq] at h2
          exact KLe_trans h1 h2
        · exact horder k hk0 hkm hpk
    · rw [if_neg hli]
      rw [hmsize] at hli
      refine ⟨⟨hm_le, hslots, ?_⟩, HPerm_refl m s⟩
      intro k hk0 hkm
      by_cases hpk : (k - 1) / 2 = (getN s x).heapIndex
      · omega
      · exact horder k hk0 hkm hpk

/-- Distinct occupied slots hold distinct nodes. -/
theorem HeapWF.inj {s : AState} {m : Nat} (hwf : HeapWF s m) {k1 k2 z : Nat}
    (h1 : k1 < m) (h2 : k2 < m) (he1 : itemAt s k1 = some z)
    (he2 : itemAt s k2 = some z) : k1 = k2 := by
  obtain ⟨y1, hy1, _, hy1'⟩ := hwf.slots k1 h1
  obtain ⟨y2, hy2, _, hy2'⟩ := hwf.slots k2 h2
  rw [he1, Option.some_inj] at hy1
  rw [he2, Option.some_inj] at hy2
  rw [← hy1] at hy1'
  rw [← hy2] at hy2'
  rw [← hy1', ← hy2']

/-- The root of a well-formed heap is no worse than every occupied slot. -/
theorem HeapWF.root_min {s : AState} {m : Nat} (hwf : HeapWF s m) :
    ∀ k, k < m → KLe (occAt s 0) (occAt s k) := by
  intro k
  induction k using Nat.strong_induction_on with
  | _ k ih =>
    intro hk
    rcases Nat.eq_zero_or_pos k with h0 | hpos
    · subst h0
      exact KLe_refl _
    · exact KLe_trans (ih ((k - 1) / 2) (by omega) (by omega))
        (hwf.order k hpos hk)

/-- `Add` of a fresh valid node under capacity preserves well-formedness
and grows the member set by that node. -/
theorem hAdd_wf {s : AState} {x : Nat} (hwf : HeapWF s s.hsize)
    (hcap : s.hsize < s.items.size) (hx : x < s.nodes.size) (hnm : ¬ hmem s x) :
    HeapWF (hAdd s x) (hAdd s x).hsize ∧ (hAdd s x).hsize = s.hsize + 1 ∧
    (hAdd s x).items.size = s.items.size ∧ (hAdd s x).nodes.size = s.nodes.size ∧
    (∀ k, s.hsize + 1 ≤ k → itemAt (hAdd s x) k = itemAt s k) ∧
    (∀ z, hmem (hAdd s x) z ↔ hmem s z ∨ z = x) := by
  have hs1nodes : ∀ v, v ≠ x → (setHI s.nodes x s.hsize).getD v dNode =
      s.nodes.getD v dNode := fun v hv => getD_setHI_other _ _ hv
  have hs1x : (setHI s.nodes x s.hsize).getD x dNode =
      { getN s x with heapIndex := s.hsize } := getD_setHI_self _ _ _ hx
  set s1 : AState :=
    { s with nodes := setHI s.nodes x s.hsize, items := s.items.setD s.hsize (some x) }
    with hs1def
  have hs1hi : (getN s1 x).heapIndex = s.hsize := by
    show ((setHI s.nodes x s.hsize).getD x dNode).heapIndex = s.hsize
    rw [hs1x]
  have hs1_item_new : itemAt s1 s.hsize = some x := by
    show (s.items.setD s.hsize (some x)).getD s.hsize none = some x
    exact getD_setD_self _ _ _ _ hcap
  have hs1_item_old : ∀ k, k ≠ s.hsize → itemAt s1 k = itemAt s k := by
    intro k hk
    show (s.items.setD s.hsize (some x)).getD k none = itemAt s k
    exact getD_setD_other _ _ _ _ _ hk
  have hocc_pres : ∀ k, k < s.hsize → occAt s1 k = occAt s k := by
    intro k hk
    obtain ⟨y, hy1, hy2, hy3⟩ := hwf.slots k hk
    have hyx : y ≠ x := by
      intro h
      exact hnm ⟨k, hk, by rw [← h]; exact hy1⟩
    rw [occAt, occAt, slotId, slotId, hs1_item_old k (by omega), hy1]
    show getN s1 y = getN s y
    exact hs1nodes y hyx
  have hinv : UpInv s1 (s.hsize + 1) x := by
    refine ⟨?_, ?_, ?_, ?_, ?_, ?_⟩
    · show s.hsize + 1 ≤ (s.items.setD s.hsize (some x)).size
      rw [size_setD]
      omega
    · intro k hk
      rcases Nat.lt_or_ge k s.hsize with hlt | hge
      · obtain ⟨y, hy1, hy2, hy3⟩ := hwf.slots k hlt
        have hyx : y ≠ x := by
          intro h
          exact hnm ⟨k, hlt, by rw [← h]; exact hy1⟩
        refine ⟨y, by rw [hs1_item_old k (by omega)]; exact hy1, ?_, ?_⟩
        · show y < (setHI s.nodes x s.hsize).size
          rw [setHI_size]
          exact hy2
        · show (getN s1 y).heapIndex = k
          rw [show getN s1 y = s.nodes.getD y dNode from hs1nodes y hyx]
          exact hy3
      · have hk' : k = s.hsize := by omega
        refine ⟨x, by rw [hk']; exact hs1_item_new, ?_, ?_⟩
        · show x < (setHI s.nodes x s.hsize).size
          rw [setHI_size]
          exact hx
        · show (getN s1 x).heapIndex = k
          rw [hs1hi, hk']
    · show (getN s1 x).heapIndex < s.hsize + 1
      rw [hs1hi]
      omega
    · show itemAt s1 ((getN s1 x).heapIndex) = some x
      rw [hs1hi]
      exact hs1_item_new
    · intro k hk0 hkm hkne
      rw [hs1hi] at hkne
      have hkm' : k < s.hsize := by omega
      rw [hocc_pres k hkm', hocc_pres ((k - 1) / 2) (by omega)]
      exact hwf.order k hk0 hkm'
    · intro k hk0 hkm hpk
      rw [hs1hi] at hpk
      omega
  have hfuel : (getN s1 x).heapIndex < (getN s1 x).heapIndex + 1 := by omega
  have hres := sortUp_restores ((getN s1 x).heapIndex + 1) s1 hinv hfuel
  obtain ⟨hwf', hperm⟩ := hres
  obtain ⟨hp1, hp2, hp3, hp4, hp5, hp6⟩ := hperm
  have hha : hAdd s x =
      { sortUp ((getN s1 x).heapIndex + 1) s1 x with
        hsize := (sortUp ((getN s1 x).heapIndex + 1) s1 x).hsize + 1 } := rfl
  have hsz2 : (sortUp ((getN s1 x).heapIndex + 1) s1 x).hsize = s.hsize := hp2
  have hhsz : (hAdd s x).hsize = s.hsize + 1 := by
    rw [hha]
    show _ + 1 = _ + 1
    rw [hsz2]
  constructor
  · rw [hhsz, hha]
    exact ⟨hwf'.m_le, hwf'.slots, hwf'.order⟩
  refine ⟨hhsz,
    by rw [hha]; exact hp1.trans (by rw [size_setD]),
    by rw [hha]; exact hp3.trans (by rw [setHI_size]), ?_, ?_⟩
  · intro k hk
    rw [hha]
    show itemAt (sortUp ((getN s1 x).heapIndex + 1) s1 x) k = itemAt s k
    rw [hp4 k (by omega)]
    exact hs1_item_old k (by omega)
  · intro z
    have hm1 : hmem (hAdd s x) z ↔
        memb (sortUp ((getN s1 x).heapIndex + 1) s1 x) (s.hsize + 1) z := by
      rw [hmem, hha]
      show memb (sortUp ((getN s1 x).heapIndex + 1) s1 x)
        ((sortUp ((getN s1 x).heapIndex + 1) s1 x).hsize + 1) z ↔ _
      rw [hsz2]
    rw [hm1, hp6 z]
    constructor
    · rintro ⟨k, hk, he⟩
      rcases Nat.lt_or_ge k s.hsize with hlt | hge
      · rw [hs1_item_old k (by omega)] at he
        exact Or.inl ⟨k, hlt, he⟩
      · have hk' : k = s.hsize := by omega
        subst hk'
        rw [hs1_item_new, Option.some_inj] at he
        exact Or.inr he.symm
    · rintro (⟨k, hk, he⟩ | rfl)
      · exact ⟨k, by omega, by rw [hs1_item_old k (by omega)]; exact he⟩
      · exact ⟨s.hsize, by omega, hs1_item_new⟩

/-- `RemoveFirst` on a non-empty well-formed heap extracts the root — a
minimal member under the slot order — and preserves well-formedness on
the remaining members. -/
theorem removeFirst_wf {s : AState} (hwf : HeapWF s s.hsize) (hpos : 0 < s.hsize) :
    HeapWF (removeFirst s).2 (removeFirst s).2.hsize ∧
    (removeFirst s).2.hsize = s.hsize - 1 ∧
    (removeFirst s).2.items.size = s.items.size ∧
    (removeFirst s).2.nodes.size = s.nodes.size ∧
    hmem s (removeFirst s).1 ∧
    (∀ z, hmem s z → KLe (getN s (removeFirst s).1) (getN s z)) ∧
    (∀ z, hmem (removeFirst s).2 z ↔ hmem s z ∧ z ≠ (removeFirst s).1) ∧
    (∀ k, s.hsize - 1 ≤ k → itemAt (removeFirst s).2 k = itemAt s k) := by
  obtain ⟨fid, hf_occ, hf_sz, hf_hi⟩ := hwf.slots 0 hpos
  have hslot0 : slotId s 0 = fid := by rw [slotId, hf_occ]; rfl
  obtain ⟨lid, hl_occ, hl_sz, hl_hi⟩ := hwf.slots (s.hsize - 1) (by omega)
  have hslotl : slotId s (s.hsize - 1) = lid := by rw [slotId, hl_occ]; rfl
  have hrm : removeFirst s = (slotId s 0, sortDownF
      { s with
        hsize := s.hsize - 1
        items := s.items.setD 0 (some lid)
        nodes := setHI s.nodes lid 0 } lid) := by
    show (slotId s 0, sortDownF
      { s with
        hsize := s.hsize - 1
        items := s.items.setD 0 (some (slotId s (s.hsize - 1)))
        nodes := setHI s.nodes (slotId s (s.hsize - 1)) 0 } (slotId s (s.hsize - 1))) = _
    rw [hslotl]
  set s1 : AState :=
    { s with
      hsize := s.hsize - 1
      items := s.items.setD 0 (some lid)
      nodes := setHI s.nodes lid 0 } with hs1def
  have hmem_f : hmem s fid := ⟨0, hpos, hf_occ⟩
  have hmin : ∀ z, hmem s z → KLe (getN s fid) (getN s z) := by
    rintro z ⟨k, hk, hkocc⟩
    have h1 := hwf.root_min k hk
    rw [occAt, occAt, hslot0, slotId, hkocc] at h1
    exact h1
  have hs1hi : (getN s1 lid).heapIndex = 0 := by
    show ((setHI s.nodes lid 0).getD lid dNode).heapIndex = 0
    rw [getD_setHI_self _ _ _ hl_sz]
  have hs1_nodes_size : s1.nodes.size = s.nodes.size := setHI_size _ _ _
  have hs1_nodes_other : ∀ v, v ≠ lid → getN s1 v = getN s v :=
    fun v hv => getD_setHI_other _ _ hv
  have hs1_item0 : itemAt s1 0 = some lid :=
    getD_setD_self _ _ _ _ (by have := hwf.m_le; omega)
  have hs1_item_old : ∀ k, k ≠ 0 → itemAt s1 k = itemAt s k :=
    fun k hk => getD_setD_other _ _ _ _ _ hk
  have hs1_items_size : s1.items.size = s.items.size := size_setD _ _ _
  have hs1_hsize : s1.hsize = s.hsize - 1 := rfl
  rcases Nat.eq_or_lt_of_le hpos with h1 | hge2
  · -- singleton heap
    have hsz1 : s.hsize = 1 := h1.symm
    have hfl : lid = fid := by
      rw [hsz1] at hl_occ
      simp only [Nat.sub_self] at hl_occ
      rw [hf_occ, Option.some_inj] at hl_occ
      exact hl_occ.symm
    have hdown : sortDownF s1 lid = s1 := by
      show sortDown (s1.hsize + 1) s1 lid = s1
      have hsz0 : s1.hsize = 0 := by rw [hs1_hsize]; omega
      rw [hsz0, sortDown]
      have hstep : sortDownStep s1 lid = none := by
        unfold sortDownStep
        rw [if_neg (by rw [hsz0]; omega)]
      rw [hstep]
    rw [hrm, hdown]
    have hwf1 : HeapWF s1 s1.hsize := by
      refine ⟨?_, ?_, ?_⟩
      · rw [hs1_items_size, hs1_hsize]
        omega
      · intro k hk
        rw [hs1_hsize, hsz1] at hk
        omega
      · intro k hk0 hkm
        rw [hs1_hsize, hsz1] at hkm
        omega
    refine ⟨hwf1, hs1_hsize, hs1_items_size, hs1_nodes_size,
      by rw [hslot0]; exact hmem_f, by rw [hslot0]; exact hmin, ?_, ?_⟩
    · intro z
      constructor
      · rintro ⟨k, hk, _⟩
        rw [hs1_hsize, hsz1] at hk
        omega
      · rintro ⟨⟨k, hk, hkocc⟩, hzne⟩
        rw [hsz1] at hk
        have hk0 : k = 0 := by omega
        subst hk0
        rw [hf_occ, Option.some_inj] at hkocc
        rw [hslot0] at hzne
        exact absurd hkocc.symm hzne
    · intro k hk
      rcases Nat.eq_zero_or_pos k with h0 | hkpos
      · subst h0
        rw [hs1_item0, hfl]
        rw [hsz1] at hl_occ
        simp only [Nat.sub_self] at hl_occ
        rw [← hfl]
        exact hl_occ.symm
      · exact hs1_item_old k (by omega)
  · -- at least two members
    have hlf : lid ≠ fid := by
      intro h
      rw [h, hf_hi] at hl_hi
      omega
    have hocc_pres : ∀ j, 0 < j → j < s.hsize - 1 → occAt s1 j = occAt s j := by
      intro j hj0 hjm
      obtain ⟨y, hy1, hy2, hy3⟩ := hwf.slots j (by omega)
      have hyl : y ≠ lid := by
        intro h
        rw [h, hl_hi] at hy3
        omega
      rw [occAt, occAt, slotId, slotId, hs1_item_old j (by omega), hy1]
      exact hs1_nodes_other y hyl
    have hdinv : DownInv s1 (s.hsize - 1) lid := by
      refine ⟨by rw [hs1_items_size]; have := hwf.m_le; omega, hs1_hsize, ?_,
        by rw [hs1hi]; omega, by rw [hs1hi]; exact hs1_item0, ?_, ?_⟩
      · intro k hk
        rcases Nat.eq_zero_or_pos k with h0 | hkpos
        · subst h0
          refine ⟨lid, hs1_item0, ?_, hs1hi⟩
          rw [hs1_nodes_size]
          exact hl_sz
        · obtain ⟨y, hy1, hy2, hy3⟩ := hwf.slots k (by omega)
          have hyl : y ≠ lid := by
            intro h
            rw [h, hl_hi] at hy3
            omega
          refine ⟨y, by rw [hs1_item_old k (by omega)]; exact hy1, ?_, ?_⟩
          · rw [hs1_nodes_size]
            exact hy2
          · rw [hs1_nodes_other y hyl]
            exact hy3
      · intro k hk0 hkm hpk
        rw [hocc_pres k hk0 hkm, hocc_pres ((k - 1) / 2) (by omega) (by omega)]
        exact hwf.order k hk0 (by omega)
      · intro hip
        rw [hs1hi] at hip
        omega
    have hres := sortDown_restores (s1.hsize + 1) s1 hdinv
      (by rw [hs1hi, hs1_hsize]; omega) (by omega)
    obtain ⟨hwf', hperm⟩ := hres
    obtain ⟨hp1, hp2, hp3, hp4, hp5, hp6⟩ := hperm
    rw [hrm]
    have hfin_hsize : (sortDownF s1 lid).hsize = s.hsize - 1 := by
      show (sortDown (s1.hsize + 1) s1 lid).hsize = s.hsize - 1
      rw [hp2]
    refine ⟨?_, hfin_hsize, ?_, ?_, by rw [hslot0]; exact hmem_f,
      by rw [hslot0]; exact hmin, ?_, ?_⟩
    · show HeapWF (sortDown (s1.hsize + 1) s1 lid) (sortDownF s1 lid).hsize
      rw [hfin_hsize]
      rw [show s.hsize - 1 = s1.hsize from hs1_hsize.symm] at hwf' ⊢
      exact hwf'
    · show (sortDown (s1.hsize + 1) s1 lid).items.size = s.items.size
      rw [hp1, hs1_items_size]
    · show (sortDown (s1.hsize + 1) s1 lid).nodes.size = s.nodes.size
      rw [hp3, hs1_nodes_size]
    · intro z
      rw [hslot0]
      have hz1 : hmem (sortDownF s1 lid) z ↔ memb s1 (s.hsize - 1) z := by
        rw [hmem, hfin_hsize]
        show memb (sortDown (s1.hsize + 1) s1 lid) (s.hsize - 1) z ↔ _
        rw [show s.hsize - 1 = s1.hsize from hs1_hsize.symm]
        exact hp6 z
      rw [hz1]
      constructor
      · rintro ⟨k, hk, hkocc⟩
        rcases Nat.eq_zero_or_pos k with h0 | hkpos
        · subst h0
          rw [hs1_item0, Option.some_inj] at hkocc
          subst hkocc
          exact ⟨⟨s.hsize - 1, by omega, hl_occ⟩, hlf⟩
        · rw [hs1_item_old k (by omega)] at hkocc
          refine ⟨⟨k, by omega, hkocc⟩, ?_⟩
          intro h
          subst h
          have := @HeapWF.inj _ _ hwf k 0 _ (by omega) hpos hkocc hf_occ
          omega
      · rintro ⟨⟨k, hk, hkocc⟩, hzne⟩
        rcases Nat.eq_zero_or_pos k with h0 | hkpos
        · subst h0
          rw [hf_occ, Option.some_inj] at hkocc
          exact absurd hkocc.symm hzne
        · rcases Nat.lt_or_ge k (s.hsize - 1) with hlt | hge
          · exact ⟨k, hlt, by rw [hs1_item_old k (by omega)]; exact hkocc⟩
          · have hkl : k = s.hsize - 1 := by omega
            subst hkl
            rw [hl_occ, Option.some_inj] at hkocc
            subst hkocc
            exact ⟨0, by omega, hs1_item0⟩
    · intro k hk
      have h2 : itemAt (sortDownF s1 lid) k = itemAt s1 k := by
        show itemAt (sortDown (s1.hsize + 1) s1 lid) k = itemAt s1 k
        exact hp4 k (by omega)
      rw [h2]
      exact hs1_item_old k (by omega)

/-- `UpdateItem` after an external key decrease of a resident node restores
well-formedness, permuting only the occupied slots.  `s` is the
well-formed state before the mutation, `s'` the state after the caller
wrote the decreased key (the back-pointer untouched). -/
theorem updateItem_wf {s s' : AState} {x : Nat} (hwf : HeapWF s s.hsize)
    (hm : hmem s x)
    (hit : s'.items = s.items) (hhs : s'.hsize = s.hsize)
    (hns : s'.nodes.size = s.nodes.size)
    (hother : ∀ v, v ≠ x → getN s' v = getN s v)
    (hhi : (getN s' x).heapIndex = (getN s x).heapIndex)
    (hle : KLe (getN s' x) (getN s x)) :
    HeapWF (updateItem s' x) s.hsize ∧ HPerm s.hsize s' (updateItem s' x) := by
  obtain ⟨kx, hkx, hkx_occ⟩ := hm
  obtain ⟨y, hy1, hy2, hy3⟩ := hwf.slots kx hkx
  have hyx : x = y := by
    rw [hkx_occ, Option.some_inj] at hy1
    exact hy1
  rw [← hyx] at hy2 hy3
  have hhix : (getN s x).heapIndex = kx := hy3
  have hitemAt : ∀ k, itemAt s' k = itemAt s k := by
    intro k
    rw [itemAt, itemAt, hit]
  have hocc_pres : ∀ j, j < s.hsize → j ≠ kx → occAt s' j = occAt s j := by
    intro j hj hjne
    obtain ⟨z, hz1, hz2, hz3⟩ := hwf.slots j hj
    have hzx : z ≠ x := by
      intro h
      rw [h, hhix] at hz3
      exact hjne hz3.symm
    rw [occAt, occAt, slotId, slotId, hitemAt j, hz1]
    exact hother z hzx
  have hocc_kx : occAt s kx = getN s x := by
    rw [occAt, slotId, hkx_occ]
    rfl
  have hocc_kx' : occAt s' kx = getN s' x := by
    rw [occAt, slotId, hitemAt kx, hkx_occ]
    rfl
  have hinv : UpInv s' s.hsize x := by
    refine ⟨by rw [hit]; exact hwf.m_le, ?_, by rw [hhi, hhix]; exact hkx,
      by rw [hhi, hhix, hitemAt]; exact hkx_occ, ?_, ?_⟩
    · intro k hk
      obtain ⟨z, hz1, hz2, hz3⟩ := hwf.slots k hk
      by_cases hzx : z = x
      · subst hzx
        exact ⟨z, by rw [hitemAt]; exact hz1, by rw [hns]; exact hz2,
          by rw [hhi]; exact hz3⟩
      · exact ⟨z, by rw [hitemAt]; exact hz1, by rw [hns]; exact hz2,
          by rw [hother z hzx]; exact hz3⟩
    · intro k hk0 hkm hkne
      rw [hhi, hhix] at hkne
      by_cases hpk : (k - 1) / 2 = kx
      · rw [hpk, hocc_kx', hocc_pres k hkm hkne]
        have hold := hwf.order k hk0 hkm
        rw [hpk, hocc_kx] at hold
        exact KLe_trans hle hold
      · rw [hocc_pres k hkm hkne, hocc_pres ((k - 1) / 2) (by omega) hpk]
        exact hwf.order k hk0 hkm
    · intro k hk0 hkm hpk hi0
      rw [hhi, hhix] at hpk hi0 ⊢
      have hkne : k ≠ kx := by omega
      have hpne : (kx - 1) / 2 ≠ kx := by omega
      rw [hocc_pres k hkm hkne, hocc_pres ((kx - 1) / 2) (by omega) hpne]
      have h1 := hwf.order kx hi0 hkx
      rw [hocc_kx] at h1
      have h2 := hwf.order k hk0 hkm
      rw [hpk, hocc_kx] at h2
      exact KLe_trans h1 h2
  have hres := sortUp_restores ((getN s' x).heapIndex + 1) s' hinv (by omega)
  exact ⟨hres.1, hres.2⟩

/-- Every state reachable by the claimed operation sequences is
well-formed. -/
theorem HReach_wf {s : AState} (h : HReach s) : HeapWF s s.hsize := by
  induction h with
  | init nodes cap =>
    exact ⟨by simp [heapInit], fun k hk => absurd hk (by simp [heapInit]),
      fun k hk0 hkm => absurd hkm (by simp [heapInit])⟩
  | add x _ hcap hx hnm ih => exact (hAdd_wf ih hcap hx hnm).1
  | remove _ hpos ih => exact (removeFirst_wf ih hpos).1
  | @update s0 x nd' _ hm hx hhi hle ih =>
    have hwf := ih
    have hhs : ({ s0 with nodes := s0.nodes.setD x nd' } : AState).hsize = s0.hsize := rfl
    have hres := @updateItem_wf s0 { s0 with nodes := s0.nodes.setD x nd' } x hwf hm
      rfl rfl (size_setD _ _ _) (fun v hv => getD_setD_other _ _ _ _ _ hv)
      (by
        show ((s0.nodes.setD x nd').getD x dNode).heapIndex = (getN s0 x).heapIndex
        rw [getD_setD_self _ _ _ _ hx, hhi])
      (by show KLe ((s0.nodes.setD x nd').getD x dNode) (getN s0 x)
          rw [getD_setD_self _ _ _ _ hx]
          exact hle)
    have hsz : (updateItem { s0 with nodes := s0.nodes.setD x nd' } x).hsize = s0.hsize :=
      hres.2.2.1
    rw [hsz]
    exact hres.1

theorem keys_sameGHP {a b : Array BNode} (h : sameGHP a b) (v : Nat) :
    fcost (a.getD v dNode) = fcost (b.getD v dNode) ∧
    (a.getD v dNode).hCost = (b.getD v dNode).hCost := by
  obtain ⟨h1, h2, h3, h4⟩ := h.2 v
  exact ⟨by unfold fcost; rw [h1, h2], h2⟩

/-- Key comparisons are invariant under the heap's own node writes. -/
theorem KLe_transport {a b a' b' : Array BNode} {v w : Nat}
    (ha : sameGHP a a') (hb : sameGHP b b') :
    KLe (a.getD v dNode) (b.getD w dNode) ↔ KLe (a'.getD v dNode) (b'.getD w dNode) :=
  KLe_congr (keys_sameGHP ha v).1 (keys_sameGHP ha v).2
    (keys_sameGHP hb w).1 (keys_sameGHP hb w).2

/-- Any full drain of a well-formed heap yields a non-decreasing key
sequence; consequently so does every run of consecutive `RemoveFirst`
calls, which extracts a prefix of the drain. -/
theorem drainList_chain : ∀ (fuel : Nat) (s : AState), HeapWF s s.hsize →
    List.Chain' KLe (drainList fuel s) := by
  intro fuel
  induction fuel with
  | zero =>
    intro s _
    rw [drainList]
    exact List.chain'_nil
  | succ n ih =>
    intro s hwf
    rw [drainList]
    by_cases hne : isNotEmpty s = true
    · rw [if_pos hne]
      dsimp only
      have hpos : 0 < s.hsize := by
        rwa [isNotEmpty, decide_eq_true_eq] at hne
      obtain ⟨hwf', hsz', hisz', hnsz', hmemf, hmin, hmemiff, hstale⟩ :=
        removeFirst_wf hwf hpos
      rw [List.chain'_cons']
      refine ⟨?_, ih _ hwf'⟩
      intro b hb
      -- the next extraction, if any, is a member of the smaller heap
      rcases Nat.eq_zero_or_pos n with hn0 | hnpos
      · rw [hn0, drainList] at hb
        simp at hb
      obtain ⟨n', rfl⟩ : ∃ n', n = n' + 1 := ⟨n - 1, by omega⟩
      rw [drainList] at hb
      by_cases hne2 : isNotEmpty (removeFirst s).2 = true
      · rw [if_pos hne2] at hb
        simp only [List.head?_cons, Option.mem_def, Option.some_inj] at hb
        have hpos2 : 0 < (removeFirst s).2.hsize := by
          rwa [isNotEmpty, decide_eq_true_eq] at hne2
        obtain ⟨_, _, _, _, hmemf2, _, _, _⟩ := removeFirst_wf hwf' hpos2
        have hmem_s : hmem s (removeFirst (removeFirst s).2).1 :=
          ((hmemiff _).1 hmemf2).1
        have hKLe := hmin _ hmem_s
        rw [← hb]
        have ht1 : sameGHP (removeFirst s).2.nodes s.nodes := removeFirst_sameGHP s
        have ht2 : sameGHP (removeFirst (removeFirst s).2).2.nodes s.nodes :=
          (removeFirst_sameGHP (removeFirst s).2).trans ht1
        exact (KLe_transport ht1 ht2).2 hKLe
      · rw [if_neg hne2] at hb
        simp at hb
    · rw [if_neg hne]
      exact List.chain'_nil

/-! ### Claim C3 — heap extraction order -/

/-- **C3** (amended).  For every heap state reachable by `Add` (under
capacity, of a non-resident node), `RemoveFirst` (while non-empty) and
key-decrease-plus-`UpdateItem` operations, every run of consecutive
`RemoveFirst` calls — here, the full drain, of which any such run extracts
a prefix — returns nodes in non-decreasing lexicographic
`(totalCost, HCost)` order.  The original claim, which allowed `Add` and
`UpdateItem` calls *between* the extractions of the sequence, is refuted
by `C3_interleaved_add_counterexample`. -/
theorem C3_extraction_order (s : AState) (h : HReach s) :
    List.Chain' KLe (drainList s.hsize s) :=
  drainList_chain s.hsize s (HReach_wf h)

/-- Witness for C3: the two-element heap over `heapCexNodes` filled by two
`Add`s (keys `(5,0)` and `(3,0)`), fully drained. -/
theorem C3_extraction_order_witness :
    List.Chain' KLe (drainList (hAdd (hAdd (heapInit heapCexNodes 2) 0) 1).hsize
      (hAdd (hAdd (heapInit heapCexNodes 2) 0) 1)) :=
  C3_extraction_order _
    (HReach.add 1 (HReach.add 0 (HReach.init heapCexNodes 2)
      (by decide) (by decide) (by decide)) (by decide) (by decide) (by decide))

/-- **C3 counterexample**.  The operation sequence
`Add 0; RemoveFirst; Add 1; RemoveFirst` on `heapCexNodes` satisfies every
stated precondition (capacity available for each `Add` of a non-resident
node, non-emptiness for each `RemoveFirst`, no `UpdateItem` at all), yet
successive `RemoveFirst` calls return node `0` (key `(5,0)`) and then node
`1` (key `(3,0)`) — a strictly decreasing key sequence. -/
theorem C3_interleaved_add_counterexample :
    (heapInit heapCexNodes 2).hsize < (heapInit heapCexNodes 2).items.size ∧
    ¬ hmem (heapInit heapCexNodes 2) 0 ∧
    0 < (hAdd (heapInit heapCexNodes 2) 0).hsize ∧
    (removeFirst (hAdd (heapInit heapCexNodes 2) 0)).1 = 0 ∧
    (removeFirst (hAdd (heapInit heapCexNodes 2) 0)).2.hsize <
      (removeFirst (hAdd (heapInit heapCexNodes 2) 0)).2.items.size ∧
    ¬ hmem (removeFirst (hAdd (heapInit heapCexNodes 2) 0)).2 1 ∧
    0 < (hAdd (removeFirst (hAdd (heapInit heapCexNodes 2) 0)).2 1).hsize ∧
    (removeFirst (hAdd (removeFirst (hAdd (heapInit heapCexNodes 2) 0)).2 1)).1 = 1 ∧
    ¬ KLe (heapCexNodes.getD 0 dNode) (heapCexNodes.getD 1 dNode) := by
  decide

/-! ### Claim C9 — `Contains` -/

/-- **C9** (amended).  In every reachable heap state, `Contains` returns
`true` for every node occupying an occupied slot — but since it scans the
*entire* backing vector, stale entries beyond `Size` included, it can also
return `true` for a node that `RemoveFirst` already extracted (see
`C9_stale_slot_counterexample`); "occupies an occupied slot" is thus
sufficient but not necessary for a `true` answer. -/
theorem C9_contains_of_resident (s : AState) (h : HReach s) (x : Nat)
    (hx : hmem s x) : hContains s x = true := by
  obtain ⟨k, hk, hkocc⟩ := hx
  have hks : k < s.items.size := by
    have := (HReach_wf h).m_le
    omega
  rw [hContains, Array.any_eq_true]
  refine ⟨⟨k, hks⟩, ?_⟩
  rw [itemAt, Array.getD, dif_pos hks] at hkocc
  simpa using hkocc

/-- Witness for C9: a one-element heap; its occupant is reported. -/
theorem C9_contains_of_resident_witness :
    hContains (hAdd (heapInit heapCexNodes 2) 0) 0 = true :=
  C9_contains_of_resident _
    (HReach.add 0 (HReach.init heapCexNodes 2) (by decide) (by decide) (by decide))
    0 (by decide)

/-- **C9 counterexample**.  After `Add 0; RemoveFirst` on a capacity-1
heap, node `0` has been extracted (the heap is empty), yet `Contains 0`
still returns `true`: the linear scan also visits the stale slot beyond
`Size` that still holds the moved pointer.  The claim requires `false`
for an extracted, not re-inserted node. -/
theorem C9_stale_slot_counterexample :
    (removeFirst (hAdd (heapInit heapCexNodes 1) 0)).1 = 0 ∧
    (removeFirst (hAdd (heapInit heapCexNodes 1) 0)).2.hsize = 0 ∧
    ¬ hmem (removeFirst (hAdd (heapInit heapCexNodes 1) 0)).2 0 ∧
    hContains (removeFirst (hAdd (heapInit heapCexNodes 1) 0)).2 0 = true := by
  decide

/-! ### Walks and chain realization -/

theorem walk_nonneg {edges : Array (Array BEdge)} {start : Nat}
    (hw : ∀ u : Nat, ∀ e ∈ (adjAt edges u).toList, 0 ≤ e.weight) :
    ∀ {v : Nat} {c : Int}, Walk edges start v c → 0 ≤ c := by
  intro v c h
  induction h with
  | refl => omega
  | @step u v' c' w _ he ih =>
    have h2 : (0 : Int) ≤ w := hw u _ he
    omega

theorem edgeIn_src_lt {edges : Array (Array BEdge)} {n u v : Nat} {w : Int}
    (hsz : edges.size ≤ n) (he : EdgeIn edges u v w) : u < n := by
  by_contra hge
  rw [EdgeIn, adjAt, getD_out] at he
  · simp at he
  · omega

theorem Realizes_mono {ns : Array BNode} {edges : Array (Array BEdge)}
    {start : Nat} {D D' : Nat → Prop} (hDD : ∀ u, D u → D' u) {v : Nat}
    (h : Realizes ns edges start D v) : Realizes ns edges start D' v := by
  induction h with
  | base => exact Realizes.base
  | step _ hD he hp hg ih => exact Realizes.step ih (hDD _ hD) he hp hg

theorem Realizes_stable {ns ns' : Array BNode} {edges : Array (Array BEdge)}
    {start : Nat} {D : Nat → Prop}
    (hkeep : ∀ u, D u → (ns'.getD u dNode).gCost = (ns.getD u dNode).gCost ∧
      (ns'.getD u dNode).parentID = (ns.getD u dNode).parentID) :
    ∀ {v : Nat}, Realizes ns edges start D v →
    (ns'.getD v dNode).gCost = (ns.getD v dNode).gCost →
    (ns'.getD v dNode).parentID = (ns.getD v dNode).parentID →
    Realizes ns' edges start D v := by
  intro v h
  induction h with
  | base => intro _ _; exact Realizes.base
  | @step u v' w _ hD he hp hg ih =>
    intro hgv hpv
    refine Realizes.step (ih (hkeep u hD).1 (hkeep u hD).2) hD he ?_ ?_
    · rw [hpv]; exact hp
    · rw [hgv, hg, (hkeep u hD).1]

theorem Realizes_walk {ns : Array BNode} {edges : Array (Array BEdge)}
    {start : Nat} {D : Nat → Prop} (hst : (ns.getD start dNode).gCost = 0) :
    ∀ {v : Nat}, Realizes ns edges start D v →
      Walk edges start v ((ns.getD v dNode).gCost) := by
  intro v h
  induction h with
  | base => rw [hst]; exact Walk.refl
  | @step u v' w _ _ he _ hg ih =>
    rw [hg]
    exact Walk.step ih he

/-! ### Dijkstra invariant machinery for C1 -/

theorem fcost_of_hzero {nd : BNode} (h0 : nd.hCost = 0) (hlo : 0 ≤ nd.gCost)
    (hhi : nd.gCost ≤ 2000000) : fcost nd = nd.gCost := by
  rw [fcost, h0, Int.add_zero]
  exact i32_eq_self (by omega) (by norm_num; omega)

theorem KLe_iff_g {nd nd' : BNode} (h0 : nd.hCost = 0) (h0' : nd'.hCost = 0)
    (hr : 0 ≤ nd.gCost ∧ nd.gCost ≤ 2000000)
    (hr' : 0 ≤ nd'.gCost ∧ nd'.gCost ≤ 2000000) :
    KLe nd nd' ↔ nd.gCost ≤ nd'.gCost := by
  rw [KLe, fcost_of_hzero h0 hr.1 hr.2, fcost_of_hzero h0' hr'.1 hr'.2, h0, h0']
  omega

theorem setD_setD {α : Type _} (a : Array α) (x : Nat) (v1 v2 : α) :
    (a.setD x v1).setD x v2 = a.setD x v2 := by
  unfold Array.setD
  by_cases hx : x < a.size
  · rw [dif_pos hx, dif_pos (by rwa [Array.size_set]), dif_pos hx]
    exact Array.set_set a ⟨x, hx⟩ v1 v2
  · simp only [dif_neg hx]

/-- The combined node write of one successful relaxation. -/
theorem setPG_eq (ns : Array BNode) (v : Nat) (d p : Int) (hv : v < ns.size) :
    setP (setG ns v d) v p =
      ns.setD v { ns.getD v dNode with gCost := d, parentID := p } := by
  rw [setP, setG, getD_setD_self _ _ _ _ hv, setD_setD]

/-- Bulk-loading a duplicate-free list of fresh valid nodes (the one-time
`for`-loop of `FindPathsToNodes`) preserves well-formedness and makes
exactly those nodes members. -/
theorem bulkAdd_wf : ∀ (l : List Nat) (s : AState), HeapWF s s.hsize →
    (∀ x ∈ l, x < s.nodes.size) → l.Nodup → (∀ x ∈ l, ¬ hmem s x) →
    s.hsize + l.length ≤ s.items.size →
    HeapWF (l.foldl (fun s i => hAdd s i) s) (l.foldl (fun s i => hAdd s i) s).hsize ∧
    (l.foldl (fun s i => hAdd s i) s).hsize = s.hsize + l.length ∧
    (l.foldl (fun s i => hAdd s i) s).items.size = s.items.size ∧
    (l.foldl (fun s i => hAdd s i) s).nodes.size = s.nodes.size ∧
    (∀ z, hmem (l.foldl (fun s i => hAdd s i) s) z ↔ hmem s z ∨ z ∈ l) := by
  intro l
  induction l with
  | nil =>
    intro s hwf _ _ _ _
    exact ⟨hwf, by simp, rfl, rfl, fun z => by simp⟩
  | cons hd tl ih =>
    intro s hwf hlt hnd hnm hcap
    rw [List.length_cons] at hcap
    have hstep := hAdd_wf hwf (by omega) (hlt hd (List.mem_cons_self _ _))
      (hnm hd (List.mem_cons_self _ _))
    obtain ⟨hwf1, hsz1, hisz1, hnsz1, _, hmem1⟩ := hstep
    rw [List.foldl_cons]
    have hrec := ih (hAdd s hd) hwf1
      (fun x hx => by rw [hnsz1]; exact hlt x (List.mem_cons_of_mem _ hx))
      (List.Nodup.of_cons hnd)
      (fun x hx => by
        rw [hmem1 x]
        rintro (h | h)
        · exact hnm x (List.mem_cons_of_mem _ hx) h
        · subst h
          exact (List.nodup_cons.1 hnd).1 hx)
      (by rw [hsz1, hisz1]; omega)
    obtain ⟨hwf', hsz', hisz', hnsz', hmem'⟩ := hrec
    refine ⟨hwf', by rw [hsz', hsz1, List.length_cons]; omega, by rw [hisz', hisz1],
      by rw [hnsz', hnsz1], ?_⟩
    intro z
    rw [hmem' z, hmem1 z]
    simp only [List.mem_cons]
    tauto

/-- One relaxation step of `FindPathsToNodes` (an edge out of the
just-settled node `u`) preserves the Dijkstra invariant, the member set,
and all settled costs, decreases costs pointwise, and leaves the processed
edge relaxed. -/
theorem relaxEdge_inv {edges : Array (Array BEdge)} {startID n u : Nat}
    {X : Nat → Prop} {s : AState} {e : BEdge}
    (hE : EdgesOk edges n WBOUND) (hstart : startID < n)
    (hinv : DijInv edges startID n X s)
    (hu : u < n) (hun : ¬ hmem s u)
    (he : e ∈ (adjAt edges u).toList) :
    DijInv edges startID n X (relaxEdge u s e) ∧
    (∀ z, hmem (relaxEdge u s e) z ↔ hmem s z) ∧
    (∀ z, ¬ hmem s z →
      (getN (relaxEdge u s e) z).gCost = (getN s z).gCost ∧
      (getN (relaxEdge u s e) z).parentID = (getN s z).parentID) ∧
    (∀ z, (getN (relaxEdge u s e) z).gCost ≤ (getN s z).gCost) ∧
    (getN (relaxEdge u s e) (e.nodeID.toNat)).gCost ≤
      (getN (relaxEdge u s e) u).gCost + e.weight := by
  obtain ⟨hwf, hnsize, hisize, hmemsub, hids, hhzero, hgrange, hgstart, hpstart,
    hrealz, hrelaxed, hlower, hpvalid⟩ := hinv
  obtain ⟨hen0, henlt, hew0, hewB⟩ := hE u e he
  have hWB : WBOUND = 2 ^ 31 - 1 - 2000000 := rfl
  set v := e.nodeID.toNat with hvdef
  have hvn : v < n := by omega
  have hnid : ((getN s u).nodeID).toNat = u := by
    rw [hids u hu]
    exact Int.toNat_natCast u
  have hgu_range := hgrange u
  have hdist : i32 ((getN s (((getN s u).nodeID).toNat)).gCost + e.weight) =
      (getN s u).gCost + e.weight := by
    rw [hnid]
    exact i32_eq_self (by omega) (by norm_num; omega)
  have hre : relaxEdge u s e =
      if i32 ((getN s (((getN s u).nodeID).toNat)).gCost + e.weight) <
          (getN s v).gCost then
        updateItem
          { s with nodes := setP (setG s.nodes v (i32 ((getN s (((getN s u).nodeID).toNat)).gCost + e.weight))) v (getN s u).nodeID } v
      else s := rfl
  rw [hdist] at hre
  set d := (getN s u).gCost + e.weight with hddef
  have heeq : e = ⟨(v : Int), e.weight⟩ := by
    have h1 : (v : Int) = e.nodeID := Int.toNat_of_nonneg hen0
    cases e
    simp only at h1 ⊢
    rw [h1]
  by_cases hrel : d < (getN s v).gCost
  · -- successful relaxation
    have hvne_u : v ≠ u := by
      intro h
      rw [h] at hrel
      omega
    have hvmem : hmem s v := by
      by_contra hvnm
      rcases lt_or_eq_of_le (hgrange u).2 with hgu | hgu
      · have hrz := hrealz u hu hgu
        have hwalk := Realizes_walk hgstart hrz
        have hwv : Walk edges startID v ((getN s u).gCost + e.weight) := by
          refine Walk.step hwalk ?_
          rw [EdgeIn, ← heeq]
          exact he
        have := hlower v hvn hvnm _ hwv
        omega
      · have := (hgrange v).2
        omega
    have hvstart : v ≠ startID := by
      intro h
      rw [h, hgstart] at hrel
      omega
    have hvlt_nodes : v < s.nodes.size := by omega
    set nd' : BNode := { getN s v with gCost := d, parentID := (getN s u).nodeID }
      with hnd'def
    have hnodes1 : setP (setG s.nodes v d) v (getN s u).nodeID = s.nodes.setD v nd' :=
      setPG_eq s.nodes v d (getN s u).nodeID hvlt_nodes
    rw [if_pos hrel, hnodes1] at hre
    set s1 : AState := { s with nodes := s.nodes.setD v nd' } with hs1def
    have hs1_other : ∀ z, z ≠ v → getN s1 z = getN s z := by
      intro z hz
      show (s.nodes.setD v nd').getD z dNode = s.nodes.getD z dNode
      exact getD_setD_other _ _ _ _ _ hz
    have hs1_v : getN s1 v = nd' := by
      show (s.nodes.setD v nd').getD v dNode = nd'
      exact getD_setD_self _ _ _ _ hvlt_nodes
    have hd0 : 0 ≤ d := by omega
    have hd2m : d < 2000000 := by
      have := (hgrange v).2
      omega
    have hup := @updateItem_wf s s1 v hwf hvmem rfl rfl
      (size_setD _ _ _) hs1_other
      (by rw [hs1_v])
      (by
        rw [hs1_v]
        have h1 : nd'.gCost = d := rfl
        have h2 : nd'.hCost = (getN s v).hCost := rfl
        refine (KLe_iff_g ?_ (hhzero v) ?_ (hgrange v)).2 ?_
        · rw [h2]
          exact hhzero v
        · rw [h1]
          exact ⟨hd0, by omega⟩
        · rw [h1]
          exact le_of_lt hrel)
    obtain ⟨hwf2, hperm2⟩ := hup
    obtain ⟨hq1, hq2, hq3, hq4, hq5, hq6⟩ := hperm2
    have hGHP := updateItem_sameGHP s1 v
    have hg2 : ∀ z, (getN (updateItem s1 v) z).gCost =
        if z = v then d else (getN s z).gCost := by
      intro z
      rw [show (getN (updateItem s1 v) z).gCost = (getN s1 z).gCost from (hGHP.2 z).1]
      by_cases hz : z = v
      · rw [if_pos hz, hz, hs1_v]
      · rw [if_neg hz, hs1_other z hz]
    have hp2 : ∀ z, (getN (updateItem s1 v) z).parentID =
        if z = v then (getN s u).nodeID else (getN s z).parentID := by
      intro z
      rw [show (getN (updateItem s1 v) z).parentID = (getN s1 z).parentID from
        (hGHP.2 z).2.2.1]
      by_cases hz : z = v
      · rw [if_pos hz, hz, hs1_v]
      · rw [if_neg hz, hs1_other z hz]
    have hh2 : ∀ z, (getN (updateItem s1 v) z).hCost = (getN s z).hCost := by
      intro z
      rw [show (getN (updateItem s1 v) z).hCost = (getN s1 z).hCost from
        (hGHP.2 z).2.1]
      by_cases hz : z = v
      · rw [hz, hs1_v]
      · rw [hs1_other z hz]
    have hid2 : ∀ z, (getN (updateItem s1 v) z).nodeID = (getN s z).nodeID := by
      intro z
      rw [show (getN (updateItem s1 v) z).nodeID = (getN s1 z).nodeID from
        (hGHP.2 z).2.2.2]
      by_cases hz : z = v
      · rw [hz, hs1_v]
      · rw [hs1_other z hz]
    have hsz2 : (updateItem s1 v).hsize = s.hsize := hq2
    have hmem2 : ∀ z, hmem (updateItem s1 v) z ↔ hmem s z := by
      intro z
      rw [hmem, hsz2]
      exact hq6 z
    have hDD : ∀ z, (z < n ∧ ¬ hmem s z) → (z < n ∧ ¬ hmem (updateItem s1 v) z) :=
      fun z hz => ⟨hz.1, fun hm => hz.2 ((hmem2 z).1 hm)⟩
    have hkeep : ∀ z, (z < n ∧ ¬ hmem (updateItem s1 v) z) →
        ((updateItem s1 v).nodes.getD z dNode).gCost = (s.nodes.getD z dNode).gCost ∧
        ((updateItem s1 v).nodes.getD z dNode).parentID =
          (s.nodes.getD z dNode).parentID := by
      intro z hz
      have hzv : z ≠ v := by
        intro h
        exact hz.2 ((hmem2 z).2 (h ▸ hvmem))
      constructor
      · show (getN (updateItem s1 v) z).gCost = (getN s z).gCost
        rw [hg2, if_neg hzv]
      · show (getN (updateItem s1 v) z).parentID = (getN s z).parentID
        rw [hp2, if_neg hzv]
    have hgu_lt : (getN s u).gCost < 2000000 := by omega
    have hrz_u : Realizes (updateItem s1 v).nodes edges startID
        (fun z => z < n ∧ ¬ hmem (updateItem s1 v) z) u := by
      have h0 := hrealz u hu hgu_lt
      have h1 := Realizes_mono hDD h0
      refine Realizes_stable hkeep h1 ?_ ?_
      · show (getN (updateItem s1 v) u).gCost = (getN s u).gCost
        rw [hg2, if_neg hvne_u.symm]
      · show (getN (updateItem s1 v) u).parentID = (getN s u).parentID
        rw [hp2, if_neg hvne_u.symm]
    rw [hre]
    refine ⟨⟨?_, ?_, ?_, ?_, ?_, ?_, ?_, ?_, ?_, ?_, ?_, ?_, ?_⟩, hmem2, ?_, ?_, ?_⟩
    · rw [hsz2]
      exact hwf2
    · rw [hq3]
      show (s.nodes.setD v nd').size = n
      rw [size_setD]
      exact hnsize
    · rw [hq1]
      exact hisize
    · intro z hz
      exact hmemsub z ((hmem2 z).1 hz)
    · intro z hz
      rw [hid2]
      exact hids z hz
    · intro z
      rw [hh2]
      exact hhzero z
    · intro z
      rw [hg2]
      by_cases hz : z = v
      · rw [if_pos hz]
        omega
      · rw [if_neg hz]
        exact hgrange z
    · rw [hg2, if_neg (fun h => hvstart (h.symm : v = startID))]
      exact hgstart
    · rw [hp2, if_neg (fun h => hvstart (h.symm : v = startID))]
      exact hpstart
    · -- chain realization
      intro z hz hglt
      by_cases hzv : z = v
      · subst hzv
        refine @Realizes.step (updateItem s1 v).nodes edges startID
          (fun z => z < n ∧ ¬ hmem (updateItem s1 v) z) u v e.weight hrz_u
          ⟨hu, fun hm => hun ((hmem2 u).1 hm)⟩ ?_ ?_ ?_
        · rw [EdgeIn, ← heeq]
          exact he
        · show (getN (updateItem s1 v) v).parentID = (u : Int)
          rw [hp2, if_pos rfl, hids u hu]
        · show (getN (updateItem s1 v) v).gCost =
            ((updateItem s1 v).nodes.getD u dNode).gCost + e.weight
          rw [hg2, if_pos rfl]
          rw [show ((updateItem s1 v).nodes.getD u dNode).gCost =
            (getN (updateItem s1 v) u).gCost from rfl, hg2, if_neg hvne_u.symm]
      · rw [hg2, if_neg hzv] at hglt
        have h0 := hrealz z hz hglt
        have h1 := Realizes_mono hDD h0
        refine Realizes_stable hkeep h1 ?_ ?_
        · show (getN (updateItem s1 v) z).gCost = (getN s z).gCost
          rw [hg2, if_neg hzv]
        · show (getN (updateItem s1 v) z).parentID = (getN s z).parentID
          rw [hp2, if_neg hzv]
    · -- relaxed closure for settled nodes
      intro z hz hznm hzX e' he'
      have hznm' : ¬ hmem s z := fun hm => hznm ((hmem2 z).2 hm)
      have hzv : z ≠ v := by
        intro h
        exact hznm' (h ▸ hvmem)
      have hold := hrelaxed z hz hznm' hzX e' he'
      rw [hg2 (e'.nodeID.toNat), hg2 z, if_neg hzv]
      by_cases ht : e'.nodeID.toNat = v
      · rw [if_pos ht]
        rw [ht] at hold
        omega
      · rw [if_neg ht]
        exact hold
    · -- settled lower bounds
      intro z hz hznm c hwc
      have hznm' : ¬ hmem s z := fun hm => hznm ((hmem2 z).2 hm)
      have hzv : z ≠ v := by
        intro h
        exact hznm' (h ▸ hvmem)
      rw [hg2, if_neg hzv]
      exact hlower z hz hznm' c hwc
    · intro z hz
      rw [hg2]
      by_cases hzv : z = v
      · rw [if_pos hzv]
        exact hd2m
      · rw [if_neg hzv]
        refine hpvalid z ?_
        rw [hp2, if_neg hzv] at hz
        exact hz
    · intro z hznm
      have hzv : z ≠ v := by
        intro h
        exact hznm (h ▸ hvmem)
      rw [hg2, if_neg hzv, hp2, if_neg hzv]
      exact ⟨rfl, rfl⟩
    · intro z
      rw [hg2]
      by_cases hzv : z = v
      · rw [if_pos hzv, hzv]
        omega
      · rw [if_neg hzv]
    · show (getN (updateItem s1 v) v).gCost ≤ (getN (updateItem s1 v) u).gCost + e.weight
      rw [hg2, if_pos rfl, hg2, if_neg hvne_u.symm]
  · -- no improvement: the state is unchanged and the edge already relaxed
    rw [if_neg hrel] at hre
    rw [hre]
    refine ⟨⟨hwf, hnsize, hisize, hmemsub, hids, hhzero, hgrange, hgstart, hpstart,
      hrealz, hrelaxed, hlower, hpvalid⟩, fun z => Iff.rfl,
      fun z _ => ⟨rfl, rfl⟩, fun z => le_refl _, ?_⟩
    show (getN s v).gCost ≤ (getN s u).gCost + e.weight
    omega

/-- Relaxing a sublist of the settled node `u`'s adjacency list preserves
the Dijkstra invariant and the member set, keeps settled costs and parents,
decreases costs pointwise, and leaves every processed edge relaxed in the
final state. -/
theorem relaxFold_inv {edges : Array (Array BEdge)} {startID n u : Nat}
    {X : Nat → Prop} :
    ∀ (l : List BEdge) (s : AState),
    EdgesOk edges n WBOUND → startID < n →
    DijInv edges startID n X s →
    u < n → ¬ hmem s u →
    (∀ e ∈ l, e ∈ (adjAt edges u).toList) →
    DijInv edges startID n X (l.foldl (relaxEdge u) s) ∧
    (∀ z, hmem (l.foldl (relaxEdge u) s) z ↔ hmem s z) ∧
    (∀ z, ¬ hmem s z →
      (getN (l.foldl (relaxEdge u) s) z).gCost = (getN s z).gCost ∧
      (getN (l.foldl (relaxEdge u) s) z).parentID = (getN s z).parentID) ∧
    (∀ z, (getN (l.foldl (relaxEdge u) s) z).gCost ≤ (getN s z).gCost) ∧
    (∀ e ∈ l, (getN (l.foldl (relaxEdge u) s) (e.nodeID.toNat)).gCost ≤
      (getN (l.foldl (relaxEdge u) s) u).gCost + e.weight) := by
  intro l
  induction l with
  | nil =>
    intro s hE hstart hinv hu hun _
    rw [List.foldl_nil]
    exact ⟨hinv, fun z => Iff.rfl, fun z _ => ⟨rfl, rfl⟩, fun z => le_refl _,
      fun e he => absurd he (List.not_mem_nil e)⟩
  | cons e tl ih =>
    intro s hE hstart hinv hu hun hsub
    rw [List.foldl_cons]
    obtain ⟨hinv1, hmem1, hkeep1, hdec1, hrel1⟩ :=
      relaxEdge_inv hE hstart hinv hu hun (hsub e (List.mem_cons_self _ _))
    have hun1 : ¬ hmem (relaxEdge u s e) u := fun hm => hun ((hmem1 u).1 hm)
    obtain ⟨hinv2, hmem2, hkeep2, hdec2, hrel2⟩ :=
      ih (relaxEdge u s e) hE hstart hinv1 hu hun1
        (fun x hx => hsub x (List.mem_cons_of_mem _ hx))
    refine ⟨hinv2, ?_, ?_, ?_, ?_⟩
    · intro z
      rw [hmem2 z, hmem1 z]
    · intro z hz
      have hz1 : ¬ hmem (relaxEdge u s e) z := fun hm => hz ((hmem1 z).1 hm)
      obtain ⟨hg1, hp1⟩ := hkeep1 z hz
      obtain ⟨hg2, hp2⟩ := hkeep2 z hz1
      exact ⟨hg2.trans hg1, hp2.trans hp1⟩
    · intro z
      exact le_trans (hdec2 z) (hdec1 z)
    · intro x hx
      rcases List.mem_cons.1 hx with h | h
      · subst h
        have hgu : (getN (tl.foldl (relaxEdge u) (relaxEdge u s x)) u).gCost =
            (getN (relaxEdge u s x) u).gCost := (hkeep2 u hun1).1
        rw [hgu]
        exact le_trans (hdec2 (x.nodeID.toNat)) hrel1
      · exact hrel2 x h

theorem sortUp_hsize : ∀ (fuel : Nat) (s : AState) (x : Nat),
    (sortUp fuel s x).hsize = s.hsize := by
  intro fuel
  induction fuel with
  | zero => intro s x; rfl
  | succ m ih =>
    intro s x
    rw [sortUp]
    split
    · rw [ih]
      rfl
    · rfl

theorem relaxEdge_hsize (u : Nat) (s : AState) (e : BEdge) :
    (relaxEdge u s e).hsize = s.hsize := by
  rw [relaxEdge]
  dsimp only
  split
  · rw [updateItem, sortUpF, sortUp_hsize]
  · rfl

theorem relaxFold_hsize (u : Nat) : ∀ (l : List BEdge) (s : AState),
    (l.foldl (relaxEdge u) s).hsize = s.hsize := by
  intro l
  induction l with
  | nil => intro s; rfl
  | cons e tl ih =>
    intro s
    rw [List.foldl_cons, ih, relaxEdge_hsize]

/-- Every node on a stored walk from a valid start is a valid index. -/
theorem walk_lt {edges : Array (Array BEdge)} {startID n : Nat} {b : Int}
    (hE : EdgesOk edges n b) (hstart : startID < n) :
    ∀ {v : Nat} {c : Int}, Walk edges startID v c → v < n := by
  intro v c h
  induction h with
  | refl => exact hstart
  | @step u v' c' w _ he _ =>
    obtain ⟨_, h1, _, _⟩ := hE u _ he
    have h2 : ((v' : Int)) < (n : Int) := h1
    exact_mod_cast h2

/-- Frontier bound: along any stored walk, in an invariant state either
the endpoint is settled with recorded cost at most the walk cost, or some
still-resident node already has recorded cost at most the walk cost. -/
theorem walk_bound {edges : Array (Array BEdge)} {startID n : Nat}
    {X : Nat → Prop} {s : AState}
    (hE : EdgesOk edges n WBOUND) (hstart : startID < n)
    (hinv : DijInv edges startID n X s)
    (hX : ∀ z, X z → hmem s z) :
    ∀ {v : Nat} {c : Int}, Walk edges startID v c →
      (¬ hmem s v ∧ (getN s v).gCost ≤ c) ∨
      (∃ y, hmem s y ∧ (getN s y).gCost ≤ c) := by
  intro v c h
  induction h with
  | refl =>
    by_cases hm : hmem s startID
    · exact Or.inr ⟨startID, hm, le_of_eq hinv.gstart⟩
    · exact Or.inl ⟨hm, le_of_eq hinv.gstart⟩
  | @step u v' c' w hwk he ih =>
    obtain ⟨_, _, hw0, _⟩ := hE u _ he
    have hw1 : (0 : Int) ≤ w := hw0
    rcases ih with ⟨hnmu, hgu⟩ | ⟨y, hy, hgy⟩
    · have hun : u < n := walk_lt hE hstart hwk
      have hXu : ¬ X u := fun hx => hnmu (hX u hx)
      have hrel : (getN s v').gCost ≤ (getN s u).gCost + w := by
        have h0 := hinv.relaxed u hun hnmu hXu _ he
        have htn : ((⟨(v' : Int), w⟩ : BEdge).nodeID).toNat = v' := Int.toNat_natCast v'
        rw [htn] at h0
        exact h0
      have hb : (getN s v').gCost ≤ c' + w := by omega
      by_cases hm : hmem s v'
      · exact Or.inr ⟨v', hm, hb⟩
      · exact Or.inl ⟨hm, hb⟩
    · exact Or.inr ⟨y, hy, by omega⟩

/-- The drain loop of `FindPathsToNodes`: with fuel at least the member
count the heap empties and the Dijkstra invariant (with no pending
exceptions) is preserved to the final state. -/
theorem findPathsLoop_inv {edges : Array (Array BEdge)} {startID n : Nat} :
    ∀ (fuel : Nat) (s : AState),
    EdgesOk edges n WBOUND → startID < n →
    DijInv edges startID n (fun _ => False) s →
    s.hsize ≤ fuel →
    DijInv edges startID n (fun _ => False) (findPathsLoop edges fuel s) ∧
    (findPathsLoop edges fuel s).hsize = 0 := by
  intro fuel
  induction fuel with
  | zero =>
    intro s _ _ hinv hle
    rw [findPathsLoop]
    exact ⟨hinv, by omega⟩
  | succ m ih =>
    intro s hE hstart hinv hle
    rw [findPathsLoop]
    by_cases hne : isNotEmpty s = true
    · rw [if_pos hne]
      dsimp only
      have hpos : 0 < s.hsize := by
        rwa [isNotEmpty, decide_eq_true_eq] at hne
      obtain ⟨hwf', hsz', hisz', hnsz', hmemf, hmin, hmemiff, _⟩ :=
        removeFirst_wf hinv.wf hpos
      have hxn : (removeFirst s).1 < n := hinv.memsub _ hmemf
      have hsame : sameGHP (removeFirst s).2.nodes s.nodes := removeFirst_sameGHP s
      have hgall : ∀ z : Nat,
          (getN (removeFirst s).2 z).gCost = (getN s z).gCost ∧
          (getN (removeFirst s).2 z).hCost = (getN s z).hCost ∧
          (getN (removeFirst s).2 z).parentID = (getN s z).parentID ∧
          (getN (removeFirst s).2 z).nodeID = (getN s z).nodeID := fun z => hsame.2 z
      have hid_x : ((getN (removeFirst s).2 (removeFirst s).1).nodeID).toNat =
          (removeFirst s).1 := by
        rw [(hgall _).2.2.2, hinv.ids _ hxn]
        exact Int.toNat_natCast _
      have hnm' : ¬ hmem (removeFirst s).2 (removeFirst s).1 := by
        rw [hmemiff]
        rintro ⟨_, hcon⟩
        exact hcon rfl
      -- the invariant survives the extraction, excepting the extracted node
      have hinv' : DijInv edges startID n (fun z => z = (removeFirst s).1)
          (removeFirst s).2 := by
        refine ⟨hwf', hnsz'.trans hinv.nsize, hisz'.trans hinv.isize, ?_, ?_, ?_,
          ?_, ?_, ?_, ?_, ?_, ?_, ?_⟩
        · intro z hz
          exact hinv.memsub z ((hmemiff z).1 hz).1
        · intro v hv
          rw [(hgall v).2.2.2]
          exact hinv.ids v hv
        · intro v
          rw [(hgall v).2.1]
          exact hinv.hzero v
        · intro v
          rw [(hgall v).1]
          exact hinv.grange v
        · rw [(hgall startID).1]
          exact hinv.gstart
        · rw [(hgall startID).2.2.1]
          exact hinv.pstart
        · intro v hv hglt
          rw [(hgall v).1] at hglt
          have h0 := hinv.realz v hv hglt
          have h1 : Realizes s.nodes edges startID
              (fun z => z < n ∧ ¬ hmem (removeFirst s).2 z) v := by
            refine Realizes_mono ?_ h0
            rintro z ⟨hzn, hznm⟩
            exact ⟨hzn, fun hm => hznm ((hmemiff z).1 hm).1⟩
          exact Realizes_stable
            (fun z _ => ⟨(hgall z).1, (hgall z).2.2.1⟩) h1 (hgall v).1 (hgall v).2.2.1
        · intro z hz hznm hzx e he
          have hznms : ¬ hmem s z := by
            intro hm
            exact hznm ((hmemiff z).2 ⟨hm, hzx⟩)
          have h0 := hinv.relaxed z hz hznms (fun hf => hf) e he
          rw [(hgall _).1, (hgall z).1]
          exact h0
        · intro z hz hznm c hwc
          by_cases hzx : z = (removeFirst s).1
          · subst hzx
            rcases walk_bound hE hstart hinv (fun _ hf => absurd hf (fun hf => hf)) hwc
              with ⟨hnm, _⟩ | ⟨y, hy, hgy⟩
            · exact absurd hmemf hnm
            · have hk := hmin y hy
              have hky := (KLe_iff_g (hinv.hzero _) (hinv.hzero _)
                (hinv.grange _) (hinv.grange _)).1 hk
              rw [(hgall _).1]
              omega
          · have hznms : ¬ hmem s z := by
              intro hm
              exact hznm ((hmemiff z).2 ⟨hm, hzx⟩)
            rw [(hgall z).1]
            exact hinv.lower z hz hznms c hwc
        · intro v hp
          rw [(hgall v).2.2.1] at hp
          rw [(hgall v).1]
          exact hinv.pvalid v hp
      -- relax every edge of the extracted node
      have hfold := relaxFold_inv ((adjAt edges (removeFirst s).1).toList)
        (removeFirst s).2 hE hstart hinv' hxn hnm' (fun e he => he)
      obtain ⟨hinv2, hmem2, _, _, hrel2⟩ := hfold
      have hbody : (adjAt edges ((getN (removeFirst s).2 (removeFirst s).1).nodeID).toNat).foldl
            (relaxEdge (removeFirst s).1) (removeFirst s).2 =
          ((adjAt edges (removeFirst s).1).toList).foldl
            (relaxEdge (removeFirst s).1) (removeFirst s).2 := by
        rw [hid_x, Array.foldl_eq_foldl_toList]
      -- drop the exception: the extracted node's edges are now all relaxed
      have hinv3 : DijInv edges startID n (fun _ => False)
          (((adjAt edges (removeFirst s).1).toList).foldl
            (relaxEdge (removeFirst s).1) (removeFirst s).2) := by
        refine ⟨hinv2.wf, hinv2.nsize, hinv2.isize, hinv2.memsub, hinv2.ids,
          hinv2.hzero, hinv2.grange, hinv2.gstart, hinv2.pstart, hinv2.realz,
          ?_, hinv2.lower, hinv2.pvalid⟩
        intro z hz hznm _ e he
        by_cases hzx : z = (removeFirst s).1
        · subst hzx
          exact hrel2 e he
        · exact hinv2.relaxed z hz hznm hzx e he
      have hsz2 : (((adjAt edges (removeFirst s).1).toList).foldl
          (relaxEdge (removeFirst s).1) (removeFirst s).2).hsize = s.hsize - 1 := by
        rw [relaxFold_hsize, hsz']
      have hrec := ih _ hE hstart hinv3 (by omega)
      rw [hbody]
      exact hrec
    · rw [if_neg hne]
      exact ⟨hinv, by
        rw [isNotEmpty, decide_eq_true_eq] at hne
        omega⟩

theorem bulkAdd_sameGHP : ∀ (l : List Nat) (s : AState),
    sameGHP ((l.foldl (fun s i => hAdd s i) s)).nodes s.nodes := by
  intro l
  induction l with
  | nil => intro s; exact sameGHP.refl _
  | cons hd tl ih =>
    intro s
    rw [List.foldl_cons]
    exact (ih (hAdd s hd)).trans (hAdd_sameGHP s hd)

/-- After `FindPathsToNodes` zeroes the start cost and bulk-loads every
node of the reset graph, the Dijkstra loop invariant holds and the heap
holds all `n` nodes. -/
theorem dijInit {g : Graph} {startID : Nat}
    (hok : GraphOk g WBOUND) (hstart : startID < g.nodes.size)
    (hreset : ∀ i, i < g.nodes.size →
      (g.nodes.getD i dNode).gCost = INITIAL_DISTANCE ∧
      (g.nodes.getD i dNode).hCost = 0 ∧
      (g.nodes.getD i dNode).parentID = -1) :
    DijInv g.edges startID g.nodes.size (fun _ => False)
      ((List.range g.nodes.size).foldl (fun s i => hAdd s i)
        (heapInit (setG g.nodes startID 0) g.nodes.size)) ∧
    ((List.range g.nodes.size).foldl (fun s i => hAdd s i)
      (heapInit (setG g.nodes startID 0) g.nodes.size)).hsize = g.nodes.size := by
  obtain ⟨hesz, hids0, hE⟩ := hok
  set s0 := heapInit (setG g.nodes startID 0) g.nodes.size with hs0def
  set s1 := (List.range g.nodes.size).foldl (fun s i => hAdd s i) s0 with hs1def
  have hn0 : s0.hsize = 0 := rfl
  have hns0 : s0.nodes.size = g.nodes.size := size_setD _ _ _
  have his0 : s0.items.size = g.nodes.size := by
    show (mkArray g.nodes.size (none : Option Nat)).size = g.nodes.size
    simp
  have hwf0 : HeapWF s0 s0.hsize := by
    refine ⟨?_, ?_, ?_⟩
    · rw [hn0]
      exact Nat.zero_le _
    · intro k hk
      rw [hn0] at hk
      exact absurd hk (Nat.not_lt_zero k)
    · intro k _ hk
      rw [hn0] at hk
      exact absurd hk (Nat.not_lt_zero k)
  obtain ⟨hwf1, hsz1, hisz1, hnsz1, hmem1⟩ := bulkAdd_wf (List.range g.nodes.size) s0
    hwf0
    (fun x hx => by rw [hns0]; exact List.mem_range.1 hx)
    (List.nodup_range _)
    (fun x _ hm => by
      obtain ⟨k, hk, _⟩ := hm
      rw [hn0] at hk
      exact absurd hk (Nat.not_lt_zero k))
    (by rw [hn0, his0, List.length_range]; omega)
  have hsz1' : s1.hsize = g.nodes.size := by
    rw [hsz1, hn0, List.length_range]
    omega
  have hmem1' : ∀ z, hmem s1 z ↔ z < g.nodes.size := by
    intro z
    rw [hmem1 z]
    constructor
    · rintro (hm | hm)
      · obtain ⟨k, hk, _⟩ := hm
        rw [hn0] at hk
        exact absurd hk (Nat.not_lt_zero k)
      · exact List.mem_range.1 hm
    · intro hz
      exact Or.inr (List.mem_range.2 hz)
  have hsame : sameGHP s1.nodes (setG g.nodes startID 0) :=
    bulkAdd_sameGHP (List.range g.nodes.size) s0
  have hgetv : ∀ i : Nat, ((setG g.nodes startID 0).getD i dNode) =
      if i = startID then { g.nodes.getD startID dNode with gCost := 0 }
      else g.nodes.getD i dNode := by
    intro i
    by_cases hi : i = startID
    · subst hi
      rw [if_pos rfl, setG, getD_setD_self _ _ _ _ hstart]
    · rw [if_neg hi, setG, getD_setD_other _ _ _ _ _ hi]
  have hg1 : ∀ i : Nat, (getN s1 i).gCost =
      if i = startID then 0 else if i < g.nodes.size then INITIAL_DISTANCE else 0 := by
    intro i
    rw [show (getN s1 i).gCost = ((setG g.nodes startID 0).getD i dNode).gCost from
      (hsame.2 i).1, hgetv i]
    by_cases hi : i = startID
    · rw [if_pos hi, if_pos hi]
    · rw [if_neg hi, if_neg hi]
      by_cases hin : i < g.nodes.size
      · rw [if_pos hin]
        exact (hreset i hin).1
      · rw [if_neg hin, getD_out _ _ hin]
        rfl
  have hh1 : ∀ i : Nat, (getN s1 i).hCost = 0 := by
    intro i
    rw [show (getN s1 i).hCost = ((setG g.nodes startID 0).getD i dNode).hCost from
      (hsame.2 i).2.1, hgetv i]
    by_cases hi : i = startID
    · rw [if_pos hi]
      show (g.nodes.getD startID dNode).hCost = 0
      exact (hreset startID hstart).2.1
    · rw [if_neg hi]
      by_cases hin : i < g.nodes.size
      · exact (hreset i hin).2.1
      · rw [getD_out _ _ hin]
        rfl
  have hp1 : ∀ i : Nat, (getN s1 i).parentID = -1 := by
    intro i
    rw [show (getN s1 i).parentID = ((setG g.nodes startID 0).getD i dNode).parentID from
      (hsame.2 i).2.2.1, hgetv i]
    by_cases hi : i = startID
    · rw [if_pos hi]
      show (g.nodes.getD startID dNode).parentID = -1
      exact (hreset startID hstart).2.2
    · rw [if_neg hi]
      by_cases hin : i < g.nodes.size
      · exact (hreset i hin).2.2
      · rw [getD_out _ _ hin]
        rfl
  have hid1 : ∀ i : Nat, i < g.nodes.size → (getN s1 i).nodeID = (i : Int) := by
    intro i hin
    rw [show (getN s1 i).nodeID = ((setG g.nodes startID 0).getD i dNode).nodeID from
      (hsame.2 i).2.2.2, hgetv i]
    by_cases hi : i = startID
    · rw [if_pos hi]
      show (g.nodes.getD startID dNode).nodeID = (i : Int)
      rw [hids0 startID hstart, hi]
    · rw [if_neg hi]
      exact hids0 i hin
  have hID : INITIAL_DISTANCE = 2000000 := rfl
  refine ⟨⟨hwf1, hnsz1.trans hns0, hisz1.trans his0, fun z hz => (hmem1' z).1 hz,
    hid1, hh1, ?_, ?_, hp1 startID, ?_, ?_, ?_, ?_⟩, hsz1'⟩
  · intro v
    rw [hg1 v]
    by_cases hv : v = startID
    · rw [if_pos hv]
      omega
    · rw [if_neg hv]
      by_cases hvn : v < g.nodes.size
      · rw [if_pos hvn, hID]
        omega
      · rw [if_neg hvn]
        omega
  · rw [hg1, if_pos rfl]
  · intro v hv hglt
    by_cases hvs : v = startID
    · subst hvs
      exact Realizes.base
    · exfalso
      rw [hg1, if_neg hvs, if_pos hv, hID] at hglt
      omega
  · intro u hu hnm
    exact (hnm ((hmem1' u).2 hu)).elim
  · intro u hu hnm
    exact (hnm ((hmem1' u).2 hu)).elim
  · intro v hp
    exact (hp (hp1 v)).elim

/-- **C1** (amended).  On a graph within the bounds (`GraphOk` with
weights at most `2^31 - 1 - 2,000,000`), all nodes reset to the sentinel
cost, zero heuristic and `-1` parent, a valid start id, and every
reachable node's true shortest-path cost strictly below the sentinel,
`FindPathsToNodes` leaves every reachable node holding the minimal total
edge-weight cost from the start together with a predecessor chain
realizing that cost, and every unreachable node still holding the sentinel
cost and `-1` predecessor.  (The original claim, with no bound on the true
costs, is refuted by `C1_big_weight_counterexample`.) -/
theorem C1_findPathsToNodes_shortest_paths {g : Graph} {startID : Nat}
    (hok : GraphOk g WBOUND)
    (hstart : startID < g.nodes.size)
    (hreset : ∀ i, i < g.nodes.size →
      (g.nodes.getD i dNode).gCost = INITIAL_DISTANCE ∧
      (g.nodes.getD i dNode).hCost = 0 ∧
      (g.nodes.getD i dNode).parentID = -1)
    (hsmall : ∀ v, v < g.nodes.size → Reachable g.edges startID v →
      ∃ c, Walk g.edges startID v c ∧ c < INITIAL_DISTANCE) :
    ∀ v, v < g.nodes.size →
      (Reachable g.edges startID v →
        Walk g.edges startID v
          (((findPathsToNodes g startID).nodes.getD v dNode).gCost) ∧
        (∀ c, Walk g.edges startID v c →
          ((findPathsToNodes g startID).nodes.getD v dNode).gCost ≤ c) ∧
        Realizes (findPathsToNodes g startID).nodes g.edges startID
          (fun _ => True) v) ∧
      (¬ Reachable g.edges startID v →
        ((findPathsToNodes g startID).nodes.getD v dNode).gCost = INITIAL_DISTANCE ∧
        ((findPathsToNodes g startID).nodes.getD v dNode).parentID = -1) := by
  obtain ⟨hinit, hsz⟩ := dijInit hok hstart hreset
  have hE := hok.2.2
  set s1 := (List.range g.nodes.size).foldl (fun s i => hAdd s i)
    (heapInit (setG g.nodes startID 0) g.nodes.size) with hs1def
  obtain ⟨hfin, hfsz⟩ := findPathsLoop_inv s1.hsize s1 hE hstart hinit (le_refl _)
  set s2 := findPathsLoop g.edges s1.hsize s1 with hs2def
  have hrun : (findPathsToNodes g startID).nodes = s2.nodes := rfl
  have hnomem : ∀ z, ¬ hmem s2 z := by
    intro z hm
    obtain ⟨k, hk, _⟩ := hm
    rw [hfsz] at hk
    exact absurd hk (Nat.not_lt_zero k)
  intro v hv
  constructor
  · intro hreach
    obtain ⟨c, hwc, hclt⟩ := hsmall v hv hreach
    have hlow := hfin.lower v hv (hnomem v)
    have hglt : (getN s2 v).gCost < 2000000 := by
      have h1 := hlow c hwc
      have hID : INITIAL_DISTANCE = 2000000 := rfl
      omega
    have hrz := hfin.realz v hv hglt
    have hrzT : Realizes s2.nodes g.edges startID (fun _ => True) v :=
      Realizes_mono (fun _ _ => trivial) hrz
    have hwalk : Walk g.edges startID v ((getN s2 v).gCost) :=
      Realizes_walk hfin.gstart hrz
    refine ⟨?_, ?_, ?_⟩
    · rw [hrun]
      exact hwalk
    · intro c2 hwc2
      rw [hrun]
      exact hlow c2 hwc2
    · rw [hrun]
      exact hrzT
  · intro hunreach
    have hge : ¬ (getN s2 v).gCost < 2000000 := by
      intro hlt
      have hrz := hfin.realz v hv hlt
      have hwalk := Realizes_walk hfin.gstart hrz
      exact hunreach ⟨_, hwalk⟩
    have hgr := hfin.grange v
    have hgeq : (getN s2 v).gCost = 2000000 := by omega
    have hpeq : (getN s2 v).parentID = -1 := by
      by_contra hne
      exact hge (hfin.pvalid v hne)
    rw [hrun]
    exact ⟨hgeq, hpeq⟩

/-- `EdgesOk` follows from the bounded check over the stored adjacency
lists: out-of-range indices read the junk empty list. -/
theorem edgesOk_of_bounded {edges : Array (Array BEdge)} {n : Nat} {b : Int}
    (h : ∀ u, u < edges.size → ∀ e ∈ (adjAt edges u).toList,
      0 ≤ e.nodeID ∧ e.nodeID < (n : Int) ∧ 0 ≤ e.weight ∧ e.weight ≤ b) :
    EdgesOk edges n b := by
  intro u e he
  by_cases hu : u < edges.size
  · exact h u hu e he
  · rw [adjAt, getD_out _ _ hu] at he
    simp at he

/-- **C1 witness**: on the reset two-node unit-edge line `gLine`, the run
leaves node `1` with a walk of its recorded cost, minimality of that cost
among all walks, and a realizing predecessor chain. -/
theorem C1_findPathsToNodes_shortest_paths_witness :
    Walk gLine.edges 0 1 (((findPathsToNodes gLine 0).nodes.getD 1 dNode).gCost) ∧
    (∀ c, Walk gLine.edges 0 1 c →
      ((findPathsToNodes gLine 0).nodes.getD 1 dNode).gCost ≤ c) ∧
    Realizes (findPathsToNodes gLine 0).nodes gLine.edges 0 (fun _ => True) 1 :=
  (C1_findPathsToNodes_shortest_paths
    ⟨by decide, by decide, edgesOk_of_bounded (by decide)⟩
    (by decide)
    (by decide)
    (fun v hv _ => by
      have hv2 : v < 2 := hv
      interval_cases v
      · exact ⟨0, Walk.refl, by decide⟩
      · exact ⟨0 + 1, Walk.step Walk.refl (by unfold EdgeIn; decide), by decide⟩)
    1 (by decide)).1
    ⟨0 + 1, Walk.step Walk.refl (by unfold EdgeIn; decide)⟩

/-- **C1 counterexample** (refuting the unamended claim).  `gBigWeight`
satisfies every hypothesis of the original claim — non-negative weights,
all nodes reset to the sentinel cost and `-1` parent, valid start `0` —
and node `1` is reachable, every walk to it costing at least `3,000,000`;
yet after the run node `1` holds the sentinel `2,000,000` (not its minimal
cost) and parent `-1`: costs at or above the sentinel cannot be recorded,
because a relaxation only fires on a strict improvement below the stored
sentinel. -/
theorem C1_big_weight_counterexample :
    (∀ u : Nat, ∀ e ∈ (adjAt gBigWeight.edges u).toList, 0 ≤ e.weight) ∧
    (∀ i, i < gBigWeight.nodes.size →
      (gBigWeight.nodes.getD i dNode).gCost = INITIAL_DISTANCE ∧
      (gBigWeight.nodes.getD i dNode).parentID = -1) ∧
    0 < gBigWeight.nodes.size ∧
    Reachable gBigWeight.edges 0 1 ∧
    (∀ c, Walk gBigWeight.edges 0 1 c → (3000000 : Int) ≤ c) ∧
    ((findPathsToNodes gBigWeight 0).nodes.getD 1 dNode).gCost = INITIAL_DISTANCE ∧
    ((findPathsToNodes gBigWeight 0).nodes.getD 1 dNode).parentID = -1 := by
  have hw : ∀ (u : Nat) (e : BEdge), e ∈ (adjAt gBigWeight.edges u).toList →
      e.weight = 3000000 := by
    intro u e he
    match u with
    | 0 =>
      have h2 : e ∈ [(⟨1, 3000000⟩ : BEdge)] := he
      rw [List.mem_singleton] at h2
      rw [h2]
    | 1 =>
      have h2 : e ∈ [(⟨0, 3000000⟩ : BEdge)] := he
      rw [List.mem_singleton] at h2
      rw [h2]
    | (m + 2) =>
      rw [adjAt, getD_out _ _ (show ¬ m + 2 < 2 by omega)] at he
      simp at he
  have hwalkLB : ∀ (v : Nat) (c : Int), Walk gBigWeight.edges 0 v c →
      (v = 0 ∧ 0 ≤ c) ∨ (3000000 : Int) ≤ c := by
    intro v c h
    induction h with
    | refl => exact Or.inl ⟨rfl, le_refl 0⟩
    | @step u v' c' w hwk he ih =>
      have hww : w = 3000000 := hw u _ he
      rcases ih with ⟨_, hc⟩ | hc
      · exact Or.inr (by omega)
      · exact Or.inr (by omega)
  refine ⟨?_, by decide, by decide, ⟨0 + 3000000, Walk.step Walk.refl (by unfold EdgeIn; decide)⟩,
    ?_, by decide, by decide⟩
  · intro u e he
    rw [hw u e he]
    decide
  · intro c hwc
    rcases hwalkLB 1 c hwc with ⟨h0, _⟩ | h
    · exact absurd h0 one_ne_zero
    · exact h

/-- The combined node write of one A* relaxation (parent, cost,
heuristic). -/
theorem setPGH_eq (ns : Array BNode) (v : Nat) (p d h : Int) (hv : v < ns.size) :
    setH (setG (setP ns v p) v d) v h =
      ns.setD v { ns.getD v dNode with parentID := p, gCost := d, hCost := h } := by
  have h1 : setP ns v p = ns.setD v { ns.getD v dNode with parentID := p } := rfl
  have h2 : setG (ns.setD v { ns.getD v dNode with parentID := p }) v d =
      ns.setD v { ns.getD v dNode with parentID := p, gCost := d } := by
    rw [setG, getD_setD_self _ _ _ _ hv, setD_setD]
  have h3 : setH (ns.setD v { ns.getD v dNode with parentID := p, gCost := d }) v h =
      ns.setD v { ns.getD v dNode with parentID := p, gCost := d, hCost := h } := by
    rw [setH, getD_setD_self _ _ _ _ hv, setD_setD]
  rw [h1, h2, h3]

/-- A resident node is reported by the whole-vector `Contains` scan. -/
theorem hContains_of_hmem {s : AState} {x : Nat} (hsz : s.hsize ≤ s.items.size)
    (hx : hmem s x) : hContains s x = true := by
  obtain ⟨k, hk, hkocc⟩ := hx
  have hks : k < s.items.size := by omega
  rw [hContains, Array.any_eq_true]
  refine ⟨⟨k, hks⟩, ?_⟩
  rw [itemAt, Array.getD, dif_pos hks] at hkocc
  simpa using hkocc

/-- A `true` `Contains` answer exhibits a slot (occupied or stale) holding
the queried node. -/
theorem contains_imp {s : AState} {v : Nat} (hc : hContains s v = true) :
    ∃ k, k < s.items.size ∧ itemAt s k = some v := by
  rw [hContains, Array.any_eq_true] at hc
  obtain ⟨⟨k, hks⟩, hk⟩ := hc
  refine ⟨k, hks, ?_⟩
  rw [itemAt, Array.getD, dif_pos hks]
  simpa using hk

/-- A well-formed heap avoiding some valid node index has strictly fewer
occupants than there are valid indices. -/
theorem hsize_lt_of_nonmember {s : AState} {n v : Nat} (hwf : HeapWF s s.hsize)
    (hsub : ∀ z, hmem s z → z < n) (hv : v < n) (hnm : ¬ hmem s v) :
    s.hsize < n := by
  have hmemk : ∀ k, k < s.hsize → itemAt s k = some (slotId s k) ∧ hmem s (slotId s k) := by
    intro k hk
    obtain ⟨z, hz1, _, _⟩ := hwf.slots k hk
    have : slotId s k = z := by rw [slotId, hz1]; rfl
    rw [this]
    exact ⟨hz1, ⟨k, hk, hz1⟩⟩
  have hinj : Set.InjOn (fun k => slotId s k) (Finset.range s.hsize) := by
    intro k1 hk1 k2 hk2 he
    simp only [Finset.coe_sort_coe, Finset.mem_coe, Finset.mem_range] at hk1 hk2
    have h1 := (hmemk k1 hk1).1
    have h2 := (hmemk k2 hk2).1
    have he2 : slotId s k1 = slotId s k2 := he
    exact hwf.inj hk1 hk2 h1 (by rw [h2, he2])
  have hsubset : (Finset.range s.hsize).image (fun k => slotId s k) ⊆
      (Finset.range n).erase v := by
    intro z hz
    rw [Finset.mem_image] at hz
    obtain ⟨k, hk, hkz⟩ := hz
    rw [Finset.mem_range] at hk
    obtain ⟨_, hm⟩ := hmemk k hk
    rw [hkz] at hm
    rw [Finset.mem_erase, Finset.mem_range]
    exact ⟨fun h => hnm (h ▸ hm), hsub z hm⟩
  have hcard := Finset.card_le_card hsubset
  rw [Finset.card_image_of_injOn hinj, Finset.card_range,
    Finset.card_erase_of_mem (Finset.mem_range.2 hv), Finset.card_range] at hcard
  omega

/-- `FCost` is the exact `GCost + HCost` whenever the sum is
representable. -/
theorem fcost_exact {nd : BNode} (h0 : 0 ≤ nd.gCost + nd.hCost)
    (h1 : nd.gCost + nd.hCost < 2 ^ 31) : fcost nd = nd.gCost + nd.hCost := by
  rw [fcost]
  exact i32_eq_self (by omega) h1

/-- Rebuilding a non-member node's fields leaves a heap well-formed: no
occupied slot refers to it. -/
theorem HeapWF_setD_nonmember {s : AState} {v : Nat} {nd' : BNode}
    (hwf : HeapWF s s.hsize) (hnm : ¬ hmem s v) :
    HeapWF { s with nodes := s.nodes.setD v nd' } s.hsize := by
  refine ⟨hwf.m_le, ?_, ?_⟩
  · intro k hk
    obtain ⟨x, hx1, hx2, hx3⟩ := hwf.slots k hk
    have hxv : x ≠ v := fun h => hnm (h ▸ ⟨k, hk, hx1⟩)
    refine ⟨x, hx1, ?_, ?_⟩
    · show x < (s.nodes.setD v nd').size
      rw [size_setD]
      exact hx2
    · show ((s.nodes.setD v nd').getD x dNode).heapIndex = k
      rw [getD_setD_other _ _ _ _ _ hxv]
      exact hx3
  · intro k hk0 hk
    have hocc : ∀ j, j < s.hsize →
        occAt { s with nodes := s.nodes.setD v nd' } j = occAt s j := by
      intro j hj
      obtain ⟨x, hx1, _, _⟩ := hwf.slots j hj
      have hxv : x ≠ v := fun h => hnm (h ▸ ⟨j, hj, hx1⟩)
      have hslx : slotId s j = x := by rw [slotId, hx1]; rfl
      show getN { s with nodes := s.nodes.setD v nd' }
        (slotId { s with nodes := s.nodes.setD v nd' } j) = getN s (slotId s j)
      have hsl : slotId { s with nodes := s.nodes.setD v nd' } j = slotId s j := rfl
      rw [hsl, hslx]
      show (s.nodes.setD v nd').getD x dNode = s.nodes.getD x dNode
      exact getD_setD_other _ _ _ _ _ hxv
    rw [hocc _ (by omega), hocc _ hk]
    exact hwf.order k hk0 hk

/-- Assembly of the A* invariant after one write (or cost-preserving skip
analysis) at the neighbour `v = e.nodeID.toNat` of the just-closed node
`u`: all sixteen obligations reduce to the supplied pointwise field
reads. -/
theorem astar_assemble {edges : Array (Array BEdge)} {hfun : Nat → Nat → Int}
    {startID targetID n u : Nat} {DB WMAX : Int} {st : PState}
    {st2 : AState} {e : BEdge} {d : Int}
    (hinv : AInv edges hfun startID targetID n DB WMAX (fun z => z = u) st)
    (hu : u < n) (huc : ((u : Int)) ∈ st.closed)
    (hclv : ((e.nodeID.toNat : Nat) : Int) ∉ st.closed)
    (hvn : e.nodeID.toNat < n)
    (he : e ∈ (adjAt edges u).toList)
    (heeq : e = ⟨((e.nodeID.toNat : Nat) : Int), e.weight⟩)
    (hgu : (getN st.ast u).gCost ≤ DB)
    (hew0 : 0 ≤ e.weight) (hewB : e.weight ≤ WMAX)
    (hd : d = (getN st.ast u).gCost + e.weight)
    (hdle : hmem st.ast (e.nodeID.toNat) → d ≤ (getN st.ast (e.nodeID.toNat)).gCost)
    (hwf2 : HeapWF st2 st2.hsize)
    (hns2 : st2.nodes.size = n) (his2 : st2.items.size = n)
    (hsteq : ∀ k, st2.hsize ≤ k → itemAt st2 k = itemAt st.ast k)
    (hg2 : ∀ z, (getN st2 z).gCost =
      if z = e.nodeID.toNat then d else (getN st.ast z).gCost)
    (hp2 : ∀ z, (getN st2 z).parentID =
      if z = e.nodeID.toNat then (getN st.ast u).nodeID else (getN st.ast z).parentID)
    (hh2 : ∀ z, (getN st2 z).hCost =
      if z = e.nodeID.toNat then hfun (e.nodeID.toNat) targetID
      else (getN st.ast z).hCost)
    (hid2 : ∀ z, (getN st2 z).nodeID = (getN st.ast z).nodeID)
    (hm2 : ∀ z, hmem st2 z ↔ (hmem st.ast z ∨ z = e.nodeID.toNat)) :
    AInv edges hfun startID targetID n DB WMAX (fun z => z = u) ⟨st2, st.closed⟩ ∧
    (∀ z, hmem st.ast z → hmem st2 z) ∧
    (∀ z, hmem st.ast z → (getN st2 z).gCost ≤ (getN st.ast z).gCost) ∧
    (∀ z : Nat, ((z : Int)) ∈ st.closed →
      (getN st2 z).gCost = (getN st.ast z).gCost) ∧
    (hmem st2 (e.nodeID.toNat) ∧
      (getN st2 (e.nodeID.toNat)).gCost ≤ (getN st.ast u).gCost + e.weight) := by
  obtain ⟨hwf, hnsize, hisize, hmemsub, hids, hclid, hnodup, hdisj, hsc, hhv,
    hgr, hgw, hcm, hcx, hsm, hgs⟩ := hinv
  set v := e.nodeID.toNat with hvdef
  have hd0 : 0 ≤ d := by
    have := (hgr u hu (Or.inr huc)).1
    omega
  have hcltov : ∀ z : Nat, ((z : Int)) ∈ st.closed → z ≠ v := by
    intro z hz h
    exact hclv (h ▸ hz)
  refine ⟨⟨hwf2, hns2, his2, ?_, ?_, hclid, hnodup, ?_, ?_, ?_, ?_, ?_, ?_, ?_, ?_,
    ?_⟩, ?_, ?_, ?_, ⟨(hm2 v).2 (Or.inr rfl), by rw [hg2 v, if_pos rfl, hd]⟩⟩
  · intro z hz
    rcases (hm2 z).1 hz with h | h
    · exact hmemsub z h
    · exact h ▸ hvn
  · intro z hzn
    rw [hid2]
    exact hids z hzn
  · intro z hz hm
    rcases (hm2 z).1 hm with h | h
    · exact hdisj z hz h
    · exact hcltov z hz h
  · intro k hk z hocc
    by_cases hkh : k < st2.hsize
    · exact Or.inl ⟨k, hkh, hocc⟩
    · rw [hsteq k (by omega)] at hocc
      have hk2 : k < st.ast.items.size := by
        rw [hisize]
        rw [his2] at hk
        exact hk
      rcases hsc k hk2 z hocc with h | h
      · exact Or.inl ((hm2 z).2 (Or.inl h))
      · exact Or.inr h
  · intro z hzn hmc
    rw [hh2]
    by_cases hz : z = v
    · rw [if_pos hz, hz]
    · rw [if_neg hz]
      refine hhv z hzn ?_
      rcases hmc with h | h
      · rcases (hm2 z).1 h with h2 | h2
        · exact Or.inl h2
        · exact absurd h2 hz
      · exact Or.inr h
  · intro z hzn hmc
    rw [hg2]
    by_cases hz : z = v
    · rw [if_pos hz]
      constructor
      · exact hd0
      · omega
    · rw [if_neg hz]
      refine hgr z hzn ?_
      rcases hmc with h | h
      · rcases (hm2 z).1 h with h2 | h2
        · exact Or.inl h2
        · exact absurd h2 hz
      · exact Or.inr h
  · intro z hzn hmc
    rw [hg2]
    by_cases hz : z = v
    · rw [if_pos hz, hz, hd]
      refine Walk.step (hgw u hu (Or.inr huc)) ?_
      show EdgeIn edges u v e.weight
      rw [EdgeIn, ← heeq]
      exact he
    · rw [if_neg hz]
      refine hgw z hzn ?_
      rcases hmc with h | h
      · rcases (hm2 z).1 h with h2 | h2
        · exact Or.inl h2
        · exact absurd h2 hz
      · exact Or.inr h
  · intro z hzn hzc c hwc
    rw [hg2, if_neg (hcltov z hzc)]
    exact hcm z hzn hzc c hwc
  · intro p hpn hpc hpu e2 he2
    have hpv := hcltov p hpc
    rcases hcx p hpn hpc hpu e2 he2 with h | ⟨hm3, hb⟩
    · exact Or.inl h
    · right
      refine ⟨(hm2 _).2 (Or.inl hm3), ?_⟩
      rw [hg2 (e2.nodeID.toNat), hg2 p, if_neg hpv]
      by_cases ht : e2.nodeID.toNat = v
      · rw [if_pos ht]
        have h1 := hdle (ht ▸ hm3)
        rw [ht] at hb
        omega
      · rw [if_neg ht]
        exact hb
  · rcases hsm with h | h
    · exact Or.inl ((hm2 _).2 (Or.inl h))
    · exact Or.inr h
  · intro hsc2
    rw [hg2]
    by_cases hz : startID = v
    · rw [if_pos hz]
      rcases hsm with h | h
      · have hm3 : hmem st.ast v := hz ▸ h
        have h1 := hdle hm3
        have h0 := hgs hsc2
        rw [← hz] at h1
        omega
      · exact absurd h hsc2
    · rw [if_neg hz]
      exact hgs hsc2
  · intro z hz
    exact (hm2 z).2 (Or.inl hz)
  · intro z hz
    rw [hg2]
    by_cases hzv : z = v
    · rw [if_pos hzv]
      have := hdle (hzv ▸ hz)
      rw [← hzv] at this
      exact this
    · rw [if_neg hzv]
  · intro z hz
    rw [hg2, if_neg (hcltov z hz)]

/-- One A* relaxation (an edge out of the just-closed node `u`) preserves
the invariant with `u`'s expansion pending, leaves the closed list
unchanged, grows the member set, never raises a resident's recorded cost,
never touches a closed node's cost, and leaves the processed edge
expanded. -/
theorem astarRelax_inv {edges : Array (Array BEdge)} {hfun : Nat → Nat → Int}
    {startID targetID n u : Nat} {DB WMAX HMAX : Int} {st : PState} {e : BEdge}
    (hE : EdgesOk edges n WMAX)
    (hH : ∀ v : Nat, 0 ≤ hfun v targetID ∧ hfun v targetID ≤ HMAX)
    (hB : 0 ≤ DB ∧ 0 ≤ WMAX ∧ 0 ≤ HMAX ∧ DB + WMAX + HMAX < 2 ^ 31)
    (hinv : AInv edges hfun startID targetID n DB WMAX (fun z => z = u) st)
    (hu : u < n) (huc : ((u : Int)) ∈ st.closed)
    (hgu : (getN st.ast u).gCost ≤ DB)
    (he : e ∈ (adjAt edges u).toList) :
    AInv edges hfun startID targetID n DB WMAX (fun z => z = u)
      (astarRelax hfun targetID u st e) ∧
    (astarRelax hfun targetID u st e).closed = st.closed ∧
    (∀ z, hmem st.ast z → hmem (astarRelax hfun targetID u st e).ast z) ∧
    (∀ z, hmem st.ast z →
      (getN (astarRelax hfun targetID u st e).ast z).gCost ≤ (getN st.ast z).gCost) ∧
    (∀ z : Nat, ((z : Int)) ∈ st.closed →
      (getN (astarRelax hfun targetID u st e).ast z).gCost = (getN st.ast z).gCost) ∧
    (((e.nodeID.toNat : Nat) : Int) ∈ st.closed ∨
      (hmem (astarRelax hfun targetID u st e).ast (e.nodeID.toNat) ∧
        (getN (astarRelax hfun targetID u st e).ast (e.nodeID.toNat)).gCost ≤
          (getN st.ast u).gCost + e.weight)) := by
  have hcopy := hinv
  obtain ⟨hwf, hnsize, hisize, hmemsub, hids, hclid, hnodup, hdisj, hsc, hhv,
    hgr, hgw, hcm, hcx, hsm, hgs⟩ := hcopy
  obtain ⟨hen0, henlt, hew0, hewB⟩ := hE u e he
  set v := e.nodeID.toNat with hvdef
  have hvn : v < n := by omega
  have heeq : e = ⟨(v : Int), e.weight⟩ := by
    have h1 : (v : Int) = e.nodeID := Int.toNat_of_nonneg hen0
    cases e
    simp only at h1 ⊢
    rw [h1]
  have hpow : ((2 : Int) ^ 31) = 2147483648 := by norm_num
  have hgu0 : 0 ≤ (getN st.ast u).gCost := (hgr u hu (Or.inr huc)).1
  have hB1 : 0 ≤ DB := hB.1
  have hB2 : 0 ≤ WMAX := hB.2.1
  have hB3 : 0 ≤ HMAX := hB.2.2.1
  have hB4 : DB + WMAX + HMAX < 2147483648 := by
    have := hB.2.2.2
    rw [hpow] at this
    exact this
  have hmc : i32 ((getN st.ast u).gCost + e.weight) =
      (getN st.ast u).gCost + e.weight := by
    apply i32_eq_self
    · rw [hpow]
      omega
    · rw [hpow]
      omega
  have hre : astarRelax hfun targetID u st e =
      (if (getN st.ast v).nodeID ∈ st.closed then st
       else if hContains st.ast v &&
           decide ((getN st.ast v).gCost < i32 ((getN st.ast u).gCost + e.weight)) then
         st
       else if hContains { st.ast with nodes := setH (setG (setP st.ast.nodes v (getN st.ast u).nodeID) v (i32 ((getN st.ast u).gCost + e.weight))) v (hfun v targetID) } v then
         { st with ast := updateItem { st.ast with nodes := setH (setG (setP st.ast.nodes v (getN st.ast u).nodeID) v (i32 ((getN st.ast u).gCost + e.weight))) v (hfun v targetID) } v }
       else
         { st with ast := hAdd { st.ast with nodes := setH (setG (setP st.ast.nodes v (getN st.ast u).nodeID) v (i32 ((getN st.ast u).gCost + e.weight))) v (hfun v targetID) } v }) := rfl
  rw [hmc] at hre
  set d := (getN st.ast u).gCost + e.weight with hddef
  by_cases hclv : ((v : Int)) ∈ st.closed
  · -- neighbour already closed: skipped
    have hcond1 : (getN st.ast v).nodeID ∈ st.closed := by
      rw [hids v hvn]
      exact hclv
    rw [if_pos hcond1] at hre
    rw [hre]
    exact ⟨hinv, rfl, fun z hz => hz, fun z _ => le_refl _, fun z _ => rfl,
      Or.inl hclv⟩
  · have hcond1 : ¬ ((getN st.ast v).nodeID ∈ st.closed) := by
      rw [hids v hvn]
      exact hclv
    rw [if_neg hcond1] at hre
    have hvlt : v < st.ast.nodes.size := by
      rw [hnsize]
      exact hvn
    by_cases hmemv : hmem st.ast v
    · -- resident neighbour
      have hcont_t : hContains st.ast v = true := hContains_of_hmem hwf.m_le hmemv
      by_cases hlt : (getN st.ast v).gCost < d
      · -- strictly better already: skipped, yet the edge is expanded
        have hcond2 : (hContains st.ast v &&
            decide ((getN st.ast v).gCost < d)) = true := by
          rw [hcont_t]
          simp only [Bool.true_and, decide_eq_true_eq]
          exact hlt
        rw [if_pos hcond2] at hre
        rw [hre]
        exact ⟨hinv, rfl, fun z hz => hz, fun z _ => le_refl _, fun z _ => rfl,
          Or.inr ⟨hmemv, le_of_lt hlt⟩⟩
      · -- overwrite and re-prioritize
        have hcond2 : ¬ ((hContains st.ast v &&
            decide ((getN st.ast v).gCost < d)) = true) := by
          rw [hcont_t]
          simp only [Bool.true_and, decide_eq_true_eq]
          exact hlt
        rw [if_neg hcond2] at hre
        have hmcle : d ≤ (getN st.ast v).gCost := not_lt.1 hlt
        set nd' : BNode := { getN st.ast v with parentID := (getN st.ast u).nodeID, gCost := d, hCost := hfun v targetID } with hnd'def
        have hnodes1 : setH (setG (setP st.ast.nodes v (getN st.ast u).nodeID) v d) v
            (hfun v targetID) = st.ast.nodes.setD v nd' :=
          setPGH_eq st.ast.nodes v (getN st.ast u).nodeID d (hfun v targetID) hvlt
        rw [hnodes1] at hre
        set s1 : AState := { st.ast with nodes := st.ast.nodes.setD v nd' } with hs1def
        have hs1_other : ∀ z, z ≠ v → getN s1 z = getN st.ast z := by
          intro z hz
          show (st.ast.nodes.setD v nd').getD z dNode = st.ast.nodes.getD z dNode
          exact getD_setD_other _ _ _ _ _ hz
        have hs1_v : getN s1 v = nd' := by
          show (st.ast.nodes.setD v nd').getD v dNode = nd'
          exact getD_setD_self _ _ _ _ hvlt
        have hconteq : hContains s1 v = hContains st.ast v := rfl
        have hcond3 : hContains s1 v = true := by
          rw [hconteq]
          exact hcont_t
        rw [if_pos hcond3] at hre
        have hHve := hhv v hvn (Or.inl hmemv)
        have hgrv := hgr v hvn (Or.inl hmemv)
        have hHb := hH v
        have hd0 : 0 ≤ d := by omega
        have hdB : d ≤ DB + WMAX := by omega
        have hfc1 : fcost nd' = d + hfun v targetID := by
          have h0 : nd'.gCost = d := rfl
          have h1 : nd'.hCost = hfun v targetID := rfl
          have h2 := @fcost_exact nd' (by rw [h0, h1]; omega)
            (by rw [h0, h1, hpow]; omega)
          rw [h0, h1] at h2
          exact h2
        have hfc2 : fcost (getN st.ast v) =
            (getN st.ast v).gCost + hfun v targetID := by
          have h2 := @fcost_exact (getN st.ast v) (by rw [hHve]; omega)
            (by rw [hHve, hpow]; omega)
          rw [hHve] at h2
          exact h2
        have hKLe : KLe nd' (getN st.ast v) := by
          have hh0 : nd'.hCost = (getN st.ast v).hCost := by
            rw [hHve]
          rcases lt_or_eq_of_le hmcle with h | h
          · exact Or.inl (by rw [hfc1, hfc2]; omega)
          · exact Or.inr ⟨by rw [hfc1, hfc2]; omega, by rw [hh0]⟩
        have hup := @updateItem_wf st.ast s1 v hwf hmemv rfl rfl
          (size_setD _ _ _) hs1_other
          (by rw [hs1_v])
          (by
            rw [hs1_v]
            exact hKLe)
        obtain ⟨hwf2, hperm⟩ := hup
        obtain ⟨hq1, hq2, hq3, hq4, hq5, hq6⟩ := hperm
        have hGHP := updateItem_sameGHP s1 v
        have hg2 : ∀ z, (getN (updateItem s1 v) z).gCost =
            if z = v then d else (getN st.ast z).gCost := by
          intro z
          rw [show (getN (updateItem s1 v) z).gCost = (getN s1 z).gCost from
            (hGHP.2 z).1]
          by_cases hz : z = v
          · rw [if_pos hz, hz, hs1_v]
          · rw [if_neg hz, hs1_other z hz]
        have hp2 : ∀ z, (getN (updateItem s1 v) z).parentID =
            if z = v then (getN st.ast u).nodeID else (getN st.ast z).parentID := by
          intro z
          rw [show (getN (updateItem s1 v) z).parentID = (getN s1 z).parentID from
            (hGHP.2 z).2.2.1]
          by_cases hz : z = v
          · rw [if_pos hz, hz, hs1_v]
          · rw [if_neg hz, hs1_other z hz]
        have hh2 : ∀ z, (getN (updateItem s1 v) z).hCost =
            if z = v then hfun v targetID else (getN st.ast z).hCost := by
          intro z
          rw [show (getN (updateItem s1 v) z).hCost = (getN s1 z).hCost from
            (hGHP.2 z).2.1]
          by_cases hz : z = v
          · rw [if_pos hz, hz, hs1_v]
          · rw [if_neg hz, hs1_other z hz]
        have hid2 : ∀ z, (getN (updateItem s1 v) z).nodeID =
            (getN st.ast z).nodeID := by
          intro z
          rw [show (getN (updateItem s1 v) z).nodeID = (getN s1 z).nodeID from
            (hGHP.2 z).2.2.2]
          by_cases hz : z = v
          · rw [hz, hs1_v]
          · rw [hs1_other z hz]
        have hsz2 : (updateItem s1 v).hsize = st.ast.hsize := hq2
        have hmem2 : ∀ z, hmem (updateItem s1 v) z ↔ hmem st.ast z := by
          intro z
          rw [hmem, hsz2]
          exact hq6 z
        have hwf2b : HeapWF (updateItem s1 v) (updateItem s1 v).hsize := by
          rw [hsz2]
          exact hwf2
        have hns2 : (updateItem s1 v).nodes.size = n := by
          rw [hq3]
          show (st.ast.nodes.setD v nd').size = n
          rw [size_setD]
          exact hnsize
        have his2 : (updateItem s1 v).items.size = n := by
          rw [hq1]
          exact hisize
        have hsteq : ∀ k, (updateItem s1 v).hsize ≤ k →
            itemAt (updateItem s1 v) k = itemAt st.ast k := by
          intro k hk
          rw [hsz2] at hk
          exact hq4 k hk
        have hm2 : ∀ z, hmem (updateItem s1 v) z ↔ (hmem st.ast z ∨ z = v) := by
          intro z
          rw [hmem2 z]
          constructor
          · exact Or.inl
          · rintro (h | h)
            · exact h
            · rw [h]
              exact hmemv
        have hassem := astar_assemble hinv hu huc hclv hvn he heeq hgu hew0 hewB
          hddef (fun _ => hmcle) hwf2b hns2 his2 hsteq hg2 hp2 hh2 hid2 hm2
        obtain ⟨ha1, ha2, ha3, ha4, ha5⟩ := hassem
        rw [hre]
        exact ⟨ha1, rfl, ha2, ha3, ha4, Or.inr ha5⟩
    · -- fresh neighbour: insert
      have hcont_f : hContains st.ast v = false := by
        cases hc : hContains st.ast v
        · rfl
        · obtain ⟨k, hks, hocc⟩ := contains_imp hc
          rcases hsc k hks v hocc with hm | hc2
          · exact absurd hm hmemv
          · exact absurd hc2 hclv
      have hcond2 : ¬ ((hContains st.ast v &&
          decide ((getN st.ast v).gCost < d)) = true) := by
        rw [hcont_f]
        simp
      rw [if_neg hcond2] at hre
      set nd' : BNode := { getN st.ast v with parentID := (getN st.ast u).nodeID, gCost := d, hCost := hfun v targetID } with hnd'def
      have hnodes1 : setH (setG (setP st.ast.nodes v (getN st.ast u).nodeID) v d) v
          (hfun v targetID) = st.ast.nodes.setD v nd' :=
        setPGH_eq st.ast.nodes v (getN st.ast u).nodeID d (hfun v targetID) hvlt
      rw [hnodes1] at hre
      set s1 : AState := { st.ast with nodes := st.ast.nodes.setD v nd' } with hs1def
      have hs1_other : ∀ z, z ≠ v → getN s1 z = getN st.ast z := by
        intro z hz
        show (st.ast.nodes.setD v nd').getD z dNode = st.ast.nodes.getD z dNode
        exact getD_setD_other _ _ _ _ _ hz
      have hs1_v : getN s1 v = nd' := by
        show (st.ast.nodes.setD v nd').getD v dNode = nd'
        exact getD_setD_self _ _ _ _ hvlt
      have hconteq : hContains s1 v = hContains st.ast v := rfl
      have hcond3 : ¬ (hContains s1 v = true) := by
        rw [hconteq, hcont_f]
        simp
      rw [if_neg hcond3] at hre
      have hlt_n : st.ast.hsize < n := hsize_lt_of_nonmember hwf hmemsub hvn hmemv
      have hwfs1 : HeapWF s1 s1.hsize := HeapWF_setD_nonmember hwf hmemv
      have hcap : s1.hsize < s1.items.size := by
        show st.ast.hsize < st.ast.items.size
        rw [hisize]
        exact hlt_n
      have hxlt : v < s1.nodes.size := by
        show v < (st.ast.nodes.setD v nd').size
        rw [size_setD]
        exact hvlt
      have hnm1 : ¬ hmem s1 v := hmemv
      have hadd := hAdd_wf hwfs1 hcap hxlt hnm1
      obtain ⟨hwf2, hsz2, hisz2, hnsz2, hstale2, hmemiff2⟩ := hadd
      have hGHP := hAdd_sameGHP s1 v
      have hg2 : ∀ z, (getN (hAdd s1 v) z).gCost =
          if z = v then d else (getN st.ast z).gCost := by
        intro z
        rw [show (getN (hAdd s1 v) z).gCost = (getN s1 z).gCost from (hGHP.2 z).1]
        by_cases hz : z = v
        · rw [if_pos hz, hz, hs1_v]
        · rw [if_neg hz, hs1_other z hz]
      have hp2 : ∀ z, (getN (hAdd s1 v) z).parentID =
          if z = v then (getN st.ast u).nodeID else (getN st.ast z).parentID := by
        intro z
        rw [show (getN (hAdd s1 v) z).parentID = (getN s1 z).parentID from
          (hGHP.2 z).2.2.1]
        by_cases hz : z = v
        · rw [if_pos hz, hz, hs1_v]
        · rw [if_neg hz, hs1_other z hz]
      have hh2 : ∀ z, (getN (hAdd s1 v) z).hCost =
          if z = v then hfun v targetID else (getN st.ast z).hCost := by
        intro z
        rw [show (getN (hAdd s1 v) z).hCost = (getN s1 z).hCost from
          (hGHP.2 z).2.1]
        by_cases hz : z = v
        · rw [if_pos hz, hz, hs1_v]
        · rw [if_neg hz, hs1_other z hz]
      have hid2 : ∀ z, (getN (hAdd s1 v) z).nodeID = (getN st.ast z).nodeID := by
        intro z
        rw [show (getN (hAdd s1 v) z).nodeID = (getN s1 z).nodeID from
          (hGHP.2 z).2.2.2]
        by_cases hz : z = v
        · rw [hz, hs1_v]
        · rw [hs1_other z hz]
      have hns2 : (hAdd s1 v).nodes.size = n := by
        rw [hnsz2]
        show (st.ast.nodes.setD v nd').size = n
        rw [size_setD]
        exact hnsize
      have his2 : (hAdd s1 v).items.size = n := by
        rw [hisz2]
        exact hisize
      have hsteq : ∀ k, (hAdd s1 v).hsize ≤ k →
          itemAt (hAdd s1 v) k = itemAt st.ast k := by
        intro k hk
        rw [hsz2] at hk
        exact hstale2 k hk
      have hm2 : ∀ z, hmem (hAdd s1 v) z ↔ (hmem st.ast z ∨ z = v) := by
        intro z
        rw [hmemiff2 z]
        exact Iff.rfl
      have hassem := astar_assemble hinv hu huc hclv hvn he heeq hgu hew0 hewB
        hddef (fun hm => absurd hm hmemv) hwf2 hns2 his2 hsteq hg2 hp2 hh2 hid2 hm2
      obtain ⟨ha1, ha2, ha3, ha4, ha5⟩ := hassem
      rw [hre]
      exact ⟨ha1, rfl, ha2, ha3, ha4, Or.inr ha5⟩

/-- Relaxing a sublist of the just-closed node `u`'s adjacency list:
invariant preserved, closed list unchanged, the member set grows, resident
costs never rise, closed costs untouched, and every processed edge is
expanded in the final state. -/
theorem astarFold_inv {edges : Array (Array BEdge)} {hfun : Nat → Nat → Int}
    {startID targetID n u : Nat} {DB WMAX HMAX : Int} :
    ∀ (l : List BEdge) (st : PState),
    EdgesOk edges n WMAX →
    (∀ v : Nat, 0 ≤ hfun v targetID ∧ hfun v targetID ≤ HMAX) →
    (0 ≤ DB ∧ 0 ≤ WMAX ∧ 0 ≤ HMAX ∧ DB + WMAX + HMAX < 2 ^ 31) →
    AInv edges hfun startID targetID n DB WMAX (fun z => z = u) st →
    u < n → ((u : Int)) ∈ st.closed →
    (getN st.ast u).gCost ≤ DB →
    (∀ e ∈ l, e ∈ (adjAt edges u).toList) →
    AInv edges hfun startID targetID n DB WMAX (fun z => z = u)
      (l.foldl (astarRelax hfun targetID u) st) ∧
    (l.foldl (astarRelax hfun targetID u) st).closed = st.closed ∧
    (∀ z, hmem st.ast z → hmem (l.foldl (astarRelax hfun targetID u) st).ast z) ∧
    (∀ z, hmem st.ast z →
      (getN (l.foldl (astarRelax hfun targetID u) st).ast z).gCost ≤
        (getN st.ast z).gCost) ∧
    (∀ z : Nat, ((z : Int)) ∈ st.closed →
      (getN (l.foldl (astarRelax hfun targetID u) st).ast z).gCost =
        (getN st.ast z).gCost) ∧
    (∀ e ∈ l, (((e.nodeID.toNat : Nat) : Int)) ∈ st.closed ∨
      (hmem (l.foldl (astarRelax hfun targetID u) st).ast (e.nodeID.toNat) ∧
        (getN (l.foldl (astarRelax hfun targetID u) st).ast (e.nodeID.toNat)).gCost ≤
          (getN (l.foldl (astarRelax hfun targetID u) st).ast u).gCost +
            e.weight)) := by
  intro l
  induction l with
  | nil =>
    intro st _ _ _ hinv _ _ _ _
    rw [List.foldl_nil]
    exact ⟨hinv, rfl, fun z hz => hz, fun z _ => le_refl _, fun z _ => rfl,
      fun e he => absurd he (List.not_mem_nil e)⟩
  | cons e tl ih =>
    intro st hE hH hB hinv hu huc hgu hsub
    rw [List.foldl_cons]
    obtain ⟨hinv1, hcl1, hmg1, hgle1, hclg1, hedge1⟩ :=
      astarRelax_inv hE hH hB hinv hu huc hgu (hsub e (List.mem_cons_self _ _))
    have huc1 : ((u : Int)) ∈ (astarRelax hfun targetID u st e).closed := by
      rw [hcl1]
      exact huc
    have hgu1 : (getN (astarRelax hfun targetID u st e).ast u).gCost ≤ DB := by
      rw [hclg1 u huc]
      exact hgu
    obtain ⟨hinv2, hcl2, hmg2, hgle2, hclg2, hedge2⟩ :=
      ih (astarRelax hfun targetID u st e) hE hH hB hinv1 hu huc1 hgu1
        (fun x hx => hsub x (List.mem_cons_of_mem _ hx))
    refine ⟨hinv2, hcl2.trans hcl1, ?_, ?_, ?_, ?_⟩
    · intro z hz
      exact hmg2 z (hmg1 z hz)
    · intro z hz
      exact le_trans (hgle2 z (hmg1 z hz)) (hgle1 z hz)
    · intro z hz
      have hz1 : ((z : Int)) ∈ (astarRelax hfun targetID u st e).closed := by
        rw [hcl1]
        exact hz
      exact (hclg2 z hz1).trans (hclg1 z hz)
    · intro x hx
      rcases List.mem_cons.1 hx with h | h
      · subst h
        rcases hedge1 with hL | ⟨hm1, hb1⟩
        · exact Or.inl hL
        · right
          refine ⟨hmg2 _ hm1, ?_⟩
          have h1 := hgle2 _ hm1
          have h2 : (getN ((tl.foldl (astarRelax hfun targetID u))
              (astarRelax hfun targetID u st x)).ast u).gCost =
              (getN (astarRelax hfun targetID u st x).ast u).gCost :=
            hclg2 u huc1
          have h3 : (getN (astarRelax hfun targetID u st x).ast u).gCost =
              (getN st.ast u).gCost := hclg1 u huc
          rw [h2, h3]
          omega
      · rcases hedge2 x h with hL | hR
        · rw [hcl1] at hL
          exact Or.inl hL
        · exact Or.inr hR

/-- A* frontier bound: along any stored walk to a non-closed node, some
resident node's key (recorded cost plus heuristic) is at most the walk
cost plus the endpoint's heuristic.  Uses consistency of the heuristic
along stored edges and exactness of expansion on closed nodes. -/
theorem astar_frontier {edges : Array (Array BEdge)} {hfun : Nat → Nat → Int}
    {startID targetID n : Nat} {DB WMAX : Int} {st : PState}
    (hcons : ∀ u v : Nat, ∀ w : Int, EdgeIn edges u v w →
      hfun u targetID ≤ w + hfun v targetID)
    (hinv : AInv edges hfun startID targetID n DB WMAX (fun _ => False) st) :
    ∀ {v : Nat} {c : Int}, Walk edges startID v c → ((v : Int)) ∉ st.closed →
      ∃ y, y < n ∧ hmem st.ast y ∧
        (getN st.ast y).gCost + hfun y targetID ≤ c + hfun v targetID := by
  intro v c h
  induction h with
  | refl =>
    intro hnc
    rcases hinv.startm with hm | hc
    · refine ⟨startID, hinv.memsub startID hm, hm, ?_⟩
      rw [hinv.gstart hnc]
    · exact absurd hc hnc
  | @step u v' c' w hwk he ih =>
    intro hnc
    by_cases huc : ((u : Int)) ∈ st.closed
    · obtain ⟨z, hzn, hz⟩ := hinv.closedids _ huc
      have hun : u < n := by
        have : u = z := by exact_mod_cast hz
        rw [this]
        exact hzn
      have hx := hinv.cexp u hun huc (fun hf => hf) _ he
      have htn : ((⟨(v' : Int), w⟩ : BEdge).nodeID).toNat = v' := Int.toNat_natCast v'
      rw [htn] at hx
      rcases hx with hL | ⟨hm2, hb⟩
      · exact absurd hL hnc
      · have hgu := hinv.cmin u hun huc c' hwk
        refine ⟨v', hinv.memsub _ hm2, hm2, ?_⟩
        have hb2 : (getN st.ast v').gCost ≤ (getN st.ast u).gCost + w := hb
        omega
    · obtain ⟨y, hyn, hym, hyb⟩ := ih huc
      have hcs := hcons u v' w he
      exact ⟨y, hyn, hym, by omega⟩

/-- A duplicate-free list of valid ids covering at least `n` entries holds
every valid id. -/
theorem closed_full {l : List Int} {n : Nat}
    (hsub : ∀ c ∈ l, ∃ v, v < n ∧ c = (v : Int)) (hnd : l.Nodup)
    (hlen : n ≤ l.length) : ∀ t, t < n → ((t : Int)) ∈ l := by
  have hsub2 : l ⊆ (List.range n).map (fun i : Nat => (i : Int)) := by
    intro c hc
    obtain ⟨v, hvn, hveq⟩ := hsub c hc
    rw [List.mem_map]
    exact ⟨v, List.mem_range.2 hvn, hveq.symm⟩
  have hsp : l.Subperm ((List.range n).map (fun i : Nat => (i : Int))) :=
    List.Nodup.subperm hnd hsub2
  have hlen2 : ((List.range n).map (fun i : Nat => (i : Int))).length ≤ l.length := by
    rw [List.length_map, List.length_range]
    exact hlen
  have hperm := List.Subperm.perm_of_length_le hsp hlen2
  intro t ht
  have hmem : ((t : Int)) ∈ (List.range n).map (fun i : Nat => (i : Int)) := by
    rw [List.mem_map]
    exact ⟨t, List.mem_range.2 ht, rfl⟩
  exact hperm.symm.subset hmem

/-- Extracting the heap root and pushing it on the closed list: the root
is a valid node whose recorded cost is optimal (by the frontier bound and
the root-minimality of its key) and at most `DB`; the invariant survives
with the extracted node's expansion pending. -/
theorem astarExtract_inv {edges : Array (Array BEdge)} {hfun : Nat → Nat → Int}
    {startID targetID n : Nat} {DB WMAX HMAX : Int} {st : PState}
    (hH : ∀ v : Nat, 0 ≤ hfun v targetID ∧ hfun v targetID ≤ HMAX)
    (hB : 0 ≤ DB ∧ 0 ≤ WMAX ∧ 0 ≤ HMAX ∧ DB + WMAX + HMAX < 2 ^ 31)
    (hcons : ∀ u v : Nat, ∀ w : Int, EdgeIn edges u v w →
      hfun u targetID ≤ w + hfun v targetID)
    (hDB : ∀ v, v < n → Reachable edges startID v →
      ∃ c, Walk edges startID v c ∧ c ≤ DB)
    (hinv : AInv edges hfun startID targetID n DB WMAX (fun _ => False) st)
    (hpos : 0 < st.ast.hsize) :
    (removeFirst st.ast).1 < n ∧
    (getN (removeFirst st.ast).2 (removeFirst st.ast).1).nodeID =
      (((removeFirst st.ast).1 : Nat) : Int) ∧
    (∀ z, (getN (removeFirst st.ast).2 z).gCost = (getN st.ast z).gCost) ∧
    (∀ c, Walk edges startID (removeFirst st.ast).1 c →
      (getN st.ast (removeFirst st.ast).1).gCost ≤ c) ∧
    Walk edges startID (removeFirst st.ast).1
      ((getN st.ast (removeFirst st.ast).1).gCost) ∧
    (getN st.ast (removeFirst st.ast).1).gCost ≤ DB ∧
    AInv edges hfun startID targetID n DB WMAX
      (fun z => z = (removeFirst st.ast).1)
      ⟨(removeFirst st.ast).2, (((removeFirst st.ast).1 : Nat) : Int) :: st.closed⟩ := by
  have hcopy := hinv
  obtain ⟨hwf, hnsize, hisize, hmemsub, hids, hclid, hnodup, hdisj, hsc, hhv,
    hgr, hgw, hcm, hcx, hsm, hgs⟩ := hcopy
  obtain ⟨hwf2, hsz2, hisz2, hnsz2, hmemf, hmin, hmemiff, hstale⟩ :=
    removeFirst_wf hwf hpos
  set x := (removeFirst st.ast).1 with hxdef
  have hxn : x < n := hmemsub x hmemf
  have hsame : sameGHP (removeFirst st.ast).2.nodes st.ast.nodes :=
    removeFirst_sameGHP st.ast
  have hgall : ∀ z : Nat,
      (getN (removeFirst st.ast).2 z).gCost = (getN st.ast z).gCost ∧
      (getN (removeFirst st.ast).2 z).hCost = (getN st.ast z).hCost ∧
      (getN (removeFirst st.ast).2 z).parentID = (getN st.ast z).parentID ∧
      (getN (removeFirst st.ast).2 z).nodeID = (getN st.ast z).nodeID :=
    fun z => hsame.2 z
  have hid2 : (getN (removeFirst st.ast).2 x).nodeID = ((x : Nat) : Int) := by
    rw [(hgall x).2.2.2]
    exact hids x hxn
  have hxnc : ((x : Int)) ∉ st.closed := fun hc => hdisj x hc hmemf
  have hpow : ((2 : Int) ^ 31) = 2147483648 := by norm_num
  have hB4 : DB + WMAX + HMAX < 2147483648 := by
    have := hB.2.2.2
    rw [hpow] at this
    exact this
  have hkey : ∀ z, z < n → hmem st.ast z →
      fcost (getN st.ast z) = (getN st.ast z).gCost + hfun z targetID := by
    intro z hzn hzm
    have h1 := hhv z hzn (Or.inl hzm)
    have h2 := hgr z hzn (Or.inl hzm)
    have h3 := hH z
    have h4 := @fcost_exact (getN st.ast z) (by rw [h1]; omega)
      (by rw [h1, hpow]; omega)
    rw [h1] at h4
    exact h4
  have hxmin : ∀ c, Walk edges startID x c → (getN st.ast x).gCost ≤ c := by
    intro c hwc
    obtain ⟨y, hyn, hym, hyb⟩ := astar_frontier hcons hinv hwc hxnc
    have hk := hmin y hym
    have hfle : fcost (getN st.ast x) ≤ fcost (getN st.ast y) := by
      unfold KLe at hk
      rcases hk with h | h
      · exact le_of_lt h
      · exact le_of_eq h.1
    rw [hkey x hxn hmemf, hkey y hyn hym] at hfle
    omega
  have hwx : Walk edges startID x ((getN st.ast x).gCost) :=
    hgw x hxn (Or.inl hmemf)
  have hxDB : (getN st.ast x).gCost ≤ DB := by
    obtain ⟨c, hwc, hcd⟩ := hDB x hxn ⟨_, hwx⟩
    have := hxmin c hwc
    omega
  have hcastx : ∀ z : Nat, ((z : Int)) = ((x : Int)) → z = x := by
    intro z h
    exact_mod_cast h
  refine ⟨hxn, hid2, fun z => (hgall z).1, hxmin, hwx, hxDB,
    ⟨hwf2, hnsz2.trans hnsize, hisz2.trans hisize, ?_, ?_, ?_, ?_, ?_, ?_, ?_, ?_,
      ?_, ?_, ?_, ?_, ?_⟩⟩
  · intro z hz
    exact hmemsub z ((hmemiff z).1 hz).1
  · intro z hzn
    rw [(hgall z).2.2.2]
    exact hids z hzn
  · intro c hc
    rcases List.mem_cons.1 hc with h | h
    · exact ⟨x, hxn, h⟩
    · exact hclid c h
  · exact List.nodup_cons.2 ⟨hxnc, hnodup⟩
  · intro z hz hm
    have hm2 := (hmemiff z).1 hm
    rcases List.mem_cons.1 hz with h | h
    · exact hm2.2 (hcastx z h)
    · exact hdisj z h hm2.1
  · intro k hk z hocc
    by_cases hkh : k < (removeFirst st.ast).2.hsize
    · exact Or.inl ⟨k, hkh, hocc⟩
    · have hk2 : st.ast.hsize - 1 ≤ k := by
        rw [hsz2] at hkh
        omega
      rw [hstale k hk2] at hocc
      have hk3 : k < st.ast.items.size := by
        rw [hisz2] at hk
        exact hk
      rcases hsc k hk3 z hocc with hm | hc
      · by_cases hzx : z = x
        · right
          rw [hzx]
          exact List.mem_cons_self _ _
        · exact Or.inl ((hmemiff z).2 ⟨hm, hzx⟩)
      · exact Or.inr (List.mem_cons_of_mem _ hc)
  · intro z hzn hmz
    rw [(hgall z).2.1]
    refine hhv z hzn ?_
    rcases hmz with h | h
    · exact Or.inl ((hmemiff z).1 h).1
    · rcases List.mem_cons.1 h with h2 | h2
      · rw [hcastx z h2]
        exact Or.inl hmemf
      · exact Or.inr h2
  · intro z hzn hmz
    rw [(hgall z).1]
    refine hgr z hzn ?_
    rcases hmz with h | h
    · exact Or.inl ((hmemiff z).1 h).1
    · rcases List.mem_cons.1 h with h2 | h2
      · rw [hcastx z h2]
        exact Or.inl hmemf
      · exact Or.inr h2
  · intro z hzn hmz
    rw [(hgall z).1]
    refine hgw z hzn ?_
    rcases hmz with h | h
    · exact Or.inl ((hmemiff z).1 h).1
    · rcases List.mem_cons.1 h with h2 | h2
      · rw [hcastx z h2]
        exact Or.inl hmemf
      · exact Or.inr h2
  · intro z hzn hzc c hwc
    rw [(hgall z).1]
    rcases List.mem_cons.1 hzc with h | h
    · have hzx := hcastx z h
      subst hzx
      exact hxmin c hwc
    · exact hcm z hzn h c hwc
  · intro p hpn hpc hpx e2 he2
    rcases List.mem_cons.1 hpc with h | h
    · exact absurd (hcastx p h) hpx
    · rcases hcx p hpn h (fun hf => hf) e2 he2 with hL | ⟨hm2, hb⟩
      · exact Or.inl (List.mem_cons_of_mem _ hL)
      · by_cases ht2 : e2.nodeID.toNat = x
        · left
          rw [ht2]
          exact List.mem_cons_self _ _
        · right
          refine ⟨(hmemiff _).2 ⟨hm2, ht2⟩, ?_⟩
          rw [(hgall (e2.nodeID.toNat)).1, (hgall p).1]
          exact hb
  · rcases hsm with h | h
    · by_cases hsx : startID = x
      · right
        rw [hsx]
        exact List.mem_cons_self _ _
      · exact Or.inl ((hmemiff _).2 ⟨h, hsx⟩)
    · exact Or.inr (List.mem_cons_of_mem _ h)
  · intro hnc
    have h1 : ((startID : Int)) ∉ st.closed :=
      fun h => hnc (List.mem_cons_of_mem _ h)
    rw [(hgall startID).1]
    exact hgs h1

/-- The A* loop of `FindPath`: while the target is reachable and not yet
closed, with enough fuel the loop exits through the early `"Path Found"`
return, and the target's recorded cost at that point is the true
shortest-path cost. -/
theorem astarLoop_opt {edges : Array (Array BEdge)} {hfun : Nat → Nat → Int}
    {startID targetID n : Nat} {DB WMAX HMAX : Int} :
    ∀ (fuel : Nat) (st : PState),
    EdgesOk edges n WMAX →
    (∀ v : Nat, 0 ≤ hfun v targetID ∧ hfun v targetID ≤ HMAX) →
    (0 ≤ DB ∧ 0 ≤ WMAX ∧ 0 ≤ HMAX ∧ DB + WMAX + HMAX < 2 ^ 31) →
    (∀ u v : Nat, ∀ w : Int, EdgeIn edges u v w →
      hfun u targetID ≤ w + hfun v targetID) →
    (∀ v, v < n → Reachable edges startID v →
      ∃ c, Walk edges startID v c ∧ c ≤ DB) →
    AInv edges hfun startID targetID n DB WMAX (fun _ => False) st →
    targetID < n →
    Reachable edges startID targetID →
    ((targetID : Int)) ∉ st.closed →
    n ≤ fuel + st.closed.length →
    (astarLoop edges hfun targetID fuel st).2 = true ∧
    Walk edges startID targetID
      ((getN (astarLoop edges hfun targetID fuel st).1.ast targetID).gCost) ∧
    (∀ c, Walk edges startID targetID c →
      (getN (astarLoop edges hfun targetID fuel st).1.ast targetID).gCost ≤ c) := by
  intro fuel
  induction fuel with
  | zero =>
    intro st _ _ _ _ _ hinv ht _ htnc hlen
    exfalso
    exact htnc (closed_full hinv.closedids hinv.cnodup (by omega) targetID ht)
  | succ m ih =>
    intro st hE hH hB hcons hDB hinv ht hreach htnc hlen
    obtain ⟨c0, hw0⟩ := hreach
    obtain ⟨y, hyn, hym, _⟩ := astar_frontier hcons hinv hw0 htnc
    have hpos : 0 < st.ast.hsize := by
      obtain ⟨k, hk, _⟩ := hym
      omega
    have hne : isNotEmpty st.ast = true := by
      rw [isNotEmpty, decide_eq_true_eq]
      exact hpos
    obtain ⟨hxn, hid2, hg2, hxmin, hwx, hxDB, hinv1⟩ :=
      astarExtract_inv hH hB hcons hDB hinv hpos
    rw [astarLoop, if_pos hne]
    dsimp only
    rw [hid2]
    by_cases hxt : (removeFirst st.ast).1 = targetID
    · rw [if_pos (by rw [beq_iff_eq, hxt])]
      refine ⟨rfl, ?_, ?_⟩
      · show Walk edges startID targetID
          ((getN (removeFirst st.ast).2 targetID).gCost)
        rw [hg2 targetID, ← hxt]
        exact hwx
      · intro c hwc
        show (getN (removeFirst st.ast).2 targetID).gCost ≤ c
        rw [hg2 targetID, ← hxt]
        refine hxmin c ?_
        rw [hxt]
        exact hwc
    · rw [if_neg (by
        rw [beq_iff_eq]
        intro h
        exact hxt (by exact_mod_cast h))]
      rw [Int.toNat_natCast, Array.foldl_eq_foldl_toList]
      have hgu1 : (getN (⟨(removeFirst st.ast).2,
          (((removeFirst st.ast).1 : Nat) : Int) :: st.closed⟩ : PState).ast
          (removeFirst st.ast).1).gCost ≤ DB := by
        show (getN (removeFirst st.ast).2 (removeFirst st.ast).1).gCost ≤ DB
        rw [hg2]
        exact hxDB
      obtain ⟨hinv2, hcl2, hmg2, hgle2, hclg2, hedge2⟩ :=
        astarFold_inv ((adjAt edges (removeFirst st.ast).1).toList)
          ⟨(removeFirst st.ast).2, (((removeFirst st.ast).1 : Nat) : Int) :: st.closed⟩
          hE hH hB hinv1 hxn (List.mem_cons_self _ _) hgu1 (fun e he => he)
      set st2 := ((adjAt edges (removeFirst st.ast).1).toList).foldl
        (astarRelax hfun targetID (removeFirst st.ast).1)
        (⟨(removeFirst st.ast).2,
          (((removeFirst st.ast).1 : Nat) : Int) :: st.closed⟩ : PState) with hst2def
      have hinv3 : AInv edges hfun startID targetID n DB WMAX (fun _ => False) st2 := by
        refine ⟨hinv2.wf, hinv2.nsize, hinv2.isize, hinv2.memsub, hinv2.ids,
          hinv2.closedids, hinv2.cnodup, hinv2.disj, hinv2.sc, hinv2.hvals,
          hinv2.grange, hinv2.gwalk, hinv2.cmin, ?_, hinv2.startm, hinv2.gstart⟩
        intro p hpn hpc _ e2 he2
        by_cases hpx : p = (removeFirst st.ast).1
        · subst hpx
          rcases hedge2 e2 he2 with hL | hR
          · left
            rw [hcl2]
            exact hL
          · exact Or.inr hR
        · exact hinv2.cexp p hpn hpc hpx e2 he2
      have htnc2 : ((targetID : Int)) ∉ st2.closed := by
        rw [hcl2]
        intro h
        rcases List.mem_cons.1 h with h2 | h2
        · exact hxt (by exact_mod_cast h2.symm)
        · exact htnc h2
      have hlen2 : n ≤ m + st2.closed.length := by
        rw [hcl2]
        rw [List.length_cons]
        omega
      exact ih st2 hE hH hB hcons hDB hinv3 ht ⟨c0, hw0⟩ htnc2 hlen2

/-- Reading a node of the `InitNodes` reset. -/
theorem initNodes_getD (ns : Array BNode) (i : Nat) (hi : i < ns.size) :
    (initNodes ns).getD i dNode =
      { ns.getD i dNode with gCost := INITIAL_DISTANCE, hCost := 0, parentID := -1 } := by
  have hsz : i < (initNodes ns).size := by
    rw [initNodes, Array.size_map]
    exact hi
  rw [Array.getD, dif_pos hsz, Array.getD, dif_pos hi]
  simp [initNodes]

/-- `FindPath` establishes the A* loop invariant once the start node is
seeded and inserted into the fresh heap. -/
theorem astarInit {g : Graph} {hfun : Nat → Nat → Int} {startID targetID : Nat}
    {DB WMAX : Int}
    (hok : GraphOk g WMAX) (hstart : startID < g.nodes.size)
    (hDBpos : 0 ≤ DB) (hWpos : 0 ≤ WMAX) :
    AInv g.edges hfun startID targetID g.nodes.size DB WMAX (fun _ => False)
      ⟨hAdd (heapInit (setH (setG (initNodes g.nodes) startID 0) startID
        (hfun startID targetID)) g.nodes.size) startID, []⟩ := by
  obtain ⟨hesz, hids0, hE⟩ := hok
  set ns2 := setH (setG (initNodes g.nodes) startID 0) startID
    (hfun startID targetID) with hns2def
  have hinsz : (initNodes g.nodes).size = g.nodes.size := by
    rw [initNodes, Array.size_map]
  have hstart1 : startID < (initNodes g.nodes).size := by
    rw [hinsz]
    exact hstart
  have hns2eq : ns2 = (initNodes g.nodes).setD startID
      { (initNodes g.nodes).getD startID dNode with gCost := 0, hCost := hfun startID targetID } := by
    rw [hns2def, setG, setH, getD_setD_self _ _ _ _ hstart1, setD_setD]
  have hsize2 : ns2.size = g.nodes.size := by
    rw [hns2eq, size_setD, hinsz]
  set s0 := heapInit ns2 g.nodes.size with hs0def
  have hn0 : s0.hsize = 0 := rfl
  have his0 : s0.items.size = g.nodes.size := by
    show (mkArray g.nodes.size (none : Option Nat)).size = g.nodes.size
    simp
  have hns0 : s0.nodes.size = g.nodes.size := hsize2
  have hwf0 : HeapWF s0 s0.hsize := by
    refine ⟨?_, ?_, ?_⟩
    · rw [hn0]
      exact Nat.zero_le _
    · intro k hk
      rw [hn0] at hk
      exact absurd hk (Nat.not_lt_zero k)
    · intro k _ hk
      rw [hn0] at hk
      exact absurd hk (Nat.not_lt_zero k)
  have hitem0 : ∀ k, itemAt s0 k = none := by
    intro k
    show (mkArray g.nodes.size (none : Option Nat)).getD k none = none
    unfold Array.getD
    split
    · simp
    · rfl
  obtain ⟨hwf1, hsz1, hisz1, hnsz1, hstale1, hmem1⟩ := hAdd_wf hwf0
    (by
      rw [hn0, his0]
      omega)
    (by
      rw [hns0]
      exact hstart)
    (by
      intro hm
      obtain ⟨k, hk, _⟩ := hm
      rw [hn0] at hk
      exact absurd hk (Nat.not_lt_zero k))
  set s1 := hAdd s0 startID with hs1def
  have hsame : sameGHP s1.nodes ns2 := hAdd_sameGHP s0 startID
  have hn2i : ∀ i : Nat, ns2.getD i dNode = (if i = startID
      then { (initNodes g.nodes).getD startID dNode with gCost := 0, hCost := hfun startID targetID }
      else (initNodes g.nodes).getD i dNode) := by
    intro i
    rw [hns2eq]
    by_cases hi2 : i = startID
    · rw [if_pos hi2, hi2]
      exact getD_setD_self _ _ _ _ hstart1
    · rw [if_neg hi2]
      exact getD_setD_other _ _ _ _ _ hi2
  have hmem1b : ∀ z, hmem s1 z ↔ z = startID := by
    intro z
    rw [hmem1 z]
    constructor
    · rintro (h | h)
      · obtain ⟨k, hk, _⟩ := h
        rw [hn0] at hk
        exact absurd hk (Nat.not_lt_zero k)
      · exact h
    · exact Or.inr
  refine ⟨hwf1, hnsz1.trans hns0, hisz1.trans his0, ?_, ?_, ?_, List.nodup_nil,
    ?_, ?_, ?_, ?_, ?_, ?_, ?_, ?_, ?_⟩
  · intro z hz
    rw [(hmem1b z)] at hz
    rw [hz]
    exact hstart
  · intro v hv
    show (s1.nodes.getD v dNode).nodeID = (v : Int)
    rw [(hsame.2 v).2.2.2, hn2i v]
    by_cases hi2 : v = startID
    · rw [if_pos hi2]
      show ((initNodes g.nodes).getD startID dNode).nodeID = (v : Int)
      rw [initNodes_getD g.nodes startID hstart]
      show (g.nodes.getD startID dNode).nodeID = (v : Int)
      rw [hids0 startID hstart, hi2]
    · rw [if_neg hi2, initNodes_getD g.nodes v hv]
      show (g.nodes.getD v dNode).nodeID = (v : Int)
      exact hids0 v hv
  · intro c hc
    exact absurd hc (List.not_mem_nil c)
  · intro v hc
    exact absurd hc (List.not_mem_nil _)
  · intro k hk z hocc
    by_cases hkh : k < s1.hsize
    · exact Or.inl ⟨k, hkh, hocc⟩
    · have hk1 : s0.hsize + 1 ≤ k := by
        rw [hn0]
        rw [hsz1, hn0] at hkh
        omega
      rw [hstale1 k hk1, hitem0 k] at hocc
      exact absurd hocc (by simp)
  · intro v hv hmc
    rcases hmc with h | h
    · rw [(hmem1b v).1 h]
      show (s1.nodes.getD startID dNode).hCost = hfun startID targetID
      rw [(hsame.2 startID).2.1, hn2i startID, if_pos rfl]
    · exact absurd h (List.not_mem_nil _)
  · intro v hv hmc
    rcases hmc with h | h
    · rw [(hmem1b v).1 h]
      show (0 : Int) ≤ (s1.nodes.getD startID dNode).gCost ∧
        (s1.nodes.getD startID dNode).gCost ≤ DB + WMAX
      rw [(hsame.2 startID).1, hn2i startID, if_pos rfl]
      refine ⟨le_refl 0, ?_⟩
      show (0 : Int) ≤ DB + WMAX
      omega
    · exact absurd h (List.not_mem_nil _)
  · intro v hv hmc
    rcases hmc with h | h
    · rw [(hmem1b v).1 h]
      show Walk g.edges startID startID ((s1.nodes.getD startID dNode).gCost)
      rw [(hsame.2 startID).1, hn2i startID, if_pos rfl]
      show Walk g.edges startID startID 0
      exact Walk.refl
    · exact absurd h (List.not_mem_nil _)
  · intro v _ hc
    exact absurd hc (List.not_mem_nil _)
  · intro p _ hc
    exact absurd hc (List.not_mem_nil _)
  · exact Or.inl ((hmem1b startID).2 rfl)
  · intro _
    show (s1.nodes.getD startID dNode).gCost = 0
    rw [(hsame.2 startID).1, hn2i startID, if_pos rfl]

/-- **C2** (amended).  With integer non-negative weights bounded by
`WMAX`, a consistent non-negative heuristic bounded by `HMAX`, every
reachable node's true cost bounded by `DB`, and
`DB + WMAX + HMAX < 2^31` (so the `int32` key arithmetic never
overflows), `FindPath` from a valid start id to a valid target id
reachable from it terminates with success, and the cost recorded at the
target equals the true shortest-path cost.  (Without the overflow bound
the original claim is refuted by `C2_overflow_counterexample`.) -/
theorem C2_findPath_astar_optimal {g : Graph} {hfun : Nat → Nat → Int}
    {startID targetID : Nat} {DB WMAX HMAX : Int}
    (hok : GraphOk g WMAX)
    (hstart : startID < g.nodes.size) (htarget : targetID < g.nodes.size)
    (hH : ∀ v : Nat, 0 ≤ hfun v targetID ∧ hfun v targetID ≤ HMAX)
    (hcons : ∀ u v : Nat, ∀ w : Int, EdgeIn g.edges u v w →
      hfun u targetID ≤ w + hfun v targetID)
    (hB : 0 ≤ DB ∧ 0 ≤ WMAX ∧ 0 ≤ HMAX ∧ DB + WMAX + HMAX < 2 ^ 31)
    (hDB : ∀ v, v < g.nodes.size → Reachable g.edges startID v →
      ∃ c, Walk g.edges startID v c ∧ c ≤ DB)
    (hreach : Reachable g.edges startID targetID) :
    (findPath hfun g startID targetID).2 = true ∧
    Walk g.edges startID targetID
      (((findPath hfun g startID targetID).1.nodes.getD targetID dNode).gCost) ∧
    (∀ c, Walk g.edges startID targetID c →
      ((findPath hfun g startID targetID).1.nodes.getD targetID dNode).gCost ≤
        c) := by
  have hinit := @astarInit g hfun startID targetID DB WMAX hok hstart hB.1 hB.2.1
  have hloop := astarLoop_opt g.nodes.size
    ⟨hAdd (heapInit (setH (setG (initNodes g.nodes) startID 0) startID
      (hfun startID targetID)) g.nodes.size) startID, []⟩
    hok.2.2 hH hB hcons hDB hinit htarget hreach (List.not_mem_nil _)
    (by simp)
  obtain ⟨h1, h2, h3⟩ := hloop
  exact ⟨h1, h2, h3⟩

/-- **C2 witness**: the one-node graph with start = target = 0 and the
all-zero heuristic; the run succeeds and records the exact distance 0. -/
theorem C2_findPath_astar_optimal_witness :
    (findPath hZero gOne 0 0).2 = true ∧
    Walk gOne.edges 0 0 (((findPath hZero gOne 0 0).1.nodes.getD 0 dNode).gCost) ∧
    (∀ c, Walk gOne.edges 0 0 c →
      ((findPath hZero gOne 0 0).1.nodes.getD 0 dNode).gCost ≤ c) :=
  @C2_findPath_astar_optimal gOne hZero 0 0 0 0 0
    ⟨by decide, by decide, edgesOk_of_bounded (by decide)⟩
    (by decide) (by decide)
    (fun v => ⟨le_refl 0, le_refl 0⟩)
    (fun u v w h => by
      have h2 := (edgesOk_of_bounded (by decide) :
        EdgesOk gOne.edges gOne.nodes.size 0) u _ h
      have h3 : (0 : Int) ≤ w := h2.2.2.1
      show (0 : Int) ≤ w + 0
      omega)
    (by decide)
    (fun v hv _ => by
      have hv1 : v < 1 := hv
      interval_cases v
      exact ⟨0, Walk.refl, le_refl 0⟩)
    ⟨0, Walk.refl⟩

/-- **C2 counterexample** (refuting the unamended claim).  On `gOverflow`
every stored position coincides, so the claim's floor-Euclidean heuristic
is identically zero (trivially consistent and admissible) and all weights
are the non-negative `2^30`; `FindPath 0 → 2` reports success, yet the
cost recorded at the target is `-2^31`: the relaxation `2^30 + 2^30`
overflowed `int32`, while every actual walk in this graph has
non-negative cost (the true `0 → 2` distance is `2^31`). -/
theorem C2_overflow_counterexample :
    (∀ u : Nat, ∀ e ∈ (adjAt gOverflow.edges u).toList, 0 ≤ e.weight) ∧
    (∀ u v : Nat, ∀ w : Int, EdgeIn gOverflow.edges u v w →
      hZero u 2 ≤ w + hZero v 2) ∧
    (findPath hZero gOverflow 0 2).2 = true ∧
    ((findPath hZero gOverflow 0 2).1.nodes.getD 2 dNode).gCost = -2147483648 ∧
    (∀ c, Walk gOverflow.edges 0 2 c → 0 ≤ c) := by
  have hEok : EdgesOk gOverflow.edges 3 1073741824 :=
    edgesOk_of_bounded (by decide)
  refine ⟨?_, ?_, by decide, by decide, ?_⟩
  · intro u e he
    exact (hEok u e he).2.2.1
  · intro u v w h
    have h2 : (0 : Int) ≤ w := (hEok u _ h).2.2.1
    show (0 : Int) ≤ w + 0
    omega
  · intro c hwc
    refine walk_nonneg ?_ hwc
    intro u e he
    exact (hEok u e he).2.2.1

/-- **C10 counterexample**.  The graph `gCycle` (parent links `0 ↔ 1`,
start `2`, target `0`) passes all of `GetPath`'s validation checks and its
parent chain never reaches the start — yet the retrace also never reads
index `-1`: it cycles inside the node array forever (the model's fuelled
loop reports non-termination), refuting the claim's parenthetical. -/
theorem C10_cycle_counterexample :
    isValidIndex gCycle 2 = true ∧ isValidIndex gCycle 0 = true ∧
    parentAt gCycle 0 ≠ -1 ∧
    (¬ ∃ k, pIter gCycle k 0 = 2) ∧
    (¬ ∃ k, pIter gCycle k 0 = -1) ∧
    (getPath hZero gCycle 2 0 false).1 = none := by
  have haux : ∀ (k : Nat) (c : Int), (c = 0 ∨ c = 1) →
      (pIter gCycle k c = 0 ∨ pIter gCycle k c = 1) := by
    intro k
    induction k with
    | zero => intro c hc; exact hc
    | succ n ih =>
      intro c hc
      rw [pIter]
      refine ih (parentAt gCycle c) ?_
      rcases hc with h | h <;> subst h
      · right; rfl
      · left; rfl
  refine ⟨rfl, rfl, by decide, ?_, ?_, rfl⟩
  · rintro ⟨k, hk⟩
    rcases haux k 0 (Or.inl rfl) with h | h <;> omega
  · rintro ⟨k, hk⟩
    rcases haux k 0 (Or.inl rfl) with h | h <;> omega

end BytesPathfinder
